import Mathlib

/-!
Formal model of the dense state-vector quantum simulator
(`src/state_vector_simulation.rs`, `src/gate.rs`, `src/state_vector_init.rs`).

Modelling conventions:
* `f64` values are idealized as real numbers (`ℝ`); `Complex<f64>` becomes `ℂ`.
  In particular the source constant `INV_SQRT_2 = 0.7071067811865475` is read as
  the real number `1/√2` that it approximates.
* The seeded random generator `StdRng` is modelled as an immutable stream of
  draws `rng : ℕ → ℝ` together with a cursor `rngPos`; `rng.random()` reads
  `rng rngPos` and increments the cursor.  A draw of `StdRng::random::<f64>()`
  lies in the interval `[0, 1)`.
* Rust `assert!` failures and out-of-bounds indexing panics are modelled as
  `Except.error`; a successful call is `Except.ok`.
* In-place `Vec` mutation loops are modelled as `List.foldl` over
  `List.range`, writing with `List.set` and reading with `List.getD`.
-/

namespace QSim

noncomputable section

/-- The constant `INV_SQRT_2` of `gate.rs` (the `f64` literal
`0.7071067811865475`), idealized as the real number `1/√2`. -/
def INV_SQRT_2 : ℝ := (Real.sqrt 2)⁻¹

namespace gate

/-- Gate `pauli_x` from `gate.rs`: swap the pair. -/
def pauli_x (amplitude0 amplitude1 : ℂ) : ℂ × ℂ :=
  (amplitude1, amplitude0)

/-- Gate `pauli_y` from `gate.rs`. -/
def pauli_y (amplitude0 amplitude1 : ℂ) : ℂ × ℂ :=
  (-Complex.I * amplitude1, Complex.I * amplitude0)

/-- Gate `pauli_z` from `gate.rs`. -/
def pauli_z (amplitude0 amplitude1 : ℂ) : ℂ × ℂ :=
  (amplitude0, -amplitude1)

/-- Gate `hadamard` from `gate.rs`. -/
def hadamard (amplitude0 amplitude1 : ℂ) : ℂ × ℂ :=
  ((INV_SQRT_2 : ℂ) * (amplitude0 + amplitude1),
   (INV_SQRT_2 : ℂ) * (amplitude0 - amplitude1))

/-- Gate `s` from `gate.rs`. -/
def s (amplitude0 amplitude1 : ℂ) : ℂ × ℂ :=
  (amplitude0, Complex.I * amplitude1)

/-- Gate `t` from `gate.rs`: multiply `amplitude1` by `e^(iπ/4)`
(written in the source as `Complex::new(INV_SQRT_2, INV_SQRT_2)`). -/
def t (amplitude0 amplitude1 : ℂ) : ℂ × ℂ :=
  (amplitude0, ((INV_SQRT_2 : ℂ) + (INV_SQRT_2 : ℂ) * Complex.I) * amplitude1)

/-- Gate `cnot` from `gate.rs`. -/
def cnot (amplitude00 amplitude01 amplitude10 amplitude11 : ℂ) :
    ℂ × ℂ × ℂ × ℂ :=
  (amplitude00, amplitude11, amplitude10, amplitude01)

/-- Gate `cz` from `gate.rs`. -/
def cz (amplitude00 amplitude01 amplitude10 amplitude11 : ℂ) :
    ℂ × ℂ × ℂ × ℂ :=
  (amplitude00, amplitude01, amplitude10, -amplitude11)

/-- Gate `swap` from `gate.rs`. -/
def swap (amplitude00 amplitude01 amplitude10 amplitude11 : ℂ) :
    ℂ × ℂ × ℂ × ℂ :=
  (amplitude00, amplitude10, amplitude01, amplitude11)

/-- Gate `toffoli` from `gate.rs`: exchange the `011` and `111` entries. -/
def toffoli (a000 a001 a010 a011 a100 a101 a110 a111 : ℂ) :
    ℂ × ℂ × ℂ × ℂ × ℂ × ℂ × ℂ × ℂ :=
  (a000, a001, a010, a111, a100, a101, a110, a011)

end gate

/-- The type `Qubit<f64>` of `state_vector_init.rs`: a pair of amplitudes. -/
def Qubit : Type := ℂ × ℂ

/-- Modelled from the spec: the constant `ZERO_QUBIT` is imported by
`state_vector_simulation.rs` from `state_vector_init` but its definition is
not in the inspected sources; per the spec's ground state (and the sibling
`ground_state_qubit` in `state_vector_init.rs`) it is the pair `(1, 0)`. -/
def ZERO_QUBIT : Qubit := ((1 : ℂ), (0 : ℂ))

/-- Modelled from the spec: the constant `ONE_QUBIT` is imported by
`state_vector_simulation.rs` from `state_vector_init` but its definition is
not in the inspected sources; per the spec (and the sibling
`excited_state_qubit` in `state_vector_init.rs`) it is the pair `(0, 1)`. -/
def ONE_QUBIT : Qubit := ((0 : ℂ), (1 : ℂ))

/-- Function `get_amplitudes` from `state_vector_init.rs`: the tensor-product
amplitude vector of a list of one-qubit states.  Entry `i` is the product over
qubit positions `j` of the `.1` or `.0` component of `qubits[j]` according to
bit `j` of `i` (mask `1 << j`). -/
def get_amplitudes (qubits : List Qubit) : List ℂ :=
  (List.range (2 ^ qubits.length)).map (fun i =>
    (List.range qubits.length).foldl
      (fun amplitude j =>
        if i &&& (1 <<< j) ≠ 0 then amplitude * (qubits.getD j ((0 : ℂ), (0 : ℂ))).2
        else amplitude * (qubits.getD j ((0 : ℂ), (0 : ℂ))).1)
      1)

/-- Modelled from the spec: `get_ground_state_amplitudes` is imported by
`state_vector_simulation.rs` from `state_vector_init` but its definition is
not in the inspected sources; per the spec ("ground-state vector: amplitude 1
at index 0, 0 elsewhere") it is the unit vector at basis index 0 of length
`2^n`. -/
def get_ground_state_amplitudes (n : ℕ) : List ℂ :=
  (List.range (2 ^ n)).map (fun i => if i = 0 then (1 : ℂ) else 0)

/-- The constant `MAX_QUBIT_COUNT` of `state_vector_simulation.rs`. -/
def MAX_QUBIT_COUNT : ℕ := 32

/-- The struct `QuantumSimulation` of `state_vector_simulation.rs`.  The
`StdRng` field is modelled as the immutable stream `rng` of future `f64`
draws plus the cursor `rngPos` (the generator's internal state). -/
structure QuantumSimulation where
  qubit_count : ℕ
  amplitudes : List ℂ
  rng : ℕ → ℝ
  rngPos : ℕ

/-- Method `reset` (trait impl in `state_vector_simulation.rs`): reinstall the
ground-state amplitude vector; the random generator is untouched. -/
def reset (sim : QuantumSimulation) : QuantumSimulation :=
  { sim with amplitudes := get_ground_state_amplitudes sim.qubit_count }

/-- Constructor `QuantumSimulation::new`: assert the qubit-count ceiling, seed
the generator, and reset to the ground state.  The failed `assert!` is
modelled as `Except.error`. -/
def new (qubit_count : ℕ) (rng : ℕ → ℝ) :
    Except String QuantumSimulation :=
  if qubit_count ≤ MAX_QUBIT_COUNT then
    .ok (reset { qubit_count := qubit_count, amplitudes := [], rng := rng, rngPos := 0 })
  else
    .error "The number of qubits in the simulation cannot exceed MAX_QUBIT_COUNT."

/-- The selection loop of `_choose_state`: walk the probability list
accumulating; on the first index whose accumulated probability is `≥ r`,
stop and report it.  `none` means the loop ran to completion without the
break firing. -/
def choose_loop (r : ℝ) : List ℝ → ℝ → ℕ → Option ℕ
  | [], _, _ => none
  | p :: ps, acc, i =>
    let acc' := acc + p
    if r ≤ acc' then some i else choose_loop r ps acc' (i + 1)

/-- The pure core of `_choose_state`: `state_index` starts at `0` and is only
overwritten when the break fires, so a completed loop yields `0`. -/
def choose_index (probabilities : List ℝ) (r : ℝ) : ℕ :=
  (choose_loop r probabilities 0 0).getD 0

/-- Method `_choose_state` of `state_vector_simulation.rs`: map amplitudes to
probabilities `|a|²`, draw one random number, and select a basis index.
Drawing advances the generator cursor by one. -/
def choose_state (sim : QuantumSimulation) : ℕ × QuantumSimulation :=
  (choose_index (sim.amplitudes.map Complex.normSq) (sim.rng sim.rngPos),
   { sim with rngPos := sim.rngPos + 1 })

/-- The mutation loop of `apply_one_qubit_gate`: for each `i0` with target bit
clear, rewrite the pair at `i0`, `i0 + mask` with the gate function. -/
def one_qubit_loop (g : ℂ → ℂ → ℂ × ℂ) (qubit_number : ℕ)
    (amps : List ℂ) : List ℂ :=
  (List.range amps.length).foldl
    (fun a i0 =>
      let mask := 1 <<< qubit_number
      if i0 &&& mask ≠ 0 then a
      else
        let i1 := i0 + mask
        let p := g (a.getD i0 0) (a.getD i1 0)
        (a.set i0 p.1).set i1 p.2)
    amps

/-- Method `apply_one_qubit_gate` of `state_vector_simulation.rs` with its
bounds `assert!` modelled as `Except.error`. -/
def apply_one_qubit_gate (g : ℂ → ℂ → ℂ × ℂ) (qubit_number : ℕ)
    (sim : QuantumSimulation) : Except String QuantumSimulation :=
  if qubit_number < sim.qubit_count then
    .ok { sim with amplitudes := one_qubit_loop g qubit_number sim.amplitudes }
  else
    .error "The qubit number has to be less than the number of qubits."

/-- The mutation loop of `apply_two_qubit_gate`: for each `i00` with both
target bits clear, rewrite the four amplitudes addressed by the masks.  The
four reads all happen before the four sequential writes, exactly as in the
source. -/
def two_qubit_loop (g : ℂ → ℂ → ℂ → ℂ → ℂ × ℂ × ℂ × ℂ)
    (qubit_number0 qubit_number1 : ℕ) (amps : List ℂ) : List ℂ :=
  (List.range amps.length).foldl
    (fun a i00 =>
      let mask01 := 1 <<< qubit_number0
      let mask10 := 1 <<< qubit_number1
      let mask11 := mask01 ||| mask10
      if i00 &&& mask01 ≠ 0 then a
      else if i00 &&& mask10 ≠ 0 then a
      else
        let i01 := i00 + mask01
        let i10 := i00 + mask10
        let i11 := i00 + mask11
        let p := g (a.getD i00 0) (a.getD i01 0) (a.getD i10 0) (a.getD i11 0)
        ((((a.set i00 p.1).set i01 p.2.1).set i10 p.2.2.1).set i11 p.2.2.2))
    amps

/-- Method `apply_two_qubit_gate` of `state_vector_simulation.rs`; its
`assert!` checks only that both indices are in bounds (distinctness is not
checked). -/
def apply_two_qubit_gate (g : ℂ → ℂ → ℂ → ℂ → ℂ × ℂ × ℂ × ℂ)
    (qubit_number0 qubit_number1 : ℕ) (sim : QuantumSimulation) :
    Except String QuantumSimulation :=
  if qubit_number0 < sim.qubit_count ∧ qubit_number1 < sim.qubit_count then
    .ok { sim with
          amplitudes := two_qubit_loop g qubit_number0 qubit_number1 sim.amplitudes }
  else
    .error "The qubit number has to be less than the number of qubits."

/-- The mutation loop of `apply_three_qubit_gate`, with the source's seven
OR-combined masks.  The eight reads all happen before the eight sequential
writes. -/
def three_qubit_loop
    (g : ℂ → ℂ → ℂ → ℂ → ℂ → ℂ → ℂ → ℂ → ℂ × ℂ × ℂ × ℂ × ℂ × ℂ × ℂ × ℂ)
    (qubit_number0 qubit_number1 qubit_number2 : ℕ) (amps : List ℂ) : List ℂ :=
  (List.range amps.length).foldl
    (fun a i000 =>
      let mask001 := 1 <<< qubit_number0
      let mask010 := 1 <<< qubit_number1
      let mask011 := mask001 ||| mask010
      let mask100 := 1 <<< qubit_number2
      let mask101 := mask001 ||| mask100
      let mask110 := mask010 ||| mask100
      let mask111 := mask011 ||| mask100
      if i000 &&& mask001 ≠ 0 then a
      else if i000 &&& mask010 ≠ 0 then a
      else if i000 &&& mask100 ≠ 0 then a
      else
        let i001 := i000 + mask001
        let i010 := i000 + mask010
        let i011 := i000 + mask011
        let i100 := i000 + mask100
        let i101 := i000 + mask101
        let i110 := i000 + mask110
        let i111 := i000 + mask111
        let p := g (a.getD i000 0) (a.getD i001 0) (a.getD i010 0) (a.getD i011 0)
                   (a.getD i100 0) (a.getD i101 0) (a.getD i110 0) (a.getD i111 0)
        ((((((((a.set i000 p.1).set i001 p.2.1).set i010 p.2.2.1).set
            i011 p.2.2.2.1).set i100 p.2.2.2.2.1).set i101 p.2.2.2.2.2.1).set
            i110 p.2.2.2.2.2.2.1).set i111 p.2.2.2.2.2.2.2))
    amps

/-- Method `apply_three_qubit_gate` of `state_vector_simulation.rs`; its
`assert!` checks only that the three indices are in bounds. -/
def apply_three_qubit_gate
    (g : ℂ → ℂ → ℂ → ℂ → ℂ → ℂ → ℂ → ℂ → ℂ × ℂ × ℂ × ℂ × ℂ × ℂ × ℂ × ℂ)
    (qubit_number0 qubit_number1 qubit_number2 : ℕ) (sim : QuantumSimulation) :
    Except String QuantumSimulation :=
  if qubit_number0 < sim.qubit_count ∧ qubit_number1 < sim.qubit_count ∧
      qubit_number2 < sim.qubit_count then
    .ok { sim with
          amplitudes :=
            three_qubit_loop g qubit_number0 qubit_number1 qubit_number2
              sim.amplitudes }
  else
    .error "The qubit number has to be less than the number of qubits."

/-- Method `measure_all` of `state_vector_simulation.rs`: sample a basis
index, decode its bits (mask `1 << qubit_number`) into the outcome list in
ascending qubit order, and overwrite the amplitudes with the tensor product
of the corresponding `ONE_QUBIT`/`ZERO_QUBIT` basis states. -/
def measure_all (sim : QuantumSimulation) : List Bool × QuantumSimulation :=
  let c := choose_state sim
  let measured_state_index := c.1
  let sim' := c.2
  let measured_states :=
    (List.range sim.qubit_count).map
      (fun qubit_number => decide (measured_state_index &&& (1 <<< qubit_number) ≠ 0))
  let qubits : List Qubit :=
    measured_states.map (fun b => if b then ONE_QUBIT else ZERO_QUBIT)
  (measured_states, { sim' with amplitudes := get_amplitudes qubits })

/-- The zeroing loop of `measure`: iterate over all basis indices; an index
whose bits at the measured qubit positions disagree with the sampled outcome
has its amplitude zeroed; a surviving index contributes `|a|²` to the
accumulated probability and is recorded in `possible_amplitude_indices`. -/
def measure_zero_loop (qubit_numbers : List ℕ) (measured_states : List Bool)
    (amps : List ℂ) : List ℂ × ℝ × List ℕ :=
  (List.range amps.length).foldl
    (fun st i =>
      let a := st.1
      let acc := st.2.1
      let poss := st.2.2
      if (qubit_numbers.zip measured_states).any
          (fun qb => (decide (i &&& (1 <<< qb.1) ≠ 0)) != qb.2) then
        (a.set i 0, acc, poss)
      else
        (a, acc + Complex.normSq (a.getD i 0), poss ++ [i]))
    (amps, 0, [])

/-- The renormalization loop of `measure`: multiply every surviving amplitude
by `(1.0 / accumulated_probability).sqrt()`. -/
def measure_bump_loop (bump : ℝ) (poss : List ℕ) (amps : List ℂ) : List ℂ :=
  poss.foldl (fun a i => a.set i ((bump : ℂ) * a.getD i 0)) amps

/-- Method `measure` of `state_vector_simulation.rs`: assert bounds for every
requested qubit, sample a basis index with one random draw, read the outcome
bits, zero every mismatching amplitude, and renormalize the survivors. -/
def measure (qubit_numbers : List ℕ) (sim : QuantumSimulation) :
    Except String (List Bool × QuantumSimulation) :=
  if ∀ qubit_number ∈ qubit_numbers, qubit_number < sim.qubit_count then
    let c := choose_state sim
    let measured_state_index := c.1
    let sim' := c.2
    let measured_states :=
      qubit_numbers.map
        (fun qubit_number => decide (measured_state_index &&& (1 <<< qubit_number) ≠ 0))
    let z := measure_zero_loop qubit_numbers measured_states sim'.amplitudes
    let bump := Real.sqrt (1 / z.2.1)
    .ok (measured_states,
         { sim' with amplitudes := measure_bump_loop bump z.2.2 z.1 })
  else
    .error "The qubit number has to be less than the number of qubits."

/-- Facade method `pauli_x`. -/
def pauli_x (qubit_number : ℕ) (sim : QuantumSimulation) :
    Except String QuantumSimulation :=
  apply_one_qubit_gate gate.pauli_x qubit_number sim

/-- Facade method `pauli_y`. -/
def pauli_y (qubit_number : ℕ) (sim : QuantumSimulation) :
    Except String QuantumSimulation :=
  apply_one_qubit_gate gate.pauli_y qubit_number sim

/-- Facade method `pauli_z`. -/
def pauli_z (qubit_number : ℕ) (sim : QuantumSimulation) :
    Except String QuantumSimulation :=
  apply_one_qubit_gate gate.pauli_z qubit_number sim

/-- Facade method `hadamard`. -/
def hadamard (qubit_number : ℕ) (sim : QuantumSimulation) :
    Except String QuantumSimulation :=
  apply_one_qubit_gate gate.hadamard qubit_number sim

/-- Facade method `s`. -/
def s_gate (qubit_number : ℕ) (sim : QuantumSimulation) :
    Except String QuantumSimulation :=
  apply_one_qubit_gate gate.s qubit_number sim

/-- Facade method `t`. -/
def t_gate (qubit_number : ℕ) (sim : QuantumSimulation) :
    Except String QuantumSimulation :=
  apply_one_qubit_gate gate.t qubit_number sim

/-- Facade method `cnot`. -/
def cnot (control_qubit_number target_qubit_number : ℕ)
    (sim : QuantumSimulation) : Except String QuantumSimulation :=
  apply_two_qubit_gate gate.cnot control_qubit_number target_qubit_number sim

/-- Facade method `cz`. -/
def cz (control_qubit_number target_qubit_number : ℕ)
    (sim : QuantumSimulation) : Except String QuantumSimulation :=
  apply_two_qubit_gate gate.cz control_qubit_number target_qubit_number sim

/-- Facade method `swap`. -/
def swap (qubit_number0 qubit_number1 : ℕ) (sim : QuantumSimulation) :
    Except String QuantumSimulation :=
  apply_two_qubit_gate gate.swap qubit_number0 qubit_number1 sim

/-- Facade method `toffoli`. -/
def toffoli (control_qubit_number0 control_qubit_number1 target_qubit_number : ℕ)
    (sim : QuantumSimulation) : Except String QuantumSimulation :=
  apply_three_qubit_gate gate.toffoli control_qubit_number0
    control_qubit_number1 target_qubit_number sim

/-- The swap loop of `apply_u_f`: for each basis index `i0` with the answer
bit clear, read the input bits `x`, and if `f x` holds exchange the
amplitudes at `i0` and `i0 | mask_y`. -/
def u_f_loop {N : ℕ} (f : (Fin N → Bool) → Bool) (input_qubits : Fin N → ℕ)
    (answer_qubit : ℕ) (amps : List ℂ) : List ℂ :=
  (List.range amps.length).foldl
    (fun a i0 =>
      let mask_y := 1 <<< answer_qubit
      if i0 &&& mask_y ≠ 0 then a
      else
        let x : Fin N → Bool := fun j => decide (i0 &&& (1 <<< input_qubits j) ≠ 0)
        if ¬ f x then a
        else
          let i1 := i0 ||| mask_y
          let v := a.getD i0 0
          (a.set i0 (a.getD i1 0)).set i1 v)
    amps

/-- Method `apply_u_f` of `state_vector_simulation.rs`.  The source performs
no validation; however an out-of-range `answer_qubit` makes the write index
`i0 | mask_y` exceed the vector length, which panics in Rust
(`index out of bounds`) — modelled here as `Except.error` when the loop
would touch an out-of-range cell. -/
def apply_u_f {N : ℕ} (f : (Fin N → Bool) → Bool) (input_qubits : Fin N → ℕ)
    (answer_qubit : ℕ) (sim : QuantumSimulation) :
    Except String QuantumSimulation :=
  let mask_y := 1 <<< answer_qubit
  if ∀ i0 ∈ List.range sim.amplitudes.length,
      i0 &&& mask_y = 0 →
      f (fun j => decide (i0 &&& (1 <<< input_qubits j) ≠ 0)) = true →
      i0 ||| mask_y < sim.amplitudes.length then
    .ok { sim with
          amplitudes := u_f_loop f input_qubits answer_qubit sim.amplitudes }
  else
    .error "index out of bounds"

/-- Sum of squared magnitudes of an amplitude vector. -/
def norm_total (amps : List ℂ) : ℝ :=
  (amps.map Complex.normSq).sum

/-- The unit basis vector at index `k` in dimension `2^n`. -/
def basis_vector (n k : ℕ) : List ℂ :=
  (List.range (2 ^ n)).map (fun i => if i = k then (1 : ℂ) else 0)

/-- A non-measuring call of the capability surface (a "gate sequence"
element): `reset` or one of the ten named gates. -/
inductive GOp where
  | reset
  | pauli_x (q : ℕ)
  | pauli_y (q : ℕ)
  | pauli_z (q : ℕ)
  | hadamard (q : ℕ)
  | s_gate (q : ℕ)
  | t_gate (q : ℕ)
  | cnot (a b : ℕ)
  | cz (a b : ℕ)
  | swap (a b : ℕ)
  | toffoli (a b c : ℕ)

/-- Dispatch one `GOp` to the corresponding facade method. -/
def apply_gop (op : GOp) (sim : QuantumSimulation) :
    Except String QuantumSimulation :=
  match op with
  | .reset => .ok (reset sim)
  | .pauli_x q => pauli_x q sim
  | .pauli_y q => pauli_y q sim
  | .pauli_z q => pauli_z q sim
  | .hadamard q => hadamard q sim
  | .s_gate q => s_gate q sim
  | .t_gate q => t_gate q sim
  | .cnot a b => cnot a b sim
  | .cz a b => cz a b sim
  | .swap a b => swap a b sim
  | .toffoli a b c => toffoli a b c sim

/-- Run a list of gate operations in order, stopping at the first failure. -/
def run_gops (ops : List GOp) (sim : QuantumSimulation) :
    Except String QuantumSimulation :=
  match ops with
  | [] => .ok sim
  | op :: rest => (apply_gop op sim).bind (run_gops rest)

/-- Which measurement call finishes a trial: `measure_all()` or
`measure(qubitIndices)`. -/
inductive MKind where
  | all
  | sel (qs : List ℕ)

/-- Perform the selected measurement call. -/
def do_meas (mk : MKind) (sim : QuantumSimulation) :
    Except String (List Bool × QuantumSimulation) :=
  match mk with
  | .all => .ok (measure_all sim)
  | .sel qs => measure qs sim

/-- One trial of the cross-consistency experiment: run the gate sequence,
then the trial's measurement call. -/
def run_trial (prog : List GOp) (mk : MKind) (sim : QuantumSimulation) :
    Except String (List Bool × QuantumSimulation) :=
  (run_gops prog sim).bind (do_meas mk)

/-- Run `k` trials in sequence, collecting the outcome of each trial. -/
def run_trials (prog : List GOp) (mk : MKind) :
    ℕ → QuantumSimulation → Except String (List (List Bool) × QuantumSimulation)
  | 0, sim => .ok ([], sim)
  | Nat.succ k, sim =>
    (run_trial prog mk sim).bind fun oc =>
      (run_trials prog mk k oc.2).map fun rest => (oc.1 :: rest.1, rest.2)

/-- The reachable states of a `QuantumSimulation`: everything obtainable from
a successful construction by successful public calls (gates, oracle,
measurements, reset). -/
inductive Reachable : QuantumSimulation → Prop where
  | base (n : ℕ) (stream : ℕ → ℝ) (sim : QuantumSimulation) :
      new n stream = .ok sim → Reachable sim
  | reset_step (sim : QuantumSimulation) :
      Reachable sim → Reachable (reset sim)
  | pauli_x_step (q : ℕ) (sim sim' : QuantumSimulation) :
      Reachable sim → pauli_x q sim = .ok sim' → Reachable sim'
  | pauli_y_step (q : ℕ) (sim sim' : QuantumSimulation) :
      Reachable sim → pauli_y q sim = .ok sim' → Reachable sim'
  | pauli_z_step (q : ℕ) (sim sim' : QuantumSimulation) :
      Reachable sim → pauli_z q sim = .ok sim' → Reachable sim'
  | hadamard_step (q : ℕ) (sim sim' : QuantumSimulation) :
      Reachable sim → hadamard q sim = .ok sim' → Reachable sim'
  | s_step (q : ℕ) (sim sim' : QuantumSimulation) :
      Reachable sim → s_gate q sim = .ok sim' → Reachable sim'
  | t_step (q : ℕ) (sim sim' : QuantumSimulation) :
      Reachable sim → t_gate q sim = .ok sim' → Reachable sim'
  | cnot_step (a b : ℕ) (sim sim' : QuantumSimulation) :
      Reachable sim → cnot a b sim = .ok sim' → Reachable sim'
  | cz_step (a b : ℕ) (sim sim' : QuantumSimulation) :
      Reachable sim → cz a b sim = .ok sim' → Reachable sim'
  | swap_step (a b : ℕ) (sim sim' : QuantumSimulation) :
      Reachable sim → swap a b sim = .ok sim' → Reachable sim'
  | toffoli_step (a b c : ℕ) (sim sim' : QuantumSimulation) :
      Reachable sim → toffoli a b c sim = .ok sim' → Reachable sim'
  | u_f_step {N : ℕ} (f : (Fin N → Bool) → Bool) (input_qubits : Fin N → ℕ)
      (answer_qubit : ℕ) (sim sim' : QuantumSimulation) :
      Reachable sim → apply_u_f f input_qubits answer_qubit sim = .ok sim' →
      Reachable sim'
  | measure_step (qs : List ℕ) (out : List Bool) (sim sim' : QuantumSimulation) :
      Reachable sim → measure qs sim = .ok (out, sim') → Reachable sim'
  | measure_all_step (sim : QuantumSimulation) :
      Reachable sim → Reachable (measure_all sim).2

end

/-! ### Basic list lemmas -/

theorem getD_set_self {α : Type} {l : List α} {i : ℕ} {v d : α}
    (h : i < l.length) : (l.set i v).getD i d = v := by
  simp [List.getD_eq_getElem?_getD, List.getElem?_set_self h]

theorem getD_set_ne {α : Type} {l : List α} {i j : ℕ} (v d : α)
    (h : i ≠ j) : (l.set i v).getD j d = l.getD j d := by
  simp [List.getD_eq_getElem?_getD, List.getElem?_set_ne h]

theorem getD_eq_default {α : Type} {l : List α} {i : ℕ} (d : α)
    (h : l.length ≤ i) : l.getD i d = d := by
  simp [List.getD_eq_getElem?_getD, List.getElem?_eq_none h]

/-! ### The inverse-CDF selection loop -/

theorem choose_loop_none_iff (r : ℝ) (ps : List ℝ) :
    ∀ (acc : ℝ) (i : ℕ),
      choose_loop r ps acc i = none ↔
        ∀ j < ps.length, acc + ((ps.take (j + 1)).sum) < r := by
  induction ps with
  | nil => intro acc i; simp [choose_loop]
  | cons p ps ih =>
    intro acc i
    by_cases h : r ≤ acc + p
    · simp only [choose_loop, h, if_pos]
      constructor
      · intro hc; cases hc
      · intro hall
        have h0 := hall 0 (by simp)
        simp at h0
        exact absurd h (not_le.mpr h0)
    · simp only [choose_loop, h, if_neg, not_false_iff]
      rw [ih (acc + p) (i + 1)]
      constructor
      · intro hall j hj
        cases j with
        | zero => simpa using lt_of_not_le h
        | succ j' =>
          have := hall j' (by simpa using hj)
          simpa [add_assoc] using this
      · intro hall j hj
        have := hall (j + 1) (by simpa using hj)
        simpa [add_assoc] using this

theorem choose_loop_eq_some (r : ℝ) (ps : List ℝ) :
    ∀ (acc : ℝ) (i m : ℕ), m < ps.length →
      r ≤ acc + ((ps.take (m + 1)).sum) →
      (∀ l < m, acc + ((ps.take (l + 1)).sum) < r) →
      choose_loop r ps acc i = some (i + m) := by
  induction ps with
  | nil => intro acc i m hm; simp at hm
  | cons p ps ih =>
    intro acc i m hm hge hlt
    cases m with
    | zero =>
      have : r ≤ acc + p := by simpa using hge
      simp [choose_loop, this]
    | succ m' =>
      have h0 : acc + p < r := by simpa using hlt 0 (Nat.succ_pos m')
      have hnot : ¬ r ≤ acc + p := not_le.mpr h0
      simp only [choose_loop, hnot, if_neg, not_false_iff]
      have := ih (acc + p) (i + 1) m' (by simpa using hm)
        (by simpa [add_assoc] using hge)
        (by intro l hl; have := hlt (l + 1) (by simpa using hl);
            simpa [add_assoc] using this)
      rw [this]
      congr 1
      omega

theorem choose_index_break (probs : List ℝ) (r : ℝ)
    (h : ∃ j < probs.length, r ≤ ((probs.take (j + 1)).sum)) :
    choose_index probs r < probs.length ∧
    r ≤ ((probs.take (choose_index probs r + 1)).sum) ∧
    ∀ l < choose_index probs r, ((probs.take (l + 1)).sum) < r := by
  classical
  obtain ⟨j, hj, hge⟩ := h
  have hex : ∃ m, r ≤ ((probs.take (m + 1)).sum) := ⟨j, hge⟩
  let m := Nat.find hex
  have hm_le : m ≤ j := Nat.find_min' hex hge
  have hm_lt : m < probs.length := lt_of_le_of_lt hm_le hj
  have hm_ge : r ≤ ((probs.take (m + 1)).sum) := Nat.find_spec hex
  have hm_min : ∀ l < m, ((probs.take (l + 1)).sum) < r := by
    intro l hl
    have := Nat.find_min hex hl
    exact lt_of_not_le this
  have heq : choose_loop r probs 0 0 = some (0 + m) :=
    choose_loop_eq_some r probs 0 0 m hm_lt (by simpa using hm_ge)
      (by intro l hl; simpa using hm_min l hl)
  have : choose_index probs r = m := by
    simp [choose_index, heq]
  rw [this]
  exact ⟨hm_lt, hm_ge, hm_min⟩

theorem choose_index_fallback (probs : List ℝ) (r : ℝ)
    (h : ∀ j < probs.length, ((probs.take (j + 1)).sum) < r) :
    choose_index probs r = 0 := by
  have : choose_loop r probs 0 0 = none := by
    rw [choose_loop_none_iff]
    intro j hj
    simpa using h j hj
  simp [choose_index, this]

theorem choose_index_lt (probs : List ℝ) (r : ℝ) (h : 0 < probs.length) :
    choose_index probs r < probs.length := by
  classical
  by_cases hb : ∃ j < probs.length, r ≤ ((probs.take (j + 1)).sum)
  · exact (choose_index_break probs r hb).1
  · push_neg at hb
    rw [choose_index_fallback probs r hb]
    exact h

/-! ### Bitmask arithmetic -/

theorem and_pow_ne_zero_iff (i q : ℕ) :
    i &&& (1 <<< q) ≠ 0 ↔ Nat.testBit i q = true := by
  rw [Nat.one_shiftLeft, Nat.and_two_pow]
  cases h : Nat.testBit i q <;>
    simp [Nat.ne_of_gt (Nat.two_pow_pos q)]

theorem mod_lt_pow_of_clear {i q : ℕ} (h : Nat.testBit i q = false) :
    i % 2 ^ (q + 1) < 2 ^ q := by
  set b := i % 2 ^ (q + 1) with hb
  have hblt : b < 2 ^ (q + 1) := Nat.mod_lt _ (Nat.two_pow_pos _)
  have hbq : Nat.testBit b q = false := by
    rw [hb, Nat.testBit_mod_two_pow]
    simp [h]
  by_contra hge
  push_neg at hge
  obtain ⟨c, hc⟩ : ∃ c, b = 2 ^ q + c := ⟨b - 2 ^ q, by omega⟩
  have hclt : c < 2 ^ q := by
    have : 2 ^ (q + 1) = 2 ^ q + 2 ^ q := by ring
    omega
  have : Nat.testBit b q = true := by
    rw [hc, Nat.testBit_two_pow_add_eq, Nat.testBit_lt_two_pow hclt]
    rfl
  simp [this] at hbq

theorem testBit_add_pow {i q : ℕ} (h : Nat.testBit i q = false) (p : ℕ) :
    Nat.testBit (i + 2 ^ q) p = (Nat.testBit i p || decide (p = q)) := by
  have hdecomp : i = 2 ^ (q + 1) * (i / 2 ^ (q + 1)) + i % 2 ^ (q + 1) :=
    (Nat.div_add_mod i (2 ^ (q + 1))).symm
  set a := i / 2 ^ (q + 1)
  set b := i % 2 ^ (q + 1) with hbdef
  have hblt : b < 2 ^ q := mod_lt_pow_of_clear h
  have hblt' : b < 2 ^ (q + 1) :=
    lt_of_lt_of_le hblt (Nat.pow_le_pow_right (by norm_num) (Nat.le_succ q))
  have hblt2 : b + 2 ^ q < 2 ^ (q + 1) := by
    have : 2 ^ (q + 1) = 2 ^ q + 2 ^ q := by ring
    omega
  have hi : i + 2 ^ q = 2 ^ (q + 1) * a + (b + 2 ^ q) := by omega
  rw [hi, Nat.testBit_mul_pow_two_add a hblt2 p]
  conv_rhs => rw [hdecomp, Nat.testBit_mul_pow_two_add a hblt' p]
  rcases lt_trichotomy p q with hpq | hpq | hpq
  · have h1 : p < q + 1 := by omega
    rw [if_pos h1, if_pos h1, Nat.add_comm b (2 ^ q),
      Nat.testBit_two_pow_add_gt hpq]
    simp [Nat.ne_of_lt hpq]
  · subst hpq
    have h1 : p < p + 1 := Nat.lt_succ_self p
    rw [if_pos h1, if_pos h1, Nat.add_comm b (2 ^ p),
      Nat.testBit_two_pow_add_eq, Nat.testBit_lt_two_pow hblt]
    simp
  · have h1 : ¬ p < q + 1 := by omega
    rw [if_neg h1, if_neg h1]
    simp [Nat.ne_of_gt hpq]

theorem testBit_add_pow_self {i q : ℕ} (h : Nat.testBit i q = false) :
    Nat.testBit (i + 2 ^ q) q = true := by
  simp [testBit_add_pow h]

theorem testBit_add_pow_ne {i q p : ℕ} (h : Nat.testBit i q = false)
    (hp : p ≠ q) : Nat.testBit (i + 2 ^ q) p = Nat.testBit i p := by
  simp [testBit_add_pow h, hp]

theorem add_pow_lt {n i q : ℕ} (hi : i < 2 ^ n) (hq : q < n)
    (h : Nat.testBit i q = false) : i + 2 ^ q < 2 ^ n := by
  apply Nat.lt_pow_two_of_testBit
  intro p hp
  have hpn : n ≤ p := hp
  have hpq : p ≠ q := by omega
  rw [testBit_add_pow_ne h hpq]
  exact Nat.testBit_lt_two_pow
    (lt_of_lt_of_le hi (Nat.pow_le_pow_right (by norm_num) hpn))

theorem or_pow_of_clear {i q : ℕ} (h : Nat.testBit i q = false) :
    i ||| 2 ^ q = i + 2 ^ q := by
  apply Nat.eq_of_testBit_eq
  intro p
  rw [Nat.testBit_or, testBit_add_pow h p, Nat.testBit_two_pow]
  by_cases hpq : p = q
  · subst hpq; simp
  · simp [hpq, Ne.symm hpq]

theorem pow_or_pow_of_ne {a b : ℕ} (h : a ≠ b) :
    2 ^ a ||| 2 ^ b = 2 ^ a + 2 ^ b := by
  have hc : Nat.testBit (2 ^ a) b = false :=
    Nat.testBit_two_pow_of_ne h
  rw [or_pow_of_clear hc]

theorem getD_map_range {α : Type} (f : ℕ → α) (n i : ℕ) (d : α) :
    ((List.range n).map f).getD i d = if i < n then f i else d := by
  by_cases h : i < n
  · rw [List.getD_eq_getElem?_getD, List.getElem?_map, List.getElem?_range h]
    simp [h]
  · have hlen : ((List.range n).map f).length ≤ i := by
      simpa using Nat.le_of_not_lt h
    rw [getD_eq_default d hlen, if_neg h]

/-! ### Claim C3: inverse-CDF sampling and the tail tie-break -/

/-- Claim C3, counterexample: on a state whose probability vector is
`[1/4, 1/4, 0, 0]` (two amplitudes `1/2`, two zero amplitudes) and a draw
`r = 7/8`, every cumulative probability sum stays below `r`, and
`_choose_state` returns basis index `0` — not the last basis index
`2^2 - 1 = 3` that the claim requires. -/
theorem choose_state_tail_fallback_counterexample :
    (∀ j < 4, ((([((1:ℝ)/2 : ℂ), ((1:ℝ)/2 : ℂ), 0, 0].map
        Complex.normSq).take (j + 1)).sum) < (7/8 : ℝ)) ∧
    (choose_state
      { qubit_count := 2,
        amplitudes := [((1:ℝ)/2 : ℂ), ((1:ℝ)/2 : ℂ), 0, 0],
        rng := fun _ => (7/8 : ℝ), rngPos := 0 }).1 = 0 ∧
    (0 : ℕ) ≠ 2 ^ 2 - 1 := by
  refine ⟨?_, ?_, by decide⟩
  · intro j hj
    interval_cases j <;>
      norm_num [Complex.normSq_ofReal, Complex.normSq_zero]
  · show choose_index _ _ = 0
    norm_num [Complex.normSq_ofReal, Complex.normSq_zero,
      choose_index, choose_loop]

/-- Claim C3 (amended): `_choose_state` draws one random number `r` and
selects the smallest basis index whose cumulative probability sum is `≥ r`;
when every cumulative sum falls below `r`, the initial value `0` of
`state_index` is returned (not the last basis index), and no overflow
occurs. -/
theorem choose_state_inverse_cdf (sim : QuantumSimulation)
    (probs : List ℝ) (hp : probs = sim.amplitudes.map Complex.normSq)
    (r : ℝ) (hr : r = sim.rng sim.rngPos) :
    ((∃ j < probs.length, r ≤ ((probs.take (j + 1)).sum)) →
      ((choose_state sim).1 < probs.length ∧
       r ≤ ((probs.take ((choose_state sim).1 + 1)).sum) ∧
       ∀ l < (choose_state sim).1, ((probs.take (l + 1)).sum) < r)) ∧
    ((∀ j < probs.length, ((probs.take (j + 1)).sum) < r) →
      (choose_state sim).1 = 0) := by
  subst hp hr
  exact ⟨fun h => choose_index_break _ _ h,
         fun h => choose_index_fallback _ _ h⟩

/-- Claim C3, witness for the amended theorem at a concrete state. -/
theorem choose_state_inverse_cdf_witness :
    (choose_state
      { qubit_count := 1, amplitudes := [(0 : ℂ), ((1:ℝ) : ℂ)],
        rng := fun _ => (1/2 : ℝ), rngPos := 0 }).1 = 1 := by
  have h := (choose_state_inverse_cdf
    { qubit_count := 1, amplitudes := [(0 : ℂ), ((1:ℝ) : ℂ)],
      rng := fun _ => (1/2 : ℝ), rngPos := 0 }
    ([(0 : ℝ), 1]) (by norm_num [Complex.normSq_ofReal, Complex.normSq_zero])
    (1/2 : ℝ) rfl).1
    ⟨1, by norm_num, by norm_num⟩
  obtain ⟨hlt, hge, hmin⟩ := h
  set k := (choose_state
    { qubit_count := 1, amplitudes := [(0 : ℂ), ((1:ℝ) : ℂ)],
      rng := fun _ => (1/2 : ℝ), rngPos := 0 }).1 with hk
  have hk0 : k ≠ 0 := by
    intro h0
    rw [h0] at hge
    norm_num at hge
  have hk2 : k < 2 := by simpa using hlt
  omega

/-! ### Claim C8: construction-time qubit-count validation -/

/-- Claim C8, counterexample: the requested qubit count `0` lies outside the
claimed valid range `1 ≤ n ≤ 32`, yet construction succeeds (the source only
asserts `qubit_count <= MAX_QUBIT_COUNT`), yielding a one-amplitude
simulation. -/
theorem new_zero_qubits_counterexample :
    new 0 (fun _ => (0 : ℝ)) =
      .ok { qubit_count := 0, amplitudes := [(1 : ℂ)],
            rng := fun _ => (0 : ℝ), rngPos := 0 } ∧
    ¬ (1 : ℕ) ≤ 0 := by
  constructor
  · have h1 : get_ground_state_amplitudes 0 = [(1 : ℂ)] := by
      rw [get_ground_state_amplitudes, pow_zero]
      rfl
    simp [new, MAX_QUBIT_COUNT, reset, h1]
  · decide

/-- Claim C8 (amended): construction validates only the upper bound
`qubit_count ≤ 32`: it succeeds exactly when `n ≤ 32` (so `n = 0` is also
accepted), and on success the instance carries the all-zero ground-state
amplitude vector (amplitude `1` at basis index `0`, `0` elsewhere) and the
untouched seeded generator. -/
theorem new_spec (n : ℕ) (stream : ℕ → ℝ) :
    (n ≤ MAX_QUBIT_COUNT →
      new n stream =
        .ok { qubit_count := n, amplitudes := get_ground_state_amplitudes n,
              rng := stream, rngPos := 0 }) ∧
    (MAX_QUBIT_COUNT < n →
      new n stream =
        .error "The number of qubits in the simulation cannot exceed MAX_QUBIT_COUNT.") ∧
    (get_ground_state_amplitudes n).getD 0 0 = 1 ∧
    (∀ i, 0 < i → (get_ground_state_amplitudes n).getD i 0 = 0) ∧
    (get_ground_state_amplitudes n).length = 2 ^ n := by
  refine ⟨fun h => ?_, fun h => ?_, ?_, fun i hi => ?_, by
    simp [get_ground_state_amplitudes]⟩
  · simp [new, h, reset]
  · simp [new, not_le.mpr h]
  · rw [get_ground_state_amplitudes, getD_map_range]
    simp [Nat.two_pow_pos]
  · rw [get_ground_state_amplitudes, getD_map_range]
    by_cases hisz : i < 2 ^ n <;> simp [hisz, Nat.pos_iff_ne_zero.mp hi]

/-- Claim C8, witness: a 3-qubit construction succeeds in the ground state. -/
theorem new_spec_witness :
    new 3 (fun _ => (0 : ℝ)) =
      .ok { qubit_count := 3, amplitudes := get_ground_state_amplitudes 3,
            rng := fun _ => (0 : ℝ), rngPos := 0 } :=
  (new_spec 3 (fun _ => (0 : ℝ))).1 (by norm_num [MAX_QUBIT_COUNT])

/-! ### Claim C4: which calls fail with the invalid-qubit-index error -/

/-- Claim C4, counterexample: a two-qubit gate call with equal target
indices (`cnot 0 0` on a 2-qubit simulation) is accepted — the source's
`assert!` checks only the bounds, so the claimed rejection of non-distinct
multi-qubit targets does not happen. -/
theorem duplicate_indices_not_rejected :
    (cnot 0 0
      { qubit_count := 2, amplitudes := get_ground_state_amplitudes 2,
        rng := fun _ => (0 : ℝ), rngPos := 0 }).isOk = true := by
  simp [cnot, apply_two_qubit_gate, Except.isOk, Except.toBool]

/-- Claim C4 (amended): a one-, two- or three-qubit gate call or a `measure`
call fails with the invalid-qubit-index error exactly when some referenced
qubit index is `≥` the qubit count: distinctness of multi-qubit targets is
not validated; `measure_all` never fails; and `apply_u_f` performs no
validation at all (given an in-range answer qubit it always succeeds, and an
out-of-range answer qubit surfaces as an indexing panic, not as the
invalid-qubit-index error). -/
theorem validation_spec :
    (∀ (g : ℂ → ℂ → ℂ × ℂ) (q : ℕ) (sim : QuantumSimulation),
      (apply_one_qubit_gate g q sim).isOk = true ↔ q < sim.qubit_count) ∧
    (∀ (g : ℂ → ℂ → ℂ → ℂ → ℂ × ℂ × ℂ × ℂ) (q0 q1 : ℕ)
        (sim : QuantumSimulation),
      (apply_two_qubit_gate g q0 q1 sim).isOk = true ↔
        (q0 < sim.qubit_count ∧ q1 < sim.qubit_count)) ∧
    (∀ (g : ℂ → ℂ → ℂ → ℂ → ℂ → ℂ → ℂ → ℂ → ℂ × ℂ × ℂ × ℂ × ℂ × ℂ × ℂ × ℂ)
        (q0 q1 q2 : ℕ) (sim : QuantumSimulation),
      (apply_three_qubit_gate g q0 q1 q2 sim).isOk = true ↔
        (q0 < sim.qubit_count ∧ q1 < sim.qubit_count ∧ q2 < sim.qubit_count)) ∧
    (∀ (qs : List ℕ) (sim : QuantumSimulation),
      (measure qs sim).isOk = true ↔ ∀ q ∈ qs, q < sim.qubit_count) ∧
    (∀ {N : ℕ} (f : (Fin N → Bool) → Bool) (input_qubits : Fin N → ℕ)
        (answer_qubit : ℕ) (sim : QuantumSimulation),
      answer_qubit < sim.qubit_count →
      sim.amplitudes.length = 2 ^ sim.qubit_count →
      (apply_u_f f input_qubits answer_qubit sim).isOk = true) := by
  refine ⟨fun g q sim => ?_, fun g q0 q1 sim => ?_, fun g q0 q1 q2 sim => ?_,
    fun qs sim => ?_, fun f iq aq sim haq hlen => ?_⟩
  · by_cases h : q < sim.qubit_count <;>
      simp [apply_one_qubit_gate, h, Except.isOk, Except.toBool]
  · by_cases h : q0 < sim.qubit_count ∧ q1 < sim.qubit_count <;>
      simp [apply_two_qubit_gate, h, Except.isOk, Except.toBool]
  · by_cases h : q0 < sim.qubit_count ∧ q1 < sim.qubit_count ∧
        q2 < sim.qubit_count <;>
      simp [apply_three_qubit_gate, h, Except.isOk, Except.toBool]
  · by_cases h : ∀ q ∈ qs, q < sim.qubit_count
    · simp only [measure]
      rw [if_pos h]
      simpa [Except.isOk, Except.toBool] using h
    · simp only [measure]
      rw [if_neg h]
      simpa [Except.isOk, Except.toBool] using h
  · have hcond : ∀ i0 ∈ List.range sim.amplitudes.length,
        i0 &&& (1 <<< aq) = 0 →
        f (fun j => decide (i0 &&& (1 <<< iq j) ≠ 0)) = true →
        i0 ||| (1 <<< aq) < sim.amplitudes.length := by
      intro i0 hi0 hclear _
      rw [List.mem_range, hlen] at hi0
      have hbit : Nat.testBit i0 aq = false := by
        by_contra hb
        have : i0 &&& (1 <<< aq) ≠ 0 :=
          (and_pow_ne_zero_iff i0 aq).mpr (by simpa using hb)
        exact this hclear
      rw [Nat.one_shiftLeft, or_pow_of_clear hbit, hlen]
      exact add_pow_lt hi0 haq hbit
    simp only [apply_u_f, if_pos hcond]
    rfl

/-- Claim C4, witness: on a 2-qubit instance, an in-range one-qubit gate
succeeds, an out-of-range `measure` fails, and an oracle over qubit `0` with
answer qubit `1` succeeds. -/
theorem validation_spec_witness :
    ((apply_one_qubit_gate gate.pauli_x 1
      { qubit_count := 2, amplitudes := get_ground_state_amplitudes 2,
        rng := fun _ => (0 : ℝ), rngPos := 0 }).isOk = true) ∧
    ¬ ((measure [2]
      { qubit_count := 2, amplitudes := get_ground_state_amplitudes 2,
        rng := fun _ => (0 : ℝ), rngPos := 0 }).isOk = true) ∧
    ((apply_u_f (fun x : Fin 1 → Bool => x 0) (fun _ : Fin 1 => (0 : ℕ)) 1
      { qubit_count := 2, amplitudes := get_ground_state_amplitudes 2,
        rng := fun _ => (0 : ℝ), rngPos := 0 }).isOk = true) := by
  refine ⟨?_, ?_, ?_⟩
  · exact (validation_spec.1 gate.pauli_x 1 _).mpr (by norm_num)
  · intro h
    have := (validation_spec.2.2.2.1 [2] _).mp h 2 (by simp)
    norm_num at this
  · exact validation_spec.2.2.2.2 (fun x : Fin 1 → Bool => x 0)
      (fun _ : Fin 1 => (0 : ℕ)) 1 _
      (by norm_num) (by simp [get_ground_state_amplitudes])

/-! ### A generic characterization of the in-place gate loops

Every gate loop iterates `i` over `List.range A.length`; an iteration first
reads a fixed group of cells (its tuple), then writes only those cells, and
the cell groups of distinct iterations are disjoint.  Under these conditions
the final list is determined cell group by cell group from the original
list. -/

theorem owner_foldl (step : List ℂ → ℕ → List ℂ) (cells : ℕ → Finset ℕ)
    (Hlen : ∀ A i, (step A i).length = A.length)
    (Hframe : ∀ A i p, p ∉ cells i → (step A i).getD p 0 = A.getD p 0)
    (Hdisj : ∀ i j p, i ≠ j → p ∈ cells i → p ∉ cells j)
    (Hdet : ∀ A B i, A.length = B.length →
      (∀ p ∈ cells i, A.getD p 0 = B.getD p 0) →
      ∀ p ∈ cells i, (step A i).getD p 0 = (step B i).getD p 0)
    (A : List ℂ) (m : ℕ) :
    ((List.range m).foldl step A).length = A.length ∧
    (∀ p, (∀ i < m, p ∉ cells i) →
      ((List.range m).foldl step A).getD p 0 = A.getD p 0) ∧
    (∀ i0 p, i0 < m → p ∈ cells i0 →
      ((List.range m).foldl step A).getD p 0 = (step A i0).getD p 0) := by
  induction m with
  | zero => simp
  | succ m ih =>
    obtain ⟨ihlen, ihout, ihin⟩ := ih
    have hstep : (List.range (m + 1)).foldl step A =
        step ((List.range m).foldl step A) m := by
      rw [List.range_succ, List.foldl_append, List.foldl_cons, List.foldl_nil]
    refine ⟨?_, ?_, ?_⟩
    · rw [hstep, Hlen, ihlen]
    · intro p hp
      rw [hstep, Hframe _ _ _ (hp m (Nat.lt_succ_self m))]
      exact ihout p (fun i hi => hp i (Nat.lt_succ_of_lt hi))
    · intro i0 p hi0 hp
      rw [hstep]
      rcases Nat.lt_succ_iff_lt_or_eq.mp hi0 with hlt | heq
      · have hpm : p ∉ cells m := Hdisj i0 m p (Nat.ne_of_lt hlt) hp
        rw [Hframe _ _ _ hpm]
        exact ihin i0 p hlt hp
      · subst heq
        have hagree : ∀ q ∈ cells i0,
            ((List.range i0).foldl step A).getD q 0 = A.getD q 0 := by
          intro q hq
          exact ihout q (fun i hi => Hdisj i0 i q (Nat.ne_of_lt hi).symm hq)
        exact Hdet _ _ i0 ihlen hagree p hp

theorem norm_total_eq_sum_range (A : List ℂ) :
    norm_total A = ∑ p ∈ Finset.range A.length, Complex.normSq (A.getD p 0) := by
  induction A with
  | nil => simp [norm_total]
  | cons a A ih =>
    rw [norm_total, List.map_cons, List.sum_cons, List.length_cons,
      Finset.sum_range_succ']
    simp only [List.getD_cons_succ, List.getD_cons_zero]
    rw [← norm_total, ih]
    ring

theorem owner_foldl_norm (step : List ℂ → ℕ → List ℂ) (cells : ℕ → Finset ℕ)
    (Hlen : ∀ A i, (step A i).length = A.length)
    (Hframe : ∀ A i p, p ∉ cells i → (step A i).getD p 0 = A.getD p 0)
    (Hdisj : ∀ i j p, i ≠ j → p ∈ cells i → p ∉ cells j)
    (Hdet : ∀ A B i, A.length = B.length →
      (∀ p ∈ cells i, A.getD p 0 = B.getD p 0) →
      ∀ p ∈ cells i, (step A i).getD p 0 = (step B i).getD p 0)
    (A : List ℂ)
    (Hsub : ∀ i < A.length, cells i ⊆ Finset.range A.length)
    (Hsum : ∀ i < A.length,
      ∑ p ∈ cells i, Complex.normSq ((step A i).getD p 0) =
      ∑ p ∈ cells i, Complex.normSq (A.getD p 0)) :
    norm_total ((List.range A.length).foldl step A) = norm_total A := by
  classical
  obtain ⟨hFlen, hout, hin⟩ := owner_foldl step cells Hlen Hframe Hdisj Hdet A A.length
  set F := (List.range A.length).foldl step A with hF
  rw [norm_total_eq_sum_range F, hFlen, norm_total_eq_sum_range A]
  set owned : Finset ℕ := (Finset.range A.length).biUnion cells with howned
  have hsub : owned ⊆ Finset.range A.length := by
    rw [howned]
    apply Finset.biUnion_subset.mpr
    intro i hi
    exact Hsub i (Finset.mem_range.mp hi)
  rw [← Finset.sum_sdiff hsub, ← Finset.sum_sdiff hsub]
  have hdisj' : (↑(Finset.range A.length) : Set ℕ).PairwiseDisjoint cells := by
    intro i _ j _ hij
    show Disjoint (cells i) (cells j)
    rw [Finset.disjoint_left]
    intro p hp
    exact Hdisj i j p hij hp
  have hpiece1 : ∑ p ∈ Finset.range A.length \ owned,
      Complex.normSq (F.getD p 0) =
      ∑ p ∈ Finset.range A.length \ owned, Complex.normSq (A.getD p 0) := by
    apply Finset.sum_congr rfl
    intro p hp
    rw [Finset.mem_sdiff] at hp
    congr 1
    apply hout p
    intro i hi hpc
    exact hp.2 (Finset.mem_biUnion.mpr ⟨i, Finset.mem_range.mpr hi, hpc⟩)
  have hpiece2 : ∑ p ∈ owned, Complex.normSq (F.getD p 0) =
      ∑ p ∈ owned, Complex.normSq (A.getD p 0) := by
    rw [howned, Finset.sum_biUnion hdisj', Finset.sum_biUnion hdisj']
    apply Finset.sum_congr rfl
    intro i hi
    have hi' := Finset.mem_range.mp hi
    calc ∑ p ∈ cells i, Complex.normSq (F.getD p 0)
        = ∑ p ∈ cells i, Complex.normSq ((step A i).getD p 0) := by
          apply Finset.sum_congr rfl
          intro p hp
          rw [hin i p hi' hp]
      _ = ∑ p ∈ cells i, Complex.normSq (A.getD p 0) := Hsum i hi'
  rw [hpiece1, hpiece2]

theorem list_ext_getD {A B : List ℂ} (hlen : A.length = B.length)
    (h : ∀ p < A.length, A.getD p 0 = B.getD p 0) : A = B := by
  apply List.ext_getElem hlen
  intro i h1 h2
  have hg := h i h1
  rw [List.getD_eq_getElem?_getD, List.getD_eq_getElem?_getD,
    List.getElem?_eq_getElem h1, List.getElem?_eq_getElem h2] at hg
  simpa using hg

theorem and_pow_eq_zero_iff (i q : ℕ) :
    i &&& (1 <<< q) = 0 ↔ Nat.testBit i q = false := by
  rw [Nat.one_shiftLeft, Nat.and_two_pow]
  cases h : Nat.testBit i q <;>
    simp [Nat.ne_of_gt (Nat.two_pow_pos q)]

theorem getD_set_cases (l : List ℂ) (i p : ℕ) (v : ℂ) :
    (l.set i v).getD p 0 = if p = i ∧ p < l.length then v else l.getD p 0 := by
  by_cases h1 : p = i
  · subst h1
    by_cases h2 : p < l.length
    · simp [getD_set_self h2, h2]
    · rw [List.set_eq_of_length_le (Nat.le_of_not_lt h2)]
      simp [h2]
  · rw [getD_set_ne v (0 : ℂ) (fun hh => h1 hh.symm),
      if_neg (fun hc => h1 hc.1)]

/-! ### Pointwise description of `apply_one_qubit_gate`'s loop -/

theorem one_qubit_loop_getD (g : ℂ → ℂ → ℂ × ℂ) (q : ℕ) (A : List ℂ) :
    (one_qubit_loop g q A).length = A.length ∧
    ∀ p < A.length,
      (one_qubit_loop g q A).getD p 0 =
        if Nat.testBit p q = false then
          (g (A.getD p 0) (A.getD (p + 2 ^ q) 0)).1
        else
          (g (A.getD (p - 2 ^ q) 0) (A.getD p 0)).2 := by
  classical
  set step : List ℂ → ℕ → List ℂ := fun a i0 =>
    let mask := 1 <<< q
    if i0 &&& mask ≠ 0 then a
    else
      let i1 := i0 + mask
      let p := g (a.getD i0 0) (a.getD i1 0)
      (a.set i0 p.1).set i1 p.2
    with hstep
  set cells : ℕ → Finset ℕ := fun i0 =>
    if Nat.testBit i0 q = false then ({i0, i0 + 2 ^ q} : Finset ℕ) else ∅
    with hcells
  have hmask : (1 <<< q) = 2 ^ q := Nat.one_shiftLeft q
  have hmpos : 0 < 2 ^ q := Nat.two_pow_pos q
  have heq : one_qubit_loop g q A = (List.range A.length).foldl step A := rfl
  have hstep_clear : ∀ (B : List ℂ) i0, Nat.testBit i0 q = false →
      step B i0 = (B.set i0 (g (B.getD i0 0) (B.getD (i0 + 2 ^ q) 0)).1).set
        (i0 + 2 ^ q) (g (B.getD i0 0) (B.getD (i0 + 2 ^ q) 0)).2 := by
    intro B i0 hb
    have hcond : ¬ (i0 &&& (1 <<< q) ≠ 0) := by
      rw [not_not, and_pow_eq_zero_iff]; exact hb
    simp only [hstep]
    rw [if_neg hcond, hmask]
  have hstep_set : ∀ (B : List ℂ) i0, Nat.testBit i0 q = true →
      step B i0 = B := by
    intro B i0 hb
    have hcond : i0 &&& (1 <<< q) ≠ 0 := (and_pow_ne_zero_iff i0 q).mpr hb
    simp only [hstep]
    rw [if_pos hcond]
  have Hlen : ∀ B i0, (step B i0).length = B.length := by
    intro B i0
    by_cases hb : Nat.testBit i0 q
    · rw [hstep_set B i0 hb]
    · rw [hstep_clear B i0 (by simpa using hb)]
      simp
  have Hframe : ∀ B i0 p, p ∉ cells i0 → (step B i0).getD p 0 = B.getD p 0 := by
    intro B i0 p hp
    by_cases hb : Nat.testBit i0 q
    · rw [hstep_set B i0 hb]
    · have hb' : Nat.testBit i0 q = false := by simpa using hb
      rw [hcells] at hp
      simp only [hb', if_pos, Finset.mem_insert, Finset.mem_singleton] at hp
      push_neg at hp
      rw [hstep_clear B i0 hb', getD_set_cases, getD_set_cases]
      simp [hp.1, hp.2]
  have Hdisj : ∀ i j p, i ≠ j → p ∈ cells i → p ∉ cells j := by
    intro i j p hij hpi hpj
    rw [hcells] at hpi hpj
    by_cases hbi : Nat.testBit i q
    · simp [hbi] at hpi
    · by_cases hbj : Nat.testBit j q
      · simp [hbj] at hpj
      · have hbi' : Nat.testBit i q = false := by simpa using hbi
        have hbj' : Nat.testBit j q = false := by simpa using hbj
        simp only [hbi', hbj', if_pos, Finset.mem_insert,
          Finset.mem_singleton] at hpi hpj
        rcases hpi with h1 | h1 <;> rcases hpj with h2 | h2
        · exact hij (h1 ▸ h2 ▸ rfl)
        · subst h1
          rw [h2] at hbi'
          rw [testBit_add_pow_self hbj'] at hbi'
          cases hbi'
        · subst h2
          rw [h1] at hbj'
          rw [testBit_add_pow_self hbi'] at hbj'
          cases hbj'
        · subst h1
          exact hij (by omega)
  have Hdet : ∀ B C i0, B.length = C.length →
      (∀ p ∈ cells i0, B.getD p 0 = C.getD p 0) →
      ∀ p ∈ cells i0, (step B i0).getD p 0 = (step C i0).getD p 0 := by
    intro B C i0 hlen hag p hp
    by_cases hb : Nat.testBit i0 q
    · rw [hcells] at hp; simp [hb] at hp
    · have hb' : Nat.testBit i0 q = false := by simpa using hb
      rw [hcells] at hp hag
      simp only [hb', if_pos, Finset.mem_insert, Finset.mem_singleton] at hp hag
      have h1 : B.getD i0 0 = C.getD i0 0 := hag i0 (Or.inl rfl)
      have h2 : B.getD (i0 + 2 ^ q) 0 = C.getD (i0 + 2 ^ q) 0 :=
        hag _ (Or.inr rfl)
      rw [hstep_clear B i0 hb', hstep_clear C i0 hb', h1, h2,
        getD_set_cases, getD_set_cases, getD_set_cases, getD_set_cases]
      simp only [List.length_set, hlen, h1, h2]
      split_ifs <;> first | rfl | exact hag p hp
  obtain ⟨hflen, hout, hin⟩ :=
    owner_foldl step cells Hlen Hframe Hdisj Hdet A A.length
  rw [← heq] at hflen hout hin
  refine ⟨hflen, ?_⟩
  intro p hp
  by_cases hb : Nat.testBit p q
  · rw [if_neg (by simp [hb])]
    have hge : 2 ^ q ≤ p := Nat.testBit_implies_ge hb
    set i0 := p - 2 ^ q with hi0
    have hpd : p = i0 + 2 ^ q := by omega
    have hbi0 : Nat.testBit i0 q = false := by
      have : Nat.testBit (2 ^ q + i0) q = !(Nat.testBit i0 q) :=
        Nat.testBit_two_pow_add_eq i0 q
      rw [show 2 ^ q + i0 = p by omega] at this
      rw [this] at hb
      cases hq : Nat.testBit i0 q
      · rfl
      · rw [hq] at hb; cases hb
    have hmem : p ∈ cells i0 := by
      rw [hcells]
      simp [hbi0, hpd]
    have := hin i0 p (by omega) hmem
    rw [this, hstep_clear A i0 hbi0, getD_set_cases]
    rw [List.length_set]
    rw [if_pos ⟨hpd, hp⟩, hpd]
  · have hb' : Nat.testBit p q = false := by simpa using hb
    rw [if_pos hb']
    have hmem : p ∈ cells p := by
      rw [hcells]
      simp [hb']
    have := hin p p hp hmem
    rw [this, hstep_clear A p hb', getD_set_cases, getD_set_cases]
    have hne : ¬ p = p + 2 ^ q := by omega
    simp [hne, hp]

/-! ### Summation over basis indices paired by one target bit -/

theorem sum_range_bit_split (n q : ℕ) (hq : q < n) (f : ℕ → ℝ) :
    ∑ p ∈ Finset.range (2 ^ n), f p =
    ∑ p ∈ (Finset.range (2 ^ n)).filter (fun p => Nat.testBit p q = false),
      (f p + f (p + 2 ^ q)) := by
  classical
  rw [← Finset.sum_filter_add_sum_filter_not (Finset.range (2 ^ n))
    (fun p => Nat.testBit p q = false) f]
  rw [Finset.sum_add_distrib]
  congr 1
  refine Finset.sum_bij' (fun a _ => a - 2 ^ q) (fun b _ => b + 2 ^ q)
    ?hi ?hj ?li ?ri ?hval
  case hi =>
    intro a ha
    dsimp only
    rw [Finset.mem_filter, Finset.mem_range] at ha ⊢
    obtain ⟨halt, habit⟩ := ha
    have hbit : Nat.testBit a q = true := by
      cases hqa : Nat.testBit a q
      · rw [hqa] at habit; simp at habit
      · rfl
    have hge : 2 ^ q ≤ a := Nat.testBit_implies_ge hbit
    constructor
    · exact lt_of_le_of_lt (Nat.sub_le a (2 ^ q)) halt
    · have hta : Nat.testBit (2 ^ q + (a - 2 ^ q)) q =
          !(Nat.testBit (a - 2 ^ q) q) := Nat.testBit_two_pow_add_eq _ q
      rw [show 2 ^ q + (a - 2 ^ q) = a by omega] at hta
      rw [hbit] at hta
      cases hqb : Nat.testBit (a - 2 ^ q) q
      · rfl
      · rw [hqb] at hta; cases hta
  case hj =>
    intro b hb
    dsimp only
    rw [Finset.mem_filter, Finset.mem_range] at hb ⊢
    obtain ⟨hblt, hbbit⟩ := hb
    refine ⟨add_pow_lt hblt hq hbbit, ?_⟩
    rw [testBit_add_pow_self hbbit]
    simp
  case li =>
    intro a ha
    dsimp only
    rw [Finset.mem_filter, Finset.mem_range] at ha
    obtain ⟨halt, habit⟩ := ha
    have hbit : Nat.testBit a q = true := by
      revert habit
      cases Nat.testBit a q <;> simp
    have hge : 2 ^ q ≤ a := Nat.testBit_implies_ge hbit
    omega
  case ri =>
    intro b _
    dsimp only
    omega
  case hval =>
    intro a ha
    dsimp only
    rw [Finset.mem_filter, Finset.mem_range] at ha
    obtain ⟨halt, habit⟩ := ha
    have hbit : Nat.testBit a q = true := by
      revert habit
      cases Nat.testBit a q <;> simp
    have hge : 2 ^ q ≤ a := Nat.testBit_implies_ge hbit
    rw [show a - 2 ^ q + 2 ^ q = a by omega]

/-- Norm preservation for the one-qubit applicator loop, given a
pair-norm-preserving gate function. -/
theorem one_qubit_loop_norm (g : ℂ → ℂ → ℂ × ℂ)
    (hg : ∀ a b, Complex.normSq (g a b).1 + Complex.normSq (g a b).2 =
      Complex.normSq a + Complex.normSq b)
    (n q : ℕ) (hq : q < n) (A : List ℂ) (hlen : A.length = 2 ^ n) :
    norm_total (one_qubit_loop g q A) = norm_total A := by
  obtain ⟨hflen, hpt⟩ := one_qubit_loop_getD g q A
  rw [norm_total_eq_sum_range, norm_total_eq_sum_range, hflen, hlen,
    sum_range_bit_split n q hq, sum_range_bit_split n q hq]
  apply Finset.sum_congr rfl
  intro p hp
  rw [Finset.mem_filter, Finset.mem_range] at hp
  obtain ⟨hplt, hpbit⟩ := hp
  have h1 : p < A.length := by omega
  have h2 : p + 2 ^ q < A.length := by
    rw [hlen]; exact add_pow_lt hplt hq hpbit
  rw [hpt p h1, hpt (p + 2 ^ q) h2, if_pos hpbit,
    if_neg (by simp [testBit_add_pow_self hpbit]), Nat.add_sub_cancel]
  exact hg (A.getD p 0) (A.getD (p + 2 ^ q) 0)

/-! ### The gate library preserves tuple norms -/

theorem inv_sqrt_two_sq : INV_SQRT_2 * INV_SQRT_2 = 1 / 2 := by
  rw [INV_SQRT_2, ← mul_inv, Real.mul_self_sqrt (by norm_num : (0:ℝ) ≤ 2)]
  norm_num

theorem pauli_x_pair_norm (a b : ℂ) :
    Complex.normSq (gate.pauli_x a b).1 + Complex.normSq (gate.pauli_x a b).2 =
    Complex.normSq a + Complex.normSq b := by
  simp [gate.pauli_x]
  ring

theorem pauli_y_pair_norm (a b : ℂ) :
    Complex.normSq (gate.pauli_y a b).1 + Complex.normSq (gate.pauli_y a b).2 =
    Complex.normSq a + Complex.normSq b := by
  simp [gate.pauli_y, Complex.normSq_mul]
  ring

theorem pauli_z_pair_norm (a b : ℂ) :
    Complex.normSq (gate.pauli_z a b).1 + Complex.normSq (gate.pauli_z a b).2 =
    Complex.normSq a + Complex.normSq b := by
  simp [gate.pauli_z]

theorem hadamard_pair_norm (a b : ℂ) :
    Complex.normSq (gate.hadamard a b).1 + Complex.normSq (gate.hadamard a b).2 =
    Complex.normSq a + Complex.normSq b := by
  simp only [gate.hadamard, Complex.normSq_mul, Complex.normSq_ofReal]
  rw [Complex.normSq_add, Complex.normSq_sub, inv_sqrt_two_sq]
  ring

theorem s_pair_norm (a b : ℂ) :
    Complex.normSq (gate.s a b).1 + Complex.normSq (gate.s a b).2 =
    Complex.normSq a + Complex.normSq b := by
  simp [gate.s, Complex.normSq_mul]

theorem t_pair_norm (a b : ℂ) :
    Complex.normSq (gate.t a b).1 + Complex.normSq (gate.t a b).2 =
    Complex.normSq a + Complex.normSq b := by
  have hfac : Complex.normSq ((INV_SQRT_2 : ℂ) + (INV_SQRT_2 : ℂ) * Complex.I)
      = 1 := by
    rw [Complex.normSq_apply]
    simp [Complex.add_re, Complex.add_im, Complex.mul_re, Complex.mul_im]
    rw [inv_sqrt_two_sq]
    norm_num
  simp only [gate.t, Complex.normSq_mul, hfac, one_mul]

theorem bool_eq_true_of_not_false {b : Bool} (h : ¬ b = false) : b = true := by
  cases b
  · exact absurd rfl h
  · rfl

/-! ### Pointwise description of `apply_two_qubit_gate`'s loop
(distinct target indices) -/

theorem two_qubit_loop_getD (g : ℂ → ℂ → ℂ → ℂ → ℂ × ℂ × ℂ × ℂ)
    (q0 q1 : ℕ) (hne : q0 ≠ q1) (A : List ℂ) :
    (two_qubit_loop g q0 q1 A).length = A.length ∧
    ∀ p < A.length,
      (two_qubit_loop g q0 q1 A).getD p 0 =
        (if Nat.testBit p q0 = false then
          (if Nat.testBit p q1 = false then
            (g (A.getD p 0) (A.getD (p + 2 ^ q0) 0) (A.getD (p + 2 ^ q1) 0)
               (A.getD (p + 2 ^ q0 + 2 ^ q1) 0)).1
          else
            (g (A.getD (p - 2 ^ q1) 0) (A.getD (p - 2 ^ q1 + 2 ^ q0) 0)
               (A.getD p 0) (A.getD (p + 2 ^ q0) 0)).2.2.1)
        else
          (if Nat.testBit p q1 = false then
            (g (A.getD (p - 2 ^ q0) 0) (A.getD p 0)
               (A.getD (p - 2 ^ q0 + 2 ^ q1) 0) (A.getD (p + 2 ^ q1) 0)).2.1
          else
            (g (A.getD (p - 2 ^ q0 - 2 ^ q1) 0) (A.getD (p - 2 ^ q1) 0)
               (A.getD (p - 2 ^ q0) 0) (A.getD p 0)).2.2.2)) := by
  classical
  set m0 := 2 ^ q0 with hm0
  set m1 := 2 ^ q1 with hm1
  have hm0pos : 0 < m0 := Nat.two_pow_pos q0
  have hm1pos : 0 < m1 := Nat.two_pow_pos q1
  have hm01 : m0 ≠ m1 := fun hc =>
    hne (Nat.pow_right_injective (by norm_num) hc)
  set step : List ℂ → ℕ → List ℂ := fun a i00 =>
    let mask01 := 1 <<< q0
    let mask10 := 1 <<< q1
    let mask11 := mask01 ||| mask10
    if i00 &&& mask01 ≠ 0 then a
    else if i00 &&& mask10 ≠ 0 then a
    else
      let i01 := i00 + mask01
      let i10 := i00 + mask10
      let i11 := i00 + mask11
      let p := g (a.getD i00 0) (a.getD i01 0) (a.getD i10 0) (a.getD i11 0)
      ((((a.set i00 p.1).set i01 p.2.1).set i10 p.2.2.1).set i11 p.2.2.2)
    with hstep
  set cells : ℕ → Finset ℕ := fun i =>
    if Nat.testBit i q0 = false ∧ Nat.testBit i q1 = false then
      ({i, i + m0, i + m1, i + m0 + m1} : Finset ℕ)
    else ∅
    with hcells
  have hmaskor : (1 <<< q0) ||| (1 <<< q1) = m0 + m1 := by
    rw [Nat.one_shiftLeft, Nat.one_shiftLeft]
    exact pow_or_pow_of_ne hne
  have heq : two_qubit_loop g q0 q1 A = (List.range A.length).foldl step A := rfl
  -- signature facts for an active representative
  have sig10a : ∀ i, Nat.testBit i q0 = false →
      Nat.testBit (i + m0) q0 = true := fun i h => testBit_add_pow_self h
  have sig10b : ∀ i, Nat.testBit i q0 = false → Nat.testBit i q1 = false →
      Nat.testBit (i + m0) q1 = false := fun i h0 h1 => by
    rw [hm0, testBit_add_pow_ne h0 (Ne.symm hne)]; exact h1
  have sig01a : ∀ i, Nat.testBit i q1 = false → Nat.testBit i q0 = false →
      Nat.testBit (i + m1) q0 = false := fun i h1 h0 => by
    rw [hm1, testBit_add_pow_ne h1 hne]; exact h0
  have sig01b : ∀ i, Nat.testBit i q1 = false →
      Nat.testBit (i + m1) q1 = true := fun i h => testBit_add_pow_self h
  have sig11a : ∀ i, Nat.testBit i q0 = false → Nat.testBit i q1 = false →
      Nat.testBit (i + m0 + m1) q0 = true := fun i h0 h1 => by
    rw [hm1, testBit_add_pow_ne (sig10b i h0 h1) hne]
    exact sig10a i h0
  have sig11b : ∀ i, Nat.testBit i q0 = false → Nat.testBit i q1 = false →
      Nat.testBit (i + m0 + m1) q1 = true := fun i h0 h1 =>
    testBit_add_pow_self (sig10b i h0 h1)
  have hstep_act : ∀ (B : List ℂ) i, Nat.testBit i q0 = false →
      Nat.testBit i q1 = false →
      step B i =
        ((((B.set i
          (g (B.getD i 0) (B.getD (i + m0) 0) (B.getD (i + m1) 0)
             (B.getD (i + m0 + m1) 0)).1).set (i + m0)
          (g (B.getD i 0) (B.getD (i + m0) 0) (B.getD (i + m1) 0)
             (B.getD (i + m0 + m1) 0)).2.1).set (i + m1)
          (g (B.getD i 0) (B.getD (i + m0) 0) (B.getD (i + m1) 0)
             (B.getD (i + m0 + m1) 0)).2.2.1).set (i + m0 + m1)
          (g (B.getD i 0) (B.getD (i + m0) 0) (B.getD (i + m1) 0)
             (B.getD (i + m0 + m1) 0)).2.2.2) := by
    intro B i h0 h1
    have hc0 : ¬ (i &&& (1 <<< q0) ≠ 0) := by
      rw [not_not, and_pow_eq_zero_iff]; exact h0
    have hc1 : ¬ (i &&& (1 <<< q1) ≠ 0) := by
      rw [not_not, and_pow_eq_zero_iff]; exact h1
    simp only [hstep]
    rw [if_neg hc0, if_neg hc1, hmaskor, Nat.one_shiftLeft, Nat.one_shiftLeft,
      ← hm0, ← hm1, ← Nat.add_assoc]
  have hstep_skip : ∀ (B : List ℂ) i,
      ¬ (Nat.testBit i q0 = false ∧ Nat.testBit i q1 = false) →
      step B i = B := by
    intro B i h
    by_cases h0 : Nat.testBit i q0 = false
    · have h1 : Nat.testBit i q1 = true :=
        bool_eq_true_of_not_false (fun hb => h ⟨h0, hb⟩)
      have hc1 : i &&& (1 <<< q1) ≠ 0 := (and_pow_ne_zero_iff i q1).mpr h1
      simp only [hstep]
      by_cases hc0 : i &&& (1 <<< q0) ≠ 0
      · rw [if_pos hc0]
      · rw [if_neg hc0, if_pos hc1]
    · have h0' : Nat.testBit i q0 = true := bool_eq_true_of_not_false h0
      have hc0 : i &&& (1 <<< q0) ≠ 0 := (and_pow_ne_zero_iff i q0).mpr h0'
      simp only [hstep]
      rw [if_pos hc0]
  have Hlen : ∀ B i, (step B i).length = B.length := by
    intro B i
    by_cases h : Nat.testBit i q0 = false ∧ Nat.testBit i q1 = false
    · rw [hstep_act B i h.1 h.2]; simp
    · rw [hstep_skip B i h]
  have hmem_cells : ∀ i p, p ∈ cells i →
      (Nat.testBit i q0 = false ∧ Nat.testBit i q1 = false) ∧
      (p = i ∨ p = i + m0 ∨ p = i + m1 ∨ p = i + m0 + m1) := by
    intro i p hp
    simp only [hcells] at hp
    by_cases h : Nat.testBit i q0 = false ∧ Nat.testBit i q1 = false
    · rw [if_pos h] at hp
      refine ⟨h, ?_⟩
      simpa [Finset.mem_insert, Finset.mem_singleton] using hp
    · rw [if_neg h] at hp
      cases hp
  have Hframe : ∀ B i p, p ∉ cells i → (step B i).getD p 0 = B.getD p 0 := by
    intro B i p hp
    by_cases h : Nat.testBit i q0 = false ∧ Nat.testBit i q1 = false
    · have hne4 : p ≠ i ∧ p ≠ i + m0 ∧ p ≠ i + m1 ∧ p ≠ i + m0 + m1 := by
        by_contra hc
        push_neg at hc
        apply hp
        simp only [hcells]
        rw [if_pos h]
        simp only [Finset.mem_insert, Finset.mem_singleton]
        by_cases e1 : p = i
        · exact Or.inl e1
        · by_cases e2 : p = i + m0
          · exact Or.inr (Or.inl e2)
          · by_cases e3 : p = i + m1
            · exact Or.inr (Or.inr (Or.inl e3))
            · exact Or.inr (Or.inr (Or.inr (hc e1 e2 e3)))
      rw [hstep_act B i h.1 h.2, getD_set_cases, getD_set_cases,
        getD_set_cases, getD_set_cases]
      simp [hne4.1, hne4.2.1, hne4.2.2.1, hne4.2.2.2]
    · rw [hstep_skip B i h]
  have Hdisj : ∀ i j p, i ≠ j → p ∈ cells i → p ∉ cells j := by
    intro i j p hij hpi hpj
    obtain ⟨⟨hi0, hi1⟩, hpi'⟩ := hmem_cells i p hpi
    obtain ⟨⟨hj0, hj1⟩, hpj'⟩ := hmem_cells j p hpj
    -- identify p's bit signature at (q0, q1) in each decomposition;
    -- equal signatures force i = j.
    have hsig : ∀ (k : ℕ), (Nat.testBit k q0 = false ∧ Nat.testBit k q1 = false) →
        ∀ u, (u = k ∨ u = k + m0 ∨ u = k + m1 ∨ u = k + m0 + m1) →
        (Nat.testBit u q0, Nat.testBit u q1) =
          (decide (u ≠ k ∧ (u = k + m0 ∨ u = k + m0 + m1)),
           decide (u ≠ k ∧ (u = k + m1 ∨ u = k + m0 + m1))) := by
      intro k hk u hu
      obtain ⟨hk0, hk1⟩ := hk
      have e1 : k ≠ k + m0 := by omega
      have e2 : k ≠ k + m1 := by omega
      have e3 : k ≠ k + m0 + m1 := by omega
      have e4 : k + m0 ≠ k + m1 := by
        intro hc; apply hm01; omega
      have e5 : k + m0 ≠ k + m0 + m1 := by omega
      have e6 : k + m1 ≠ k + m0 + m1 := by omega
      rcases hu with h | h | h | h <;> subst h
      · simp [hk0, hk1, e1, e2, e3]
      · simp [sig10a k hk0, sig10b k hk0 hk1, Ne.symm e1, e4, e5]
      · simp [sig01a k hk1 hk0, sig01b k hk1, Ne.symm e2, Ne.symm e4, e6]
      · simp [sig11a k hk0 hk1, sig11b k hk0 hk1, Ne.symm e3, Ne.symm e5,
          Ne.symm e6]
    have hs1 := hsig i ⟨hi0, hi1⟩ p hpi'
    have hs2 := hsig j ⟨hj0, hj1⟩ p hpj'
    rw [hs1] at hs2
    have hb0 := congrArg Prod.fst hs2
    have hb1 := congrArg Prod.snd hs2
    simp only [decide_eq_decide] at hb0 hb1
    -- case on which element p is in cells i
    rcases hpi' with h | h | h | h <;> rcases hpj' with h' | h' | h' | h' <;>
      subst h
    all_goals omega
  have Hdet : ∀ B C i, B.length = C.length →
      (∀ p ∈ cells i, B.getD p 0 = C.getD p 0) →
      ∀ p ∈ cells i, (step B i).getD p 0 = (step C i).getD p 0 := by
    intro B C i hlen hag p hp
    obtain ⟨⟨hi0, hi1⟩, hp'⟩ := hmem_cells i p hp
    have hmem : ∀ u, (u = i ∨ u = i + m0 ∨ u = i + m1 ∨ u = i + m0 + m1) →
        u ∈ cells i := by
      intro u hu
      simp only [hcells]
      rw [if_pos ⟨hi0, hi1⟩]
      simpa [Finset.mem_insert, Finset.mem_singleton] using hu
    have h1 : B.getD i 0 = C.getD i 0 := hag i (hmem i (Or.inl rfl))
    have h2 : B.getD (i + m0) 0 = C.getD (i + m0) 0 :=
      hag _ (hmem _ (Or.inr (Or.inl rfl)))
    have h3 : B.getD (i + m1) 0 = C.getD (i + m1) 0 :=
      hag _ (hmem _ (Or.inr (Or.inr (Or.inl rfl))))
    have h4 : B.getD (i + m0 + m1) 0 = C.getD (i + m0 + m1) 0 :=
      hag _ (hmem _ (Or.inr (Or.inr (Or.inr rfl))))
    rw [hstep_act B i hi0 hi1, hstep_act C i hi0 hi1, h1, h2, h3, h4,
      getD_set_cases, getD_set_cases, getD_set_cases, getD_set_cases,
      getD_set_cases, getD_set_cases, getD_set_cases, getD_set_cases]
    simp only [List.length_set, hlen]
    split_ifs <;> first | rfl | exact hag p hp
  obtain ⟨hflen, hout, hin⟩ :=
    owner_foldl step cells Hlen Hframe Hdisj Hdet A A.length
  rw [← heq] at hflen hout hin
  refine ⟨hflen, ?_⟩
  intro p hp
  -- determine the owner of p from p's bit signature
  by_cases hb0 : Nat.testBit p q0 = false <;>
    by_cases hb1 : Nat.testBit p q1 = false
  · -- owner is p itself
    rw [if_pos hb0, if_pos hb1]
    have hmemp : p ∈ cells p := by
      simp only [hcells]
      rw [if_pos ⟨hb0, hb1⟩]
      simp
    rw [hin p p hp hmemp, hstep_act A p hb0 hb1,
      getD_set_cases, getD_set_cases, getD_set_cases, getD_set_cases]
    have e1 : ¬ p = p + m0 := by omega
    have e2 : ¬ p = p + m1 := by omega
    have e3 : ¬ p = p + m0 + m1 := by omega
    simp [e1, e2, e3, hp]
  · -- bit q1 set: owner is p - m1
    rw [if_pos hb0, if_neg hb1]
    have hb1' : Nat.testBit p q1 = true := bool_eq_true_of_not_false hb1
    have hge : m1 ≤ p := Nat.testBit_implies_ge hb1'
    set i := p - m1 with hidef
    have hpd : p = i + m1 := by omega
    have hi1 : Nat.testBit i q1 = false := by
      have := Nat.testBit_two_pow_add_eq i q1
      rw [show 2 ^ q1 + i = p by omega, hb1'] at this
      cases hbx : Nat.testBit i q1
      · rfl
      · rw [hbx] at this; simp at this
    have hi0 : Nat.testBit i q0 = false := by
      have := testBit_add_pow_ne hi1 hne
      rw [← hm1, ← hpd] at this
      rw [← this]; exact hb0
    have hmemp : p ∈ cells i := by
      simp only [hcells]
      rw [if_pos ⟨hi0, hi1⟩]
      simp [hpd]
    rw [hin i p (by omega) hmemp, hstep_act A i hi0 hi1,
      getD_set_cases, getD_set_cases, getD_set_cases, getD_set_cases]
    have e4 : p ≠ i + m0 + m1 := by
      intro hc
      have h1 := sig11a i hi0 hi1
      rw [← hc] at h1
      rw [h1] at hb0
      cases hb0
    have e5 : p = i + m1 := hpd
    rw [List.length_set, List.length_set, List.length_set]
    rw [if_neg (fun hc => e4 hc.1), if_pos ⟨e5, hp⟩, hpd,
      show i + m0 + m1 = i + m1 + m0 by omega]
  · -- bit q0 set: owner is p - m0
    rw [if_neg hb0, if_pos hb1]
    have hb0' : Nat.testBit p q0 = true := bool_eq_true_of_not_false hb0
    have hge : m0 ≤ p := Nat.testBit_implies_ge hb0'
    set i := p - m0 with hidef
    have hpd : p = i + m0 := by omega
    have hi0 : Nat.testBit i q0 = false := by
      have := Nat.testBit_two_pow_add_eq i q0
      rw [show 2 ^ q0 + i = p by omega, hb0'] at this
      cases hbx : Nat.testBit i q0
      · rfl
      · rw [hbx] at this; simp at this
    have hi1 : Nat.testBit i q1 = false := by
      have := testBit_add_pow_ne hi0 (Ne.symm hne)
      rw [← hm0, ← hpd] at this
      rw [← this]; exact hb1
    have hmemp : p ∈ cells i := by
      simp only [hcells]
      rw [if_pos ⟨hi0, hi1⟩]
      simp [hpd]
    rw [hin i p (by omega) hmemp, hstep_act A i hi0 hi1,
      getD_set_cases, getD_set_cases, getD_set_cases, getD_set_cases]
    have e4 : p ≠ i + m0 + m1 := by
      intro hc
      have h1 := sig11b i hi0 hi1
      rw [← hc] at h1
      rw [h1] at hb1
      cases hb1
    have e6 : p ≠ i + m1 := by
      intro hc
      have h1 := sig01b i hi1
      rw [← hc] at h1
      rw [h1] at hb1
      cases hb1
    rw [List.length_set, List.length_set, List.length_set]
    rw [if_neg (fun hc => e4 hc.1), if_neg (fun hc => e6 hc.1),
      if_pos ⟨hpd, hp⟩, hpd]
  · -- both bits set: owner is p - m0 - m1
    rw [if_neg hb0, if_neg hb1]
    have hb0' : Nat.testBit p q0 = true := bool_eq_true_of_not_false hb0
    have hb1' : Nat.testBit p q1 = true := bool_eq_true_of_not_false hb1
    have hge1 : m1 ≤ p := Nat.testBit_implies_ge hb1'
    -- first peel m1
    set i' := p - m1 with hipdef
    have hpd' : p = i' + m1 := by omega
    have hi'1 : Nat.testBit i' q1 = false := by
      have := Nat.testBit_two_pow_add_eq i' q1
      rw [show 2 ^ q1 + i' = p by omega, hb1'] at this
      cases hbx : Nat.testBit i' q1
      · rfl
      · rw [hbx] at this; simp at this
    have hi'0 : Nat.testBit i' q0 = true := by
      have := testBit_add_pow_ne hi'1 hne
      rw [← hm1, ← hpd'] at this
      rw [← this]; exact hb0'
    have hge0 : m0 ≤ i' := Nat.testBit_implies_ge hi'0
    set i := i' - m0 with hidef
    have hpi : i' = i + m0 := by omega
    have hi0 : Nat.testBit i q0 = false := by
      have := Nat.testBit_two_pow_add_eq i q0
      rw [show 2 ^ q0 + i = i' by omega, hi'0] at this
      cases hbx : Nat.testBit i q0
      · rfl
      · rw [hbx] at this; simp at this
    have hi1 : Nat.testBit i q1 = false := by
      have := testBit_add_pow_ne hi0 (Ne.symm hne)
      rw [← hm0, ← hpi] at this
      rw [← this]; exact hi'1
    have hpd : p = i + m0 + m1 := by omega
    have hii : i = p - m0 - m1 := by omega
    have hmemp : p ∈ cells i := by
      simp only [hcells]
      rw [if_pos ⟨hi0, hi1⟩]
      simp [hpd]
    rw [hin i p (by omega) hmemp, hstep_act A i hi0 hi1,
      getD_set_cases]
    rw [List.length_set, List.length_set, List.length_set]
    rw [if_pos ⟨hpd, hp⟩, ← hii, hpi,
      show p - m0 = i + m1 by omega, hpd]

/-! ### Bit-pair summation over a stable filtered domain -/

theorem sum_filter_bit_split (n q : ℕ) (hq : q < n) (P : ℕ → Prop)
    [DecidablePred P]
    (hP : ∀ p, Nat.testBit p q = false → (P p ↔ P (p + 2 ^ q)))
    (f : ℕ → ℝ) :
    ∑ p ∈ (Finset.range (2 ^ n)).filter P, f p =
    ∑ p ∈ (Finset.range (2 ^ n)).filter
        (fun p => P p ∧ Nat.testBit p q = false), (f p + f (p + 2 ^ q)) := by
  classical
  rw [← Finset.sum_filter_add_sum_filter_not ((Finset.range (2 ^ n)).filter P)
    (fun p => Nat.testBit p q = false) f]
  rw [Finset.filter_filter, Finset.filter_filter, Finset.sum_add_distrib]
  congr 1
  refine Finset.sum_bij' (fun a _ => a - 2 ^ q) (fun b _ => b + 2 ^ q)
    ?hi ?hj ?li ?ri ?hval
  case hi =>
    intro a ha
    dsimp only
    rw [Finset.mem_filter, Finset.mem_range] at ha ⊢
    obtain ⟨halt, hPa, habit⟩ := ha
    have hbit : Nat.testBit a q = true := bool_eq_true_of_not_false habit
    have hge : 2 ^ q ≤ a := Nat.testBit_implies_ge hbit
    have hclear : Nat.testBit (a - 2 ^ q) q = false := by
      have hta : Nat.testBit (2 ^ q + (a - 2 ^ q)) q =
          !(Nat.testBit (a - 2 ^ q) q) := Nat.testBit_two_pow_add_eq _ q
      rw [show 2 ^ q + (a - 2 ^ q) = a by omega, hbit] at hta
      cases hbx : Nat.testBit (a - 2 ^ q) q
      · rfl
      · rw [hbx] at hta; simp at hta
    refine ⟨lt_of_le_of_lt (Nat.sub_le a (2 ^ q)) halt, ?_, hclear⟩
    rw [hP (a - 2 ^ q) hclear, show a - 2 ^ q + 2 ^ q = a by omega]
    exact hPa
  case hj =>
    intro b hb
    dsimp only
    rw [Finset.mem_filter, Finset.mem_range] at hb ⊢
    obtain ⟨hblt, hPb, hbbit⟩ := hb
    refine ⟨add_pow_lt hblt hq hbbit, ?_, ?_⟩
    · exact (hP b hbbit).mp hPb
    · rw [testBit_add_pow_self hbbit]
      simp
  case li =>
    intro a ha
    dsimp only
    rw [Finset.mem_filter, Finset.mem_range] at ha
    obtain ⟨halt, hPa, habit⟩ := ha
    have hbit : Nat.testBit a q = true := bool_eq_true_of_not_false habit
    have hge : 2 ^ q ≤ a := Nat.testBit_implies_ge hbit
    omega
  case ri =>
    intro b _
    dsimp only
    omega
  case hval =>
    intro a ha
    dsimp only
    rw [Finset.mem_filter, Finset.mem_range] at ha
    obtain ⟨halt, hPa, habit⟩ := ha
    have hbit : Nat.testBit a q = true := bool_eq_true_of_not_false habit
    have hge : 2 ^ q ≤ a := Nat.testBit_implies_ge hbit
    rw [show a - 2 ^ q + 2 ^ q = a by omega]

/-! ### The two-qubit gate functions preserve tuple norms -/

theorem cnot_tuple_norm (a b c d : ℂ) :
    Complex.normSq (gate.cnot a b c d).1 + Complex.normSq (gate.cnot a b c d).2.1 +
    Complex.normSq (gate.cnot a b c d).2.2.1 +
    Complex.normSq (gate.cnot a b c d).2.2.2 =
    Complex.normSq a + Complex.normSq b + Complex.normSq c + Complex.normSq d := by
  simp [gate.cnot]
  ring

theorem cz_tuple_norm (a b c d : ℂ) :
    Complex.normSq (gate.cz a b c d).1 + Complex.normSq (gate.cz a b c d).2.1 +
    Complex.normSq (gate.cz a b c d).2.2.1 +
    Complex.normSq (gate.cz a b c d).2.2.2 =
    Complex.normSq a + Complex.normSq b + Complex.normSq c + Complex.normSq d := by
  simp [gate.cz]

theorem swap_tuple_norm (a b c d : ℂ) :
    Complex.normSq (gate.swap a b c d).1 + Complex.normSq (gate.swap a b c d).2.1 +
    Complex.normSq (gate.swap a b c d).2.2.1 +
    Complex.normSq (gate.swap a b c d).2.2.2 =
    Complex.normSq a + Complex.normSq b + Complex.normSq c + Complex.normSq d := by
  simp [gate.swap]
  ring

/-- Norm preservation for the two-qubit applicator loop with distinct
in-range targets, given a tuple-norm-preserving gate function. -/
theorem two_qubit_loop_norm (g : ℂ → ℂ → ℂ → ℂ → ℂ × ℂ × ℂ × ℂ)
    (hg : ∀ a b c d,
      Complex.normSq (g a b c d).1 + Complex.normSq (g a b c d).2.1 +
      Complex.normSq (g a b c d).2.2.1 + Complex.normSq (g a b c d).2.2.2 =
      Complex.normSq a + Complex.normSq b + Complex.normSq c + Complex.normSq d)
    (n q0 q1 : ℕ) (hq0 : q0 < n) (hq1 : q1 < n) (hne : q0 ≠ q1)
    (A : List ℂ) (hlen : A.length = 2 ^ n) :
    norm_total (two_qubit_loop g q0 q1 A) = norm_total A := by
  classical
  obtain ⟨hflen, hpt⟩ := two_qubit_loop_getD g q0 q1 hne A
  have hPstable : ∀ p, Nat.testBit p q1 = false →
      ((fun p => Nat.testBit p q0 = false) p ↔
       (fun p => Nat.testBit p q0 = false) (p + 2 ^ q1)) := by
    intro p hp
    dsimp only
    rw [testBit_add_pow_ne hp hne]
  rw [norm_total_eq_sum_range, norm_total_eq_sum_range, hflen, hlen,
    sum_range_bit_split n q0 hq0, sum_range_bit_split n q0 hq0,
    sum_filter_bit_split n q1 hq1 (fun p => Nat.testBit p q0 = false)
      hPstable,
    sum_filter_bit_split n q1 hq1 (fun p => Nat.testBit p q0 = false)
      hPstable]
  apply Finset.sum_congr rfl
  intro p hp
  rw [Finset.mem_filter, Finset.mem_range] at hp
  obtain ⟨hplt, hp0, hp1⟩ := hp
  set m0 := 2 ^ q0 with hm0
  set m1 := 2 ^ q1 with hm1
  have hs10 : Nat.testBit (p + m0) q0 = true := testBit_add_pow_self hp0
  have hs10' : Nat.testBit (p + m0) q1 = false := by
    rw [hm0, testBit_add_pow_ne hp0 (Ne.symm hne)]; exact hp1
  have hs01 : Nat.testBit (p + m1) q0 = false := by
    rw [hm1, testBit_add_pow_ne hp1 hne]; exact hp0
  have hs01' : Nat.testBit (p + m1) q1 = true := testBit_add_pow_self hp1
  have hs11 : Nat.testBit (p + m1 + m0) q0 = true := by
    rw [hm0]
    exact testBit_add_pow_self hs01
  have hs11' : Nat.testBit (p + m1 + m0) q1 = true := by
    rw [hm0, testBit_add_pow_ne hs01 (Ne.symm hne)]
    exact hs01'
  have hr0 : p < A.length := by omega
  have hr1 : p + m0 < A.length := by
    rw [hlen, hm0]; exact add_pow_lt hplt hq0 hp0
  have hr2 : p + m1 < A.length := by
    rw [hlen, hm1]; exact add_pow_lt hplt hq1 hp1
  have hr3 : p + m1 + m0 < A.length := by
    rw [hlen, hm0]
    refine add_pow_lt ?_ hq0 hs01
    rw [← hlen]; exact hr2
  rw [hpt p hr0, hpt (p + m0) hr1, hpt (p + m1) hr2, hpt (p + m1 + m0) hr3]
  rw [if_pos hp0, if_pos hp1,
    if_neg (by simp [hs10]), if_pos hs10',
    if_pos hs01, if_neg (by simp [hs01']),
    if_neg (by simp [hs11]), if_neg (by simp [hs11'])]
  rw [show p + m0 - m0 = p by omega, show p + m1 - m1 = p by omega,
    show p + m1 + m0 - m0 - m1 = p by omega,
    show p + m1 + m0 - m1 = p + m0 by rw [Nat.add_right_comm, Nat.add_sub_cancel],
    show p + m1 + m0 - m0 = p + m1 by rw [Nat.add_sub_cancel],
    show p + m1 + m0 = p + m0 + m1 by omega]
  have := hg (A.getD p 0) (A.getD (p + m0) 0) (A.getD (p + m1) 0)
    (A.getD (p + m0 + m1) 0)
  linarith [this]

/-! ### Double application of self-inverse gates -/

theorem one_qubit_loop_twice (g : ℂ → ℂ → ℂ × ℂ)
    (hgg : ∀ a b, g (g a b).1 (g a b).2 = (a, b))
    (n q : ℕ) (hq : q < n) (A : List ℂ) (hlen : A.length = 2 ^ n) :
    one_qubit_loop g q (one_qubit_loop g q A) = A := by
  obtain ⟨hBlen, hB⟩ := one_qubit_loop_getD g q A
  set B := one_qubit_loop g q A with hBdef
  obtain ⟨hClen, hC⟩ := one_qubit_loop_getD g q B
  apply list_ext_getD (by rw [hClen, hBlen])
  intro p hp
  have hpB : p < B.length := by rw [← hClen]; exact hp
  have hpA : p < A.length := by rw [← hBlen]; exact hpB
  by_cases hbit : Nat.testBit p q = false
  · have hpm : p + 2 ^ q < A.length := by
      rw [hlen]
      exact add_pow_lt (by rw [← hlen]; exact hpA) hq hbit
    have hbset : Nat.testBit (p + 2 ^ q) q = true := testBit_add_pow_self hbit
    rw [hC p hpB, if_pos hbit, hB p hpA, hB (p + 2 ^ q) hpm,
      if_pos hbit, if_neg (by simp [hbset]), Nat.add_sub_cancel]
    have := congrArg Prod.fst (hgg (A.getD p 0) (A.getD (p + 2 ^ q) 0))
    simpa using this
  · have hbit' : Nat.testBit p q = true := bool_eq_true_of_not_false hbit
    have hge : 2 ^ q ≤ p := Nat.testBit_implies_ge hbit'
    have hiA : p - 2 ^ q < A.length := lt_of_le_of_lt (Nat.sub_le _ _) hpA
    have hibit : Nat.testBit (p - 2 ^ q) q = false := by
      have := Nat.testBit_two_pow_add_eq (p - 2 ^ q) q
      rw [show 2 ^ q + (p - 2 ^ q) = p by omega, hbit'] at this
      cases hbx : Nat.testBit (p - 2 ^ q) q
      · rfl
      · rw [hbx] at this; simp at this
    rw [hC p hpB, if_neg (by simp [hbit']), hB p hpA, hB (p - 2 ^ q) hiA,
      if_pos hibit, if_neg (by simp [hbit']),
      show p - 2 ^ q + 2 ^ q = p by omega]
    have := congrArg Prod.snd (hgg (A.getD (p - 2 ^ q) 0) (A.getD p 0))
    simpa using this

theorem two_qubit_loop_twice (g : ℂ → ℂ → ℂ → ℂ → ℂ × ℂ × ℂ × ℂ)
    (hgg : ∀ a b c d,
      g (g a b c d).1 (g a b c d).2.1 (g a b c d).2.2.1 (g a b c d).2.2.2 =
        (a, b, c, d))
    (n q0 q1 : ℕ) (hq0 : q0 < n) (hq1 : q1 < n) (hne : q0 ≠ q1)
    (A : List ℂ) (hlen : A.length = 2 ^ n) :
    two_qubit_loop g q0 q1 (two_qubit_loop g q0 q1 A) = A := by
  obtain ⟨hBlen, hB⟩ := two_qubit_loop_getD g q0 q1 hne A
  set B := two_qubit_loop g q0 q1 A with hBdef
  obtain ⟨hClen, hC⟩ := two_qubit_loop_getD g q0 q1 hne B
  apply list_ext_getD (by rw [hClen, hBlen])
  intro p hp
  have hpB : p < B.length := by rw [← hClen]; exact hp
  have hpA : p < A.length := by rw [← hBlen]; exact hpB
  set m0 := 2 ^ q0 with hm0
  set m1 := 2 ^ q1 with hm1
  -- the four B-values over an active representative's cell group
  have hquad : ∀ i, Nat.testBit i q0 = false → Nat.testBit i q1 = false →
      i < A.length →
      B.getD i 0 =
        (g (A.getD i 0) (A.getD (i + m0) 0) (A.getD (i + m1) 0)
           (A.getD (i + m0 + m1) 0)).1 ∧
      B.getD (i + m0) 0 =
        (g (A.getD i 0) (A.getD (i + m0) 0) (A.getD (i + m1) 0)
           (A.getD (i + m0 + m1) 0)).2.1 ∧
      B.getD (i + m1) 0 =
        (g (A.getD i 0) (A.getD (i + m0) 0) (A.getD (i + m1) 0)
           (A.getD (i + m0 + m1) 0)).2.2.1 ∧
      B.getD (i + m0 + m1) 0 =
        (g (A.getD i 0) (A.getD (i + m0) 0) (A.getD (i + m1) 0)
           (A.getD (i + m0 + m1) 0)).2.2.2 := by
    intro i hi0 hi1 hiA
    have hs10 : Nat.testBit (i + m0) q0 = true := testBit_add_pow_self hi0
    have hs10' : Nat.testBit (i + m0) q1 = false := by
      rw [hm0, testBit_add_pow_ne hi0 (Ne.symm hne)]; exact hi1
    have hs01 : Nat.testBit (i + m1) q0 = false := by
      rw [hm1, testBit_add_pow_ne hi1 hne]; exact hi0
    have hs01' : Nat.testBit (i + m1) q1 = true := testBit_add_pow_self hi1
    have hs11 : Nat.testBit (i + m0 + m1) q0 = true := by
      rw [hm1, testBit_add_pow_ne hs10' hne]
      exact hs10
    have hs11' : Nat.testBit (i + m0 + m1) q1 = true :=
      testBit_add_pow_self hs10'
    have hr1 : i + m0 < A.length := by
      rw [hlen, hm0]; exact add_pow_lt (by rw [← hlen]; exact hiA) hq0 hi0
    have hr2 : i + m1 < A.length := by
      rw [hlen, hm1]; exact add_pow_lt (by rw [← hlen]; exact hiA) hq1 hi1
    have hr3 : i + m0 + m1 < A.length := by
      rw [hlen, hm1]
      exact add_pow_lt (by rw [← hlen]; exact hr1) hq1 hs10'
    refine ⟨?_, ?_, ?_, ?_⟩
    · rw [hB i hiA, if_pos hi0, if_pos hi1]
    · rw [hB (i + m0) hr1, if_neg (by simp [hs10]), if_pos hs10',
        Nat.add_sub_cancel]
    · rw [hB (i + m1) hr2, if_pos hs01, if_neg (by simp [hs01']),
        Nat.add_sub_cancel, Nat.add_right_comm i m1 m0]
    · rw [hB (i + m0 + m1) hr3, if_neg (by simp [hs11]),
        if_neg (by simp [hs11']),
        show i + m0 + m1 - m0 - m1 = i by omega,
        show i + m0 + m1 - m1 = i + m0 by rw [Nat.add_sub_cancel],
        show i + m0 + m1 - m0 = i + m1 by
          rw [Nat.add_right_comm, Nat.add_sub_cancel]]
  by_cases hb0 : Nat.testBit p q0 = false <;>
    by_cases hb1 : Nat.testBit p q1 = false
  · -- (F, F): p is its own representative
    obtain ⟨e1, e2, e3, e4⟩ := hquad p hb0 hb1 hpA
    rw [hC p hpB, if_pos hb0, if_pos hb1, e1, e2, e3, e4]
    have := congrArg (fun t => t.1)
      (hgg (A.getD p 0) (A.getD (p + m0) 0) (A.getD (p + m1) 0)
        (A.getD (p + m0 + m1) 0))
    simpa using this
  · -- (F, T): representative is p - m1
    have hb1' : Nat.testBit p q1 = true := bool_eq_true_of_not_false hb1
    have hge : m1 ≤ p := Nat.testBit_implies_ge hb1'
    set i := p - m1 with hidef
    have hpd : p = i + m1 := by omega
    have hi1 : Nat.testBit i q1 = false := by
      have := Nat.testBit_two_pow_add_eq i q1
      rw [show 2 ^ q1 + i = p by omega, hb1'] at this
      cases hbx : Nat.testBit i q1
      · rfl
      · rw [hbx] at this; simp at this
    have hi0 : Nat.testBit i q0 = false := by
      have := testBit_add_pow_ne hi1 hne
      rw [← hm1, ← hpd] at this
      rw [← this]; exact hb0
    have hiAl : i < A.length := by
      rw [hidef]; exact lt_of_le_of_lt (Nat.sub_le _ _) hpA
    obtain ⟨e1, e2, e3, e4⟩ := hquad i hi0 hi1 hiAl
    rw [hC p hpB, if_pos hb0, if_neg (by simp [hb1']), ← hidef,
      show p + m0 = i + m0 + m1 by omega, show p = i + m1 from hpd,
      e1, e2, e3, e4]
    have := congrArg (fun t => t.2.2.1)
      (hgg (A.getD i 0) (A.getD (i + m0) 0) (A.getD (i + m1) 0)
        (A.getD (i + m0 + m1) 0))
    simpa using this
  · -- (T, F): representative is p - m0
    have hb0' : Nat.testBit p q0 = true := bool_eq_true_of_not_false hb0
    have hge : m0 ≤ p := Nat.testBit_implies_ge hb0'
    set i := p - m0 with hidef
    have hpd : p = i + m0 := by omega
    have hi0 : Nat.testBit i q0 = false := by
      have := Nat.testBit_two_pow_add_eq i q0
      rw [show 2 ^ q0 + i = p by omega, hb0'] at this
      cases hbx : Nat.testBit i q0
      · rfl
      · rw [hbx] at this; simp at this
    have hi1 : Nat.testBit i q1 = false := by
      have := testBit_add_pow_ne hi0 (Ne.symm hne)
      rw [← hm0, ← hpd] at this
      rw [← this]; exact hb1
    have hiAl : i < A.length := by
      rw [hidef]; exact lt_of_le_of_lt (Nat.sub_le _ _) hpA
    obtain ⟨e1, e2, e3, e4⟩ := hquad i hi0 hi1 hiAl
    rw [hC p hpB, if_neg (by simp [hb0']), if_pos hb1, ← hidef,
      show p + m1 = i + m0 + m1 by omega, show p = i + m0 from hpd,
      e1, e2, e3, e4]
    have := congrArg (fun t => t.2.1)
      (hgg (A.getD i 0) (A.getD (i + m0) 0) (A.getD (i + m1) 0)
        (A.getD (i + m0 + m1) 0))
    simpa using this
  · -- (T, T): representative is p - m0 - m1
    have hb0' : Nat.testBit p q0 = true := bool_eq_true_of_not_false hb0
    have hb1' : Nat.testBit p q1 = true := bool_eq_true_of_not_false hb1
    have hge1 : m1 ≤ p := Nat.testBit_implies_ge hb1'
    set i' := p - m1 with hipdef
    have hpd' : p = i' + m1 := by omega
    have hi'1 : Nat.testBit i' q1 = false := by
      have := Nat.testBit_two_pow_add_eq i' q1
      rw [show 2 ^ q1 + i' = p by omega, hb1'] at this
      cases hbx : Nat.testBit i' q1
      · rfl
      · rw [hbx] at this; simp at this
    have hi'0 : Nat.testBit i' q0 = true := by
      have := testBit_add_pow_ne hi'1 hne
      rw [← hm1, ← hpd'] at this
      rw [← this]; exact hb0'
    have hge0 : m0 ≤ i' := Nat.testBit_implies_ge hi'0
    set i := i' - m0 with hidef
    have hpi : i' = i + m0 := by omega
    have hi0 : Nat.testBit i q0 = false := by
      have := Nat.testBit_two_pow_add_eq i q0
      rw [show 2 ^ q0 + i = i' by omega, hi'0] at this
      cases hbx : Nat.testBit i q0
      · rfl
      · rw [hbx] at this; simp at this
    have hi1 : Nat.testBit i q1 = false := by
      have := testBit_add_pow_ne hi0 (Ne.symm hne)
      rw [← hm0, ← hpi] at this
      rw [← this]; exact hi'1
    have hpd : p = i + m0 + m1 := by omega
    have hiAl : i < A.length := by
      rw [hidef]
      exact lt_of_le_of_lt (Nat.sub_le _ _)
        (by rw [hipdef]; exact lt_of_le_of_lt (Nat.sub_le _ _) hpA)
    obtain ⟨e1, e2, e3, e4⟩ := hquad i hi0 hi1 hiAl
    rw [hC p hpB, if_neg (by simp [hb0']), if_neg (by simp [hb1'])]
    rw [show p - m0 - m1 = i by omega, ← hipdef, hpi,
      show p - m0 = i + m1 by
        rw [hpd, Nat.add_right_comm i m0 m1, Nat.add_sub_cancel],
      show p = i + m0 + m1 from hpd,
      e1, e2, e3, e4]
    have := congrArg (fun t => t.2.2.2)
      (hgg (A.getD i 0) (A.getD (i + m0) 0) (A.getD (i + m1) 0)
        (A.getD (i + m0 + m1) 0))
    simpa using this

theorem pauli_x_invol (a b : ℂ) :
    gate.pauli_x (gate.pauli_x a b).1 (gate.pauli_x a b).2 = (a, b) := rfl

theorem pauli_z_invol (a b : ℂ) :
    gate.pauli_z (gate.pauli_z a b).1 (gate.pauli_z a b).2 = (a, b) := by
  simp [gate.pauli_z]

theorem hadamard_invol (a b : ℂ) :
    gate.hadamard (gate.hadamard a b).1 (gate.hadamard a b).2 = (a, b) := by
  have hc : (INV_SQRT_2 : ℂ) * (INV_SQRT_2 : ℂ) = 1 / 2 := by
    rw [← Complex.ofReal_mul, inv_sqrt_two_sq]
    norm_num
  simp only [gate.hadamard, Prod.mk.injEq]
  constructor
  · have h1 : (INV_SQRT_2 : ℂ) *
        ((INV_SQRT_2 : ℂ) * (a + b) + (INV_SQRT_2 : ℂ) * (a - b)) =
        ((INV_SQRT_2 : ℂ) * (INV_SQRT_2 : ℂ)) * (2 * a) := by ring
    rw [h1, hc]
    ring
  · have h2 : (INV_SQRT_2 : ℂ) *
        ((INV_SQRT_2 : ℂ) * (a + b) - (INV_SQRT_2 : ℂ) * (a - b)) =
        ((INV_SQRT_2 : ℂ) * (INV_SQRT_2 : ℂ)) * (2 * b) := by ring
    rw [h2, hc]
    ring

theorem swap_invol (a b c d : ℂ) :
    gate.swap (gate.swap a b c d).1 (gate.swap a b c d).2.1
      (gate.swap a b c d).2.2.1 (gate.swap a b c d).2.2.2 = (a, b, c, d) := rfl

theorem apply_one_qubit_gate_twice (g : ℂ → ℂ → ℂ × ℂ)
    (hgg : ∀ a b, g (g a b).1 (g a b).2 = (a, b))
    (q : ℕ) (sim : QuantumSimulation) (hq : q < sim.qubit_count)
    (hlen : sim.amplitudes.length = 2 ^ sim.qubit_count) :
    (apply_one_qubit_gate g q sim).bind (apply_one_qubit_gate g q) =
      .ok sim := by
  obtain ⟨nc, amps, rng, pos⟩ := sim
  rw [apply_one_qubit_gate, if_pos hq]
  show apply_one_qubit_gate g q _ = _
  rw [apply_one_qubit_gate, if_pos hq]
  have h2 : one_qubit_loop g q (one_qubit_loop g q amps) = amps :=
    one_qubit_loop_twice g hgg nc q hq amps hlen
  simp only [h2]

theorem apply_two_qubit_gate_twice (g : ℂ → ℂ → ℂ → ℂ → ℂ × ℂ × ℂ × ℂ)
    (hgg : ∀ a b c d,
      g (g a b c d).1 (g a b c d).2.1 (g a b c d).2.2.1 (g a b c d).2.2.2 =
        (a, b, c, d))
    (q0 q1 : ℕ) (sim : QuantumSimulation) (hq0 : q0 < sim.qubit_count)
    (hq1 : q1 < sim.qubit_count) (hne : q0 ≠ q1)
    (hlen : sim.amplitudes.length = 2 ^ sim.qubit_count) :
    (apply_two_qubit_gate g q0 q1 sim).bind (apply_two_qubit_gate g q0 q1) =
      .ok sim := by
  obtain ⟨nc, amps, rng, pos⟩ := sim
  rw [apply_two_qubit_gate, if_pos ⟨hq0, hq1⟩]
  show apply_two_qubit_gate g q0 q1 _ = _
  rw [apply_two_qubit_gate, if_pos ⟨hq0, hq1⟩]
  have h2 : two_qubit_loop g q0 q1 (two_qubit_loop g q0 q1 amps) = amps :=
    two_qubit_loop_twice g hgg nc q0 q1 hq0 hq1 hne amps hlen
  simp only [h2]

/-- Claim C7: on a well-formed simulation state (amplitude vector of length
`2^n`) and valid targets, applying Pauli-X, Pauli-Z, Hadamard, or SWAP twice
in succession restores the original state exactly.  In this real-arithmetic
model the Hadamard case is exact as well; in `f64` arithmetic it is exact up
to rounding, which is the claim's "numerically" qualification. -/
theorem self_inverse_gates_spec :
    (∀ (sim : QuantumSimulation) (q : ℕ), q < sim.qubit_count →
      sim.amplitudes.length = 2 ^ sim.qubit_count →
      (pauli_x q sim).bind (pauli_x q) = .ok sim) ∧
    (∀ (sim : QuantumSimulation) (q : ℕ), q < sim.qubit_count →
      sim.amplitudes.length = 2 ^ sim.qubit_count →
      (pauli_z q sim).bind (pauli_z q) = .ok sim) ∧
    (∀ (sim : QuantumSimulation) (q : ℕ), q < sim.qubit_count →
      sim.amplitudes.length = 2 ^ sim.qubit_count →
      (hadamard q sim).bind (hadamard q) = .ok sim) ∧
    (∀ (sim : QuantumSimulation) (q0 q1 : ℕ), q0 < sim.qubit_count →
      q1 < sim.qubit_count → q0 ≠ q1 →
      sim.amplitudes.length = 2 ^ sim.qubit_count →
      (swap q0 q1 sim).bind (swap q0 q1) = .ok sim) := by
  refine ⟨fun sim q hq hlen => ?_, fun sim q hq hlen => ?_,
    fun sim q hq hlen => ?_, fun sim q0 q1 hq0 hq1 hne hlen => ?_⟩
  · exact apply_one_qubit_gate_twice gate.pauli_x pauli_x_invol q sim hq hlen
  · exact apply_one_qubit_gate_twice gate.pauli_z pauli_z_invol q sim hq hlen
  · exact apply_one_qubit_gate_twice gate.hadamard hadamard_invol q sim hq hlen
  · exact apply_two_qubit_gate_twice gate.swap swap_invol q0 q1 sim hq0 hq1
      hne hlen

/-- Claim C7, witness: double application of each of the four gates on a
concrete state is the identity. -/
theorem self_inverse_gates_spec_witness :
    ((pauli_x 0 ⟨1, [(1 : ℂ), 0], fun _ => (0 : ℝ), 0⟩).bind (pauli_x 0) =
      .ok ⟨1, [(1 : ℂ), 0], fun _ => (0 : ℝ), 0⟩) ∧
    ((pauli_z 0 ⟨1, [(1 : ℂ), 0], fun _ => (0 : ℝ), 0⟩).bind (pauli_z 0) =
      .ok ⟨1, [(1 : ℂ), 0], fun _ => (0 : ℝ), 0⟩) ∧
    ((hadamard 0 ⟨1, [(1 : ℂ), 0], fun _ => (0 : ℝ), 0⟩).bind (hadamard 0) =
      .ok ⟨1, [(1 : ℂ), 0], fun _ => (0 : ℝ), 0⟩) ∧
    ((swap 0 1 ⟨2, [(1 : ℂ), 0, 0, 0], fun _ => (0 : ℝ), 0⟩).bind (swap 0 1) =
      .ok ⟨2, [(1 : ℂ), 0, 0, 0], fun _ => (0 : ℝ), 0⟩) :=
  ⟨self_inverse_gates_spec.1 _ 0 (by norm_num) (by norm_num),
   self_inverse_gates_spec.2.1 _ 0 (by norm_num) (by norm_num),
   self_inverse_gates_spec.2.2.1 _ 0 (by norm_num) (by norm_num),
   self_inverse_gates_spec.2.2.2 _ 0 1 (by norm_num) (by norm_num)
     (by norm_num) (by norm_num)⟩

/-! ### Characterization of the zeroing and renormalization loops of
`measure` -/

theorem measure_zero_loop_spec (qs : List ℕ) (ms : List Bool) (A : List ℂ) :
    (measure_zero_loop qs ms A).1.length = A.length ∧
    (∀ p, (measure_zero_loop qs ms A).1.getD p 0 =
      if p < A.length ∧ ((qs.zip ms).any
          (fun qb => (decide (p &&& (1 <<< qb.1) ≠ 0)) != qb.2)) = true
      then 0 else A.getD p 0) ∧
    (measure_zero_loop qs ms A).2.1 =
      ∑ p ∈ (Finset.range A.length).filter
        (fun p => ((qs.zip ms).any
          (fun qb => (decide (p &&& (1 <<< qb.1) ≠ 0)) != qb.2)) = false),
        Complex.normSq (A.getD p 0) ∧
    (measure_zero_loop qs ms A).2.2 =
      (List.range A.length).filter
        (fun p => !((qs.zip ms).any
          (fun qb => (decide (p &&& (1 <<< qb.1) ≠ 0)) != qb.2))) := by
  classical
  set M : ℕ → Bool := fun p => (qs.zip ms).any
    (fun qb => (decide (p &&& (1 <<< qb.1) ≠ 0)) != qb.2) with hM
  set step : (List ℂ × ℝ × List ℕ) → ℕ → (List ℂ × ℝ × List ℕ) := fun st i =>
    if M i then (st.1.set i 0, st.2.1, st.2.2)
    else (st.1, st.2.1 + Complex.normSq (st.1.getD i 0), st.2.2 ++ [i])
    with hstep
  have heq : measure_zero_loop qs ms A =
      (List.range A.length).foldl step (A, 0, []) := rfl
  rw [heq]
  have main : ∀ m,
      ((List.range m).foldl step (A, 0, [])).1.length = A.length ∧
      (∀ p, ((List.range m).foldl step (A, 0, [])).1.getD p 0 =
        if p < m ∧ M p = true then 0 else A.getD p 0) ∧
      ((List.range m).foldl step (A, 0, [])).2.1 =
        ∑ p ∈ (Finset.range m).filter (fun p => M p = false),
          Complex.normSq (A.getD p 0) ∧
      ((List.range m).foldl step (A, 0, [])).2.2 =
        (List.range m).filter (fun p => !M p) := by
    intro m
    induction m with
    | zero => simp
    | succ m ih =>
      obtain ⟨ih1, ih2, ih3, ih4⟩ := ih
      rw [List.range_succ, List.foldl_append, List.foldl_cons, List.foldl_nil]
      by_cases hMm : M m = true
      · rw [show step ((List.range m).foldl step (A, 0, [])) m =
          (((List.range m).foldl step (A, 0, [])).1.set m 0,
           ((List.range m).foldl step (A, 0, [])).2.1,
           ((List.range m).foldl step (A, 0, [])).2.2) by
            simp only [hstep]; rw [if_pos hMm]]
        refine ⟨by simp [ih1], ?_, ?_, ?_⟩
        · intro p
          rw [getD_set_cases, ih1]
          by_cases hpm : p = m
          · subst hpm
            by_cases hpl : p < A.length
            · simp [hpl, hMm]
            · have hA0 : A.getD p 0 = 0 :=
                getD_eq_default 0 (Nat.le_of_not_lt hpl)
              rw [if_neg (fun hc => hpl hc.2), ih2, hA0]
              simp
          · rw [if_neg (fun hc => hpm hc.1), ih2]
            congr 1
            simp only [eq_iff_iff]
            constructor
            · rintro ⟨h1, h2⟩
              exact ⟨by omega, h2⟩
            · rintro ⟨h1, h2⟩
              refine ⟨?_, h2⟩
              rcases Nat.lt_succ_iff_lt_or_eq.mp h1 with h | h
              · exact h
              · exact absurd h hpm
        · rw [ih3, Finset.range_succ, Finset.filter_insert,
            if_neg (by simp [hMm])]
        · dsimp only
          rw [List.filter_append]
          simp [hMm, ih4]
      · have hMm' : M m = false := by
          cases hx : M m
          · rfl
          · exact absurd hx hMm
        rw [show step ((List.range m).foldl step (A, 0, [])) m =
          (((List.range m).foldl step (A, 0, [])).1,
           ((List.range m).foldl step (A, 0, [])).2.1 +
             Complex.normSq (((List.range m).foldl step (A, 0, [])).1.getD m 0),
           ((List.range m).foldl step (A, 0, [])).2.2 ++ [m]) by
            simp only [hstep]; rw [if_neg (by simp [hMm'])]]
        refine ⟨ih1, ?_, ?_, ?_⟩
        · intro p
          rw [ih2]
          congr 1
          simp only [eq_iff_iff]
          constructor
          · rintro ⟨h1, h2⟩
            exact ⟨by omega, h2⟩
          · rintro ⟨h1, h2⟩
            refine ⟨?_, h2⟩
            rcases Nat.lt_succ_iff_lt_or_eq.mp h1 with h | h
            · exact h
            · subst h
              rw [h2] at hMm'
              cases hMm'
        · rw [ih3, ih2 m, if_neg (by simp), Finset.range_succ,
            Finset.filter_insert, if_pos (by simp [hMm']),
            Finset.sum_insert (by simp)]
          ring
        · dsimp only
          rw [List.filter_append]
          simp [hMm', ih4]
  exact main A.length

theorem measure_bump_loop_spec (bump : ℝ) (poss : List ℕ) (A : List ℂ)
    (hnd : poss.Nodup) :
    (measure_bump_loop bump poss A).length = A.length ∧
    ∀ p < A.length, (measure_bump_loop bump poss A).getD p 0 =
      if p ∈ poss then (bump : ℂ) * A.getD p 0 else A.getD p 0 := by
  induction poss generalizing A with
  | nil => simp [measure_bump_loop]
  | cons i rest ih =>
    have hnd' : rest.Nodup := hnd.of_cons
    have hni : i ∉ rest := by
      intro hc
      exact (List.nodup_cons.mp hnd).1 hc
    have hstep : measure_bump_loop bump (i :: rest) A =
        measure_bump_loop bump rest (A.set i ((bump : ℂ) * A.getD i 0)) := rfl
    obtain ⟨ihl, ihv⟩ := ih (A.set i ((bump : ℂ) * A.getD i 0)) hnd'
    rw [hstep]
    refine ⟨by rw [ihl]; simp, ?_⟩
    intro p hp
    rw [ihv p (by simp [hp])]
    by_cases hpr : p ∈ rest
    · have hpi : p ≠ i := fun hc => hni (hc ▸ hpr)
      rw [if_pos hpr, if_pos (by simp [hpr]), getD_set_ne _ _ (Ne.symm hpi)]
    · by_cases hpi : p = i
      · subst hpi
        rw [if_neg hpr, if_pos (by simp), getD_set_self hp]
      · rw [if_neg hpr, if_neg (by simp [hpr, hpi]),
          getD_set_ne _ _ (fun hc => hpi hc.symm)]

theorem getD_map (f : ℂ → ℂ) (A : List ℂ) (p : ℕ) (hp : p < A.length) :
    (A.map f).getD p 0 = f (A.getD p 0) := by
  rw [List.getD_eq_getElem?_getD, List.getD_eq_getElem?_getD,
    List.getElem?_map, List.getElem?_eq_getElem hp]
  rfl

/-! ### Claim C10: `measure` with an empty qubit list -/

/-- Claim C10: `measure(vec![])` is accepted, returns an empty outcome list,
advances the random source by exactly one draw, and multiplies every
amplitude uniformly by `1/√(sum of squared magnitudes)` — in particular no
amplitude is zeroed. -/
theorem measure_empty_spec (sim : QuantumSimulation) :
    measure [] sim =
      .ok (([] : List Bool),
        { qubit_count := sim.qubit_count,
          amplitudes := sim.amplitudes.map
            (fun a =>
              ((1 / Real.sqrt (norm_total sim.amplitudes) : ℝ) : ℂ) * a),
          rng := sim.rng,
          rngPos := sim.rngPos + 1 }) := by
  obtain ⟨nc, A, rng, pos⟩ := sim
  rw [measure, if_pos (by intro q hq; cases hq)]
  simp only [List.map_nil, choose_state]
  obtain ⟨hz1, hz2, hz3, hz4⟩ := measure_zero_loop_spec [] [] A
  have hzl : (measure_zero_loop [] [] A).1 = A := by
    apply list_ext_getD hz1
    intro p hp
    rw [hz2 p]
    simp
  have hzacc : (measure_zero_loop [] [] A).2.1 = norm_total A := by
    rw [hz3, norm_total_eq_sum_range]
    congr 1
    apply Finset.filter_true_of_mem
    intro p _
    simp
  have hzposs : (measure_zero_loop [] [] A).2.2 = List.range A.length := by
    rw [hz4]
    simp
  rw [hzacc, hzposs, hzl]
  obtain ⟨hbl, hbv⟩ := measure_bump_loop_spec
    (Real.sqrt (1 / norm_total A)) (List.range A.length) A
    (List.nodup_range _)
  have hsq : Real.sqrt (1 / norm_total A) = 1 / Real.sqrt (norm_total A) := by
    rw [one_div, one_div, Real.sqrt_inv]
  have hmap : measure_bump_loop (Real.sqrt (1 / norm_total A))
      (List.range A.length) A =
      A.map (fun a => ((1 / Real.sqrt (norm_total A) : ℝ) : ℂ) * a) := by
    apply list_ext_getD (by rw [hbl, List.length_map])
    intro p hp
    have hpA : p < A.length := by rw [← hbl]; exact hp
    rw [hbv p hpA, if_pos (List.mem_range.mpr hpA), getD_map _ _ _ hpA, hsq]
  rw [hmap]

/-! ### Claim C9: the random source advances exactly once per measurement -/

/-- Claim C9: every gate application, oracle application and `reset` leaves
the random generator (its stream and its cursor) untouched; `measure_all`
and `measure` advance the cursor by exactly one draw and never change the
stream.  In this functional model replay determinism under an identical
seed and call sequence is immediate. -/
theorem rng_frame_spec :
    (∀ (g : ℂ → ℂ → ℂ × ℂ) (q : ℕ) (sim sim' : QuantumSimulation),
      apply_one_qubit_gate g q sim = .ok sim' →
      sim'.rng = sim.rng ∧ sim'.rngPos = sim.rngPos) ∧
    (∀ (g : ℂ → ℂ → ℂ → ℂ → ℂ × ℂ × ℂ × ℂ) (q0 q1 : ℕ)
        (sim sim' : QuantumSimulation),
      apply_two_qubit_gate g q0 q1 sim = .ok sim' →
      sim'.rng = sim.rng ∧ sim'.rngPos = sim.rngPos) ∧
    (∀ (g : ℂ → ℂ → ℂ → ℂ → ℂ → ℂ → ℂ → ℂ → ℂ × ℂ × ℂ × ℂ × ℂ × ℂ × ℂ × ℂ)
        (q0 q1 q2 : ℕ) (sim sim' : QuantumSimulation),
      apply_three_qubit_gate g q0 q1 q2 sim = .ok sim' →
      sim'.rng = sim.rng ∧ sim'.rngPos = sim.rngPos) ∧
    (∀ {N : ℕ} (f : (Fin N → Bool) → Bool) (input_qubits : Fin N → ℕ)
        (answer_qubit : ℕ) (sim sim' : QuantumSimulation),
      apply_u_f f input_qubits answer_qubit sim = .ok sim' →
      sim'.rng = sim.rng ∧ sim'.rngPos = sim.rngPos) ∧
    (∀ sim : QuantumSimulation,
      (reset sim).rng = sim.rng ∧ (reset sim).rngPos = sim.rngPos) ∧
    (∀ sim : QuantumSimulation,
      (measure_all sim).2.rng = sim.rng ∧
      (measure_all sim).2.rngPos = sim.rngPos + 1) ∧
    (∀ (qs : List ℕ) (out : List Bool) (sim sim' : QuantumSimulation),
      measure qs sim = .ok (out, sim') →
      sim'.rng = sim.rng ∧ sim'.rngPos = sim.rngPos + 1) := by
  refine ⟨?_, ?_, ?_, ?_, ?_, ?_, ?_⟩
  · intro g q sim sim' h
    rw [apply_one_qubit_gate] at h
    by_cases hq : q < sim.qubit_count
    · rw [if_pos hq] at h
      cases h
      exact ⟨rfl, rfl⟩
    · rw [if_neg hq] at h
      cases h
  · intro g q0 q1 sim sim' h
    rw [apply_two_qubit_gate] at h
    by_cases hq : q0 < sim.qubit_count ∧ q1 < sim.qubit_count
    · rw [if_pos hq] at h
      cases h
      exact ⟨rfl, rfl⟩
    · rw [if_neg hq] at h
      cases h
  · intro g q0 q1 q2 sim sim' h
    rw [apply_three_qubit_gate] at h
    by_cases hq : q0 < sim.qubit_count ∧ q1 < sim.qubit_count ∧
        q2 < sim.qubit_count
    · rw [if_pos hq] at h
      cases h
      exact ⟨rfl, rfl⟩
    · rw [if_neg hq] at h
      cases h
  · intro N f iq aq sim sim' h
    rw [apply_u_f] at h
    by_cases hc : ∀ i0 ∈ List.range sim.amplitudes.length,
        i0 &&& (1 <<< aq) = 0 →
        f (fun j => decide (i0 &&& (1 <<< iq j) ≠ 0)) = true →
        i0 ||| (1 <<< aq) < sim.amplitudes.length
    · rw [if_pos hc] at h
      cases h
      exact ⟨rfl, rfl⟩
    · rw [if_neg hc] at h
      cases h
  · intro sim
    exact ⟨rfl, rfl⟩
  · intro sim
    exact ⟨rfl, rfl⟩
  · intro qs out sim sim' h
    rw [measure] at h
    by_cases hq : ∀ q ∈ qs, q < sim.qubit_count
    · rw [if_pos hq] at h
      cases h
      exact ⟨rfl, rfl⟩
    · rw [if_neg hq] at h
      cases h

/-- Claim C9, witness: a successful `pauli_x` call and a successful
`measure` call on a concrete one-qubit instance leave the stream unchanged;
the gate leaves the cursor at `0` and the measurement advances it to `1`. -/
theorem rng_frame_spec_witness :
    (({ qubit_count := 1,
        amplitudes := one_qubit_loop gate.pauli_x 0 [(1 : ℂ), 0],
        rng := fun _ => (1/2 : ℝ), rngPos := 0 } : QuantumSimulation).rng =
      (fun _ => (1/2 : ℝ)) ∧
     ({ qubit_count := 1,
        amplitudes := one_qubit_loop gate.pauli_x 0 [(1 : ℂ), 0],
        rng := fun _ => (1/2 : ℝ), rngPos := 0 } : QuantumSimulation).rngPos =
      0) ∧
    ((measure_all ⟨1, [(1 : ℂ), 0], fun _ => (1/2 : ℝ), 0⟩).2.rng =
      (fun _ => (1/2 : ℝ)) ∧
     (measure_all ⟨1, [(1 : ℂ), 0], fun _ => (1/2 : ℝ), 0⟩).2.rngPos = 0 + 1) :=
  ⟨rng_frame_spec.1 gate.pauli_x 0 ⟨1, [(1 : ℂ), 0], fun _ => (1/2 : ℝ), 0⟩ _
     (by rw [apply_one_qubit_gate, if_pos (by norm_num)]),
   rng_frame_spec.2.2.2.2.2.1 ⟨1, [(1 : ℂ), 0], fun _ => (1/2 : ℝ), 0⟩⟩

/-! ### Claim C5: `measure_all` collapses to the sampled basis vector -/

theorem foldl_mul_range (f : ℕ → ℂ) (n : ℕ) :
    ∀ x : ℂ, (List.range n).foldl (fun a j => a * f j) x =
      x * ∏ j ∈ Finset.range n, f j := by
  induction n with
  | zero => intro x; simp
  | succ n ih =>
    intro x
    rw [List.range_succ, List.foldl_append, List.foldl_cons, List.foldl_nil,
      ih x, Finset.prod_range_succ, mul_assoc]

theorem prod_indicator (P : ℕ → Prop) [DecidablePred P] (n : ℕ) :
    (∏ j ∈ Finset.range n, (if P j then (1 : ℂ) else 0)) =
      if ∀ j < n, P j then 1 else 0 := by
  by_cases h : ∀ j < n, P j
  · rw [if_pos h]
    apply Finset.prod_eq_one
    intro j hj
    rw [if_pos (h j (Finset.mem_range.mp hj))]
  · rw [if_neg h]
    push_neg at h
    obtain ⟨j, hj, hnp⟩ := h
    apply Finset.prod_eq_zero (Finset.mem_range.mpr hj)
    rw [if_neg hnp]

theorem bits_eq_iff {n i k : ℕ} (hi : i < 2 ^ n) (hk : k < 2 ^ n) :
    (∀ j < n, Nat.testBit i j = Nat.testBit k j) ↔ i = k := by
  constructor
  · intro h
    apply Nat.eq_of_testBit_eq
    intro j
    by_cases hj : j < n
    · exact h j hj
    · rw [Nat.testBit_lt_two_pow
        (lt_of_lt_of_le hi (Nat.pow_le_pow_right (by norm_num)
          (Nat.le_of_not_lt hj))),
        Nat.testBit_lt_two_pow
        (lt_of_lt_of_le hk (Nat.pow_le_pow_right (by norm_num)
          (Nat.le_of_not_lt hj)))]
  · intro h j _
    rw [h]

/-- The tensor product of the per-qubit basis states read off from the bits
of `k` is the unit basis vector at `k`. -/
theorem get_amplitudes_basis (n k : ℕ) (hk : k < 2 ^ n) :
    get_amplitudes ((List.range n).map
      ((fun b => if b then ONE_QUBIT else ZERO_QUBIT) ∘
        (fun q => decide (k &&& (1 <<< q) ≠ 0)))) = basis_vector n k := by
  classical
  set qubits : List Qubit := (List.range n).map
    ((fun b => if b then ONE_QUBIT else ZERO_QUBIT) ∘
      (fun q => decide (k &&& (1 <<< q) ≠ 0))) with hqubits
  have hql : qubits.length = n := by
    rw [hqubits, List.length_map, List.length_range]
  rw [get_amplitudes, basis_vector, hql]
  apply List.map_congr_left
  intro i hi
  have hilt : i < 2 ^ n := List.mem_range.mp hi
  have hstep : (fun (amplitude : ℂ) (j : ℕ) =>
      if i &&& (1 <<< j) ≠ 0 then amplitude * (qubits.getD j ((0:ℂ), (0:ℂ))).2
      else amplitude * (qubits.getD j ((0:ℂ), (0:ℂ))).1) =
      (fun (a : ℂ) (j : ℕ) => a *
        (if i &&& (1 <<< j) ≠ 0 then (qubits.getD j ((0:ℂ), (0:ℂ))).2
         else (qubits.getD j ((0:ℂ), (0:ℂ))).1)) := by
    funext a j
    split_ifs <;> rfl
  rw [hstep, foldl_mul_range, one_mul]
  have hfac : ∀ j < n,
      (if i &&& (1 <<< j) ≠ 0 then (qubits.getD j ((0:ℂ), (0:ℂ))).2
       else (qubits.getD j ((0:ℂ), (0:ℂ))).1) =
      if ((i &&& (1 <<< j) ≠ 0) ↔ (k &&& (1 <<< j) ≠ 0)) then (1:ℂ) else 0 := by
    intro j hj
    have hq : qubits.getD j ((0:ℂ), (0:ℂ)) =
        if decide (k &&& (1 <<< j) ≠ 0) then ONE_QUBIT else ZERO_QUBIT := by
      rw [hqubits, getD_map_range, if_pos hj]
      rfl
    rw [hq]
    by_cases hkb : k &&& (1 <<< j) ≠ 0 <;> by_cases hib : i &&& (1 <<< j) ≠ 0 <;>
      simp [hkb, hib, ONE_QUBIT, ZERO_QUBIT]
  calc (∏ j ∈ Finset.range n,
        (if i &&& (1 <<< j) ≠ 0 then (qubits.getD j ((0:ℂ), (0:ℂ))).2
         else (qubits.getD j ((0:ℂ), (0:ℂ))).1))
      = ∏ j ∈ Finset.range n,
        (if ((i &&& (1 <<< j) ≠ 0) ↔ (k &&& (1 <<< j) ≠ 0)) then (1:ℂ) else 0) := by
        apply Finset.prod_congr rfl
        intro j hj
        exact hfac j (Finset.mem_range.mp hj)
    _ = if ∀ j < n, ((i &&& (1 <<< j) ≠ 0) ↔ (k &&& (1 <<< j) ≠ 0))
        then 1 else 0 := prod_indicator _ n
    _ = if i = k then 1 else 0 := by
        congr 1
        simp only [eq_iff_iff]
        constructor
        · intro h
          rw [← bits_eq_iff hilt hk]
          intro j hj
          have := h j hj
          rw [and_pow_ne_zero_iff, and_pow_ne_zero_iff] at this
          cases hbi : Nat.testBit i j <;> cases hbk : Nat.testBit k j <;>
            simp [hbi, hbk] at this ⊢
        · intro h
          subst h
          intro j _
          rfl

/-- Claim C5: after `measure_all` samples basis index `i*`, the amplitude
vector is overwritten with the unit basis vector at `i*` (amplitude 1 at
`i*`, 0 elsewhere): the per-qubit tensor product built from the bits of `i*`
yields exactly that vector, discarding any previous phase. -/
theorem measure_all_collapse_spec (sim : QuantumSimulation)
    (hlen : sim.amplitudes.length = 2 ^ sim.qubit_count) :
    (measure_all sim).2.amplitudes =
      basis_vector sim.qubit_count (choose_state sim).1 ∧
    (measure_all sim).1 = (List.range sim.qubit_count).map
      (fun q => decide ((choose_state sim).1 &&& (1 <<< q) ≠ 0)) := by
  have hidx : (choose_state sim).1 < 2 ^ sim.qubit_count := by
    have hpos : 0 < (sim.amplitudes.map Complex.normSq).length := by
      rw [List.length_map, hlen]
      exact Nat.two_pow_pos _
    have := choose_index_lt (sim.amplitudes.map Complex.normSq)
      (sim.rng sim.rngPos) hpos
    rw [List.length_map, hlen] at this
    exact this
  constructor
  · show get_amplitudes _ = _
    rw [List.map_map]
    exact get_amplitudes_basis sim.qubit_count (choose_state sim).1 hidx
  · rfl

/-- Claim C5, witness: on a concrete one-qubit state `|1⟩` with draw `1/2`,
`measure_all` samples index `1` and leaves the state `[0, 1]`. -/
theorem measure_all_collapse_spec_witness :
    (measure_all ⟨1, [(0 : ℂ), ((1:ℝ) : ℂ)], fun _ => (1/2 : ℝ), 0⟩).2.amplitudes =
      basis_vector 1
        (choose_state ⟨1, [(0 : ℂ), ((1:ℝ) : ℂ)], fun _ => (1/2 : ℝ), 0⟩).1 :=
  (measure_all_collapse_spec ⟨1, [(0 : ℂ), ((1:ℝ) : ℂ)], fun _ => (1/2 : ℝ), 0⟩
    (by norm_num)).1

/-! ### Claim C6: oracle application on a definite basis input -/

theorem basis_vector_length (n k : ℕ) : (basis_vector n k).length = 2 ^ n := by
  rw [basis_vector]
  simp

theorem basis_vector_getD (n k p : ℕ) :
    (basis_vector n k).getD p 0 = if p < 2 ^ n ∧ p = k then 1 else 0 := by
  rw [basis_vector, getD_map_range]
  by_cases h1 : p < 2 ^ n
  · by_cases h2 : p = k <;> simp [h1, h2]
  · simp [h1]

theorem decide_and_pow (i q : ℕ) :
    decide (i &&& (1 <<< q) ≠ 0) = Nat.testBit i q := by
  cases h : Nat.testBit i q
  · apply decide_eq_false
    intro hc
    rw [and_pow_ne_zero_iff] at hc
    rw [h] at hc
    exact Bool.noConfusion hc
  · exact decide_eq_true ((and_pow_ne_zero_iff i q).mpr h)

theorem sum_map_range (f : ℕ → ℝ) (m : ℕ) :
    ((List.range m).map f).sum = ∑ i ∈ Finset.range m, f i := by
  induction m with
  | zero => simp
  | succ m ih =>
    rw [List.range_succ, List.map_append, List.sum_append,
      Finset.sum_range_succ, ih]
    simp

theorem indicator_take_sum (k n m : ℕ) :
    ((((List.range n).map
        (fun i => if i = k then (1 : ℝ) else 0))).take m).sum =
      if k < min m n then 1 else 0 := by
  rw [← List.map_take, List.take_range, sum_map_range,
    Finset.sum_ite_eq' (Finset.range (min m n)) k (fun _ => (1 : ℝ))]
  simp [Finset.mem_range]

theorem probs_basis (n k : ℕ) :
    (basis_vector n k).map Complex.normSq =
      (List.range (2 ^ n)).map (fun i => if i = k then (1 : ℝ) else 0) := by
  rw [basis_vector, List.map_map]
  apply List.map_congr_left
  intro i _
  by_cases h : i = k <;> simp [h]

/-- On the point distribution concentrated at index `k`, a draw in `(0, 1]`
selects exactly index `k` by inverse-CDF sampling. -/
theorem choose_index_indicator (n k : ℕ) (hk : k < 2 ^ n) (r : ℝ)
    (hr0 : 0 < r) (hr1 : r ≤ 1) :
    choose_index
      ((List.range (2 ^ n)).map (fun i => if i = k then (1 : ℝ) else 0)) r =
      k := by
  set probs := (List.range (2 ^ n)).map
    (fun i => if i = k then (1 : ℝ) else 0) with hprobs
  have hplen : probs.length = 2 ^ n := by
    rw [hprobs]
    simp
  have htake : ∀ m, ((probs.take m).sum) =
      if k < min m (2 ^ n) then 1 else 0 := by
    intro m
    rw [hprobs]
    exact indicator_take_sum k (2 ^ n) m
  have hbreak : ∃ j < probs.length, r ≤ ((probs.take (j + 1)).sum) := by
    refine ⟨k, by rw [hplen]; exact hk, ?_⟩
    rw [htake (k + 1), if_pos (by omega)]
    exact hr1
  obtain ⟨hlt, hge, hmin⟩ := choose_index_break probs r hbreak
  set m := choose_index probs r with hm
  rcases lt_trichotomy m k with h | h | h
  · exfalso
    rw [htake (m + 1), if_neg (by omega)] at hge
    exact absurd hge (not_le.mpr hr0)
  · exact h
  · exfalso
    have hlt1 := hmin k h
    rw [htake (k + 1), if_pos (by omega)] at hlt1
    exact absurd hlt1 (not_lt.mpr hr1)

/-- Pointwise description of the oracle's swap loop: for each basis index
with the answer bit clear and `f` true on its input bits, the loop exchanges
the amplitude with its answer-bit partner; every other amplitude is kept. -/
theorem u_f_loop_getD {N : ℕ} (f : (Fin N → Bool) → Bool)
    (inp : Fin N → ℕ) (ans : ℕ) (A : List ℂ) :
    (u_f_loop f inp ans A).length = A.length ∧
    ∀ p < A.length,
      (u_f_loop f inp ans A).getD p 0 =
        if Nat.testBit p ans = false then
          (if f (fun j => decide (p &&& (1 <<< inp j) ≠ 0))
           then A.getD (p + 2 ^ ans) 0 else A.getD p 0)
        else
          (if f (fun j => decide ((p - 2 ^ ans) &&& (1 <<< inp j) ≠ 0))
           then A.getD (p - 2 ^ ans) 0 else A.getD p 0) := by
  classical
  have hmask : (1 <<< ans) = 2 ^ ans := Nat.one_shiftLeft ans
  set step : List ℂ → ℕ → List ℂ := fun a i0 =>
    if i0 &&& (1 <<< ans) ≠ 0 then a
    else if ¬ f (fun j => decide (i0 &&& (1 <<< inp j) ≠ 0)) then a
    else (a.set i0 (a.getD (i0 ||| (1 <<< ans)) 0)).set (i0 ||| (1 <<< ans))
      (a.getD i0 0) with hstep
  have heq : u_f_loop f inp ans A = (List.range A.length).foldl step A := by
    rw [hstep]
    rfl
  set cells : ℕ → Finset ℕ := fun i0 =>
    if Nat.testBit i0 ans = false ∧
        f (fun j => decide (i0 &&& (1 <<< inp j) ≠ 0)) = true then
      {i0, i0 + 2 ^ ans}
    else ∅ with hcells
  have hstep_skip1 : ∀ (a : List ℂ) (i0 : ℕ), Nat.testBit i0 ans = true →
      step a i0 = a := by
    intro a i0 h
    rw [hstep]
    dsimp only
    rw [if_pos ((and_pow_ne_zero_iff i0 ans).mpr h)]
  have hstep_skip2 : ∀ (a : List ℂ) (i0 : ℕ), Nat.testBit i0 ans = false →
      f (fun j => decide (i0 &&& (1 <<< inp j) ≠ 0)) = false →
      step a i0 = a := by
    intro a i0 h hf
    rw [hstep]
    dsimp only
    rw [if_neg (fun hc => hc ((and_pow_eq_zero_iff i0 ans).mpr h)),
      if_pos (by rw [hf]; simp)]
  have hstep_act : ∀ (a : List ℂ) (i0 : ℕ), Nat.testBit i0 ans = false →
      f (fun j => decide (i0 &&& (1 <<< inp j) ≠ 0)) = true →
      step a i0 = (a.set i0 (a.getD (i0 + 2 ^ ans) 0)).set (i0 + 2 ^ ans)
        (a.getD i0 0) := by
    intro a i0 h hf
    rw [hstep]
    dsimp only
    rw [if_neg (fun hc => hc ((and_pow_eq_zero_iff i0 ans).mpr h)),
      if_neg (not_not_intro hf), hmask, or_pow_of_clear h]
  have Hlen : ∀ (a : List ℂ) (i0 : ℕ), (step a i0).length = a.length := by
    intro a i0
    rw [hstep]
    dsimp only
    split_ifs <;> simp
  have Hframe : ∀ (a : List ℂ) (i0 p : ℕ), p ∉ cells i0 →
      (step a i0).getD p 0 = a.getD p 0 := by
    intro a i0 p hp
    cases hb : Nat.testBit i0 ans with
    | true => rw [hstep_skip1 a i0 hb]
    | false =>
      cases hf : f (fun j => decide (i0 &&& (1 <<< inp j) ≠ 0)) with
      | false => rw [hstep_skip2 a i0 hb hf]
      | true =>
        have hp' : p ≠ i0 ∧ p ≠ i0 + 2 ^ ans := by
          rw [hcells] at hp
          dsimp only at hp
          rw [if_pos ⟨hb, hf⟩] at hp
          simp only [Finset.mem_insert, Finset.mem_singleton] at hp
          push_neg at hp
          exact hp
        rw [hstep_act a i0 hb hf, getD_set_cases, getD_set_cases,
          if_neg (fun hc => hp'.2 hc.1), if_neg (fun hc => hp'.1 hc.1)]
  have Hdisj : ∀ i j p, i ≠ j → p ∈ cells i → p ∉ cells j := by
    intro i j p hij hpi hpj
    rw [hcells] at hpi hpj
    dsimp only at hpi hpj
    by_cases hci : Nat.testBit i ans = false ∧
        f (fun j' => decide (i &&& (1 <<< inp j') ≠ 0)) = true
    swap
    · rw [if_neg hci] at hpi
      exact absurd hpi (Finset.not_mem_empty p)
    by_cases hcj : Nat.testBit j ans = false ∧
        f (fun j' => decide (j &&& (1 <<< inp j') ≠ 0)) = true
    swap
    · rw [if_neg hcj] at hpj
      exact absurd hpj (Finset.not_mem_empty p)
    rw [if_pos hci] at hpi
    rw [if_pos hcj] at hpj
    simp only [Finset.mem_insert, Finset.mem_singleton] at hpi hpj
    rcases hpi with h1 | h1 <;> rcases hpj with h2 | h2
    · exact hij (by omega)
    · have hbp : Nat.testBit p ans = true := by
        rw [h2]
        exact testBit_add_pow_self hcj.1
      rw [h1, hci.1] at hbp
      exact Bool.noConfusion hbp
    · have hbp : Nat.testBit p ans = true := by
        rw [h1]
        exact testBit_add_pow_self hci.1
      rw [h2, hcj.1] at hbp
      exact Bool.noConfusion hbp
    · exact hij (by omega)
  have Hdet : ∀ (a b : List ℂ) (i0 : ℕ), a.length = b.length →
      (∀ p ∈ cells i0, a.getD p 0 = b.getD p 0) →
      ∀ p ∈ cells i0, (step a i0).getD p 0 = (step b i0).getD p 0 := by
    intro a b i0 hab hag p hp
    by_cases hci : Nat.testBit i0 ans = false ∧
        f (fun j => decide (i0 &&& (1 <<< inp j) ≠ 0)) = true
    swap
    · rw [hcells] at hp
      dsimp only at hp
      rw [if_neg hci] at hp
      exact absurd hp (Finset.not_mem_empty p)
    have hmem : ∀ q ∈ ({i0, i0 + 2 ^ ans} : Finset ℕ),
        a.getD q 0 = b.getD q 0 := by
      intro q hq
      apply hag
      rw [hcells]
      dsimp only
      rw [if_pos hci]
      exact hq
    have h1 : a.getD i0 0 = b.getD i0 0 :=
      hmem i0 (Finset.mem_insert_self _ _)
    have h2 : a.getD (i0 + 2 ^ ans) 0 = b.getD (i0 + 2 ^ ans) 0 :=
      hmem _ (Finset.mem_insert_of_mem (Finset.mem_singleton_self _))
    rw [hstep_act a i0 hci.1 hci.2, hstep_act b i0 hci.1 hci.2,
      getD_set_cases, getD_set_cases, getD_set_cases, getD_set_cases]
    simp only [List.length_set, hab, h1, h2]
    split_ifs <;> first | rfl | exact hag p hp
  obtain ⟨hflen, hout, hin⟩ :=
    owner_foldl step cells Hlen Hframe Hdisj Hdet A A.length
  rw [← heq] at hflen hout hin
  refine ⟨hflen, ?_⟩
  intro p hp
  cases hb : Nat.testBit p ans with
  | true =>
    rw [if_neg (by simp [hb])]
    have hge : 2 ^ ans ≤ p := Nat.testBit_implies_ge hb
    set i0 := p - 2 ^ ans with hi0
    have hpd : p = i0 + 2 ^ ans := by omega
    have hbi0 : Nat.testBit i0 ans = false := by
      have h2 : Nat.testBit (2 ^ ans + i0) ans = !(Nat.testBit i0 ans) :=
        Nat.testBit_two_pow_add_eq i0 ans
      rw [show 2 ^ ans + i0 = p by omega, hb] at h2
      cases hx : Nat.testBit i0 ans
      · rfl
      · rw [hx] at h2
        exact Bool.noConfusion h2
    cases hf : f (fun j => decide (i0 &&& (1 <<< inp j) ≠ 0)) with
    | true =>
      have hmem : p ∈ cells i0 := by
        rw [hcells]
        dsimp only
        rw [if_pos ⟨hbi0, hf⟩]
        simp [hpd]
      have hi0lt : i0 < A.length := by
        rw [hi0]
        exact lt_of_le_of_lt (Nat.sub_le p (2 ^ ans)) hp
      rw [hin i0 p hi0lt hmem, hstep_act A i0 hbi0 hf, getD_set_cases,
        List.length_set, if_pos ⟨hpd, hp⟩, if_pos rfl]
    | false =>
      have hnone : ∀ j0 < A.length, p ∉ cells j0 := by
        intro j0 hj0 hpj
        rw [hcells] at hpj
        dsimp only at hpj
        by_cases hcj : Nat.testBit j0 ans = false ∧
            f (fun j' => decide (j0 &&& (1 <<< inp j') ≠ 0)) = true
        · rw [if_pos hcj] at hpj
          simp only [Finset.mem_insert, Finset.mem_singleton] at hpj
          rcases hpj with h1 | h1
          · subst h1
            rw [hb] at hcj
            exact Bool.noConfusion hcj.1
          · have hji : j0 = i0 := by omega
            rw [hji] at hcj
            rw [hcj.2] at hf
            exact Bool.noConfusion hf
        · rw [if_neg hcj] at hpj
          exact absurd hpj (Finset.not_mem_empty p)
      rw [hout p hnone, if_neg (by simp)]
  | false =>
    rw [if_pos rfl]
    cases hf : f (fun j => decide (p &&& (1 <<< inp j) ≠ 0)) with
    | true =>
      have hmem : p ∈ cells p := by
        rw [hcells]
        dsimp only
        rw [if_pos ⟨hb, hf⟩]
        simp
      have hpos : 0 < 2 ^ ans := Nat.two_pow_pos ans
      have hne : ¬ p = p + 2 ^ ans := by omega
      rw [hin p p hp hmem, hstep_act A p hb hf, getD_set_cases,
        getD_set_cases]
      simp [hne, hp, hf, List.length_set]
    | false =>
      have hnone : ∀ j0 < A.length, p ∉ cells j0 := by
        intro j0 hj0 hpj
        rw [hcells] at hpj
        dsimp only at hpj
        by_cases hcj : Nat.testBit j0 ans = false ∧
            f (fun j' => decide (j0 &&& (1 <<< inp j') ≠ 0)) = true
        · rw [if_pos hcj] at hpj
          simp only [Finset.mem_insert, Finset.mem_singleton] at hpj
          rcases hpj with h1 | h1
          · subst h1
            rw [hcj.2] at hf
            exact Bool.noConfusion hf
          · have hbp : Nat.testBit p ans = true := by
              rw [h1]
              exact testBit_add_pow_self hcj.1
            rw [hb] at hbp
            exact Bool.noConfusion hbp
        · rw [if_neg hcj] at hpj
          exact absurd hpj (Finset.not_mem_empty p)
      rw [hout p hnone, if_neg (by simp)]

/-- On a basis state whose answer bit is clear, the oracle loop produces the
basis state whose answer bit is XORed with `f` of the input bits. -/
theorem u_f_loop_basis {N : ℕ} (f : (Fin N → Bool) → Bool) (inp : Fin N → ℕ)
    (ans n k : ℕ) (hq : ans < n) (hk : k < 2 ^ n)
    (hkb : Nat.testBit k ans = false) :
    u_f_loop f inp ans (basis_vector n k) =
      basis_vector n
        (if f (fun j => decide (k &&& (1 <<< inp j) ≠ 0)) then k + 2 ^ ans
         else k) := by
  classical
  set k' := if f (fun j => decide (k &&& (1 <<< inp j) ≠ 0)) then k + 2 ^ ans
    else k with hkdef
  obtain ⟨hlen, hval⟩ := u_f_loop_getD f inp ans (basis_vector n k)
  apply list_ext_getD
  · rw [hlen, basis_vector_length, basis_vector_length]
  intro p hp
  have hp2 : p < 2 ^ n := by
    rw [hlen, basis_vector_length] at hp
    exact hp
  have hpB : p < (basis_vector n k).length := by
    rw [basis_vector_length]
    exact hp2
  rw [hval p hpB]
  cases hb : Nat.testBit p ans with
  | true =>
    rw [if_neg (by simp [hb])]
    have hge : 2 ^ ans ≤ p := Nat.testBit_implies_ge hb
    have hpnek : p ≠ k := by
      intro h
      rw [h, hkb] at hb
      exact Bool.noConfusion hb
    by_cases hpk : p - 2 ^ ans = k
    · rw [hpk, basis_vector_getD, basis_vector_getD, basis_vector_getD]
      by_cases hfx : f (fun j => decide (k &&& (1 <<< inp j) ≠ 0)) = true
      · have hpk' : p = k' := by
          rw [hkdef, if_pos hfx]
          omega
        rw [if_pos hfx, if_pos ⟨hk, rfl⟩, if_pos ⟨hp2, hpk'⟩]
      · rw [if_neg hfx, if_neg (fun hc => hpnek hc.2), hkdef, if_neg hfx,
          if_neg (fun hc => hpnek hc.2)]
    · have hpnek' : p ≠ k' := by
        rw [hkdef]
        by_cases hfx : f (fun j => decide (k &&& (1 <<< inp j) ≠ 0)) = true
        · rw [if_pos hfx]
          intro h
          exact hpk (by omega)
        · rw [if_neg hfx]
          exact hpnek
      rw [basis_vector_getD, basis_vector_getD, basis_vector_getD]
      by_cases hfp : f (fun j => decide ((p - 2 ^ ans) &&& (1 <<< inp j) ≠ 0)) =
          true
      · rw [if_pos hfp, if_neg (fun hc => hpk hc.2),
          if_neg (fun hc => hpnek' hc.2)]
      · rw [if_neg hfp, if_neg (fun hc => hpnek hc.2),
          if_neg (fun hc => hpnek' hc.2)]
  | false =>
    rw [if_pos rfl]
    have ht : Nat.testBit (p + 2 ^ ans) ans = true := testBit_add_pow_self hb
    have hppow : p + 2 ^ ans ≠ k := by
      intro h
      rw [h, hkb] at ht
      exact Bool.noConfusion ht
    rw [basis_vector_getD, basis_vector_getD, basis_vector_getD]
    by_cases hpk2 : p = k
    · subst hpk2
      by_cases hfx : f (fun j => decide (p &&& (1 <<< inp j) ≠ 0)) = true
      · have hpos : 0 < 2 ^ ans := Nat.two_pow_pos ans
        rw [if_pos hfx, if_neg (fun hc => hppow hc.2), hkdef, if_pos hfx,
          if_neg (fun hc => absurd hc.2 (by omega))]
      · rw [if_neg hfx, if_pos ⟨hp2, rfl⟩, hkdef, if_neg hfx,
          if_pos ⟨hp2, rfl⟩]
    · have hpnek' : p ≠ k' := by
        rw [hkdef]
        by_cases hfx : f (fun j => decide (k &&& (1 <<< inp j) ≠ 0)) = true
        · rw [if_pos hfx]
          intro h
          have ht2 : Nat.testBit (k + 2 ^ ans) ans = true :=
            testBit_add_pow_self hkb
          rw [← h, hb] at ht2
          exact Bool.noConfusion ht2
        · rw [if_neg hfx]
          exact hpk2
      by_cases hfp : f (fun j => decide (p &&& (1 <<< inp j) ≠ 0)) = true
      · rw [if_pos hfp, if_neg (fun hc => hppow hc.2),
          if_neg (fun hc => hpnek' hc.2)]
      · rw [if_neg hfp, if_neg (fun hc => hpk2 hc.2),
          if_neg (fun hc => hpnek' hc.2)]

/-- Claim C6, counterexample: one input qubit (qubit `0`, holding `1`),
answer qubit `1` holding `0`, and `f = identity`, so `f(x) = true`; the
oracle correctly moves the state to basis index `3`, but with a random draw
of exactly `0` (a value inside the documented draw range `[0,1)`) the
measurement of the answer qubit returns `false ≠ f(x)`: the selection loop
breaks at index `0` because `0 ≤ 0`, even though index `0` has probability
`0`.  The claimed certainty for every seed therefore fails. -/
theorem oracle_zero_draw_counterexample :
    ∃ sim2, apply_u_f (fun x : Fin 1 → Bool => x 0) (fun _ : Fin 1 => (0 : ℕ)) 1
        { qubit_count := 2, amplitudes := basis_vector 2 1,
          rng := fun _ => (0 : ℝ), rngPos := 0 } = .ok sim2 ∧
      (measure [1] sim2).map Prod.fst = .ok [false] ∧
      (fun x : Fin 1 → Bool => x 0)
        (fun _ : Fin 1 => decide ((1 : ℕ) &&& (1 <<< (0 : ℕ)) ≠ 0)) = true := by
  set sim : QuantumSimulation :=
    { qubit_count := 2, amplitudes := basis_vector 2 1,
      rng := fun _ => (0 : ℝ), rngPos := 0 } with hsim
  have hAlen : sim.amplitudes.length = 2 ^ 2 := basis_vector_length 2 1
  have hcond : ∀ i0 ∈ List.range sim.amplitudes.length,
      i0 &&& (1 <<< 1) = 0 →
      (fun x : Fin 1 → Bool => x 0)
        (fun j => decide (i0 &&& (1 <<< (fun _ : Fin 1 => (0 : ℕ)) j) ≠ 0)) =
        true →
      i0 ||| (1 <<< 1) < sim.amplitudes.length := by
    intro i0 hi0 hclear _
    rw [List.mem_range, hAlen] at hi0
    have hbit : Nat.testBit i0 1 = false := by
      by_contra hbx
      exact (and_pow_ne_zero_iff i0 1).mpr (by simpa using hbx) hclear
    rw [Nat.one_shiftLeft, or_pow_of_clear hbit, hAlen]
    exact add_pow_lt hi0 (by norm_num) hbit
  set sim2 : QuantumSimulation := { sim with
    amplitudes := u_f_loop (fun x : Fin 1 → Bool => x 0)
      (fun _ : Fin 1 => (0 : ℕ)) 1 sim.amplitudes } with hsim2
  have hloop : sim2.amplitudes = basis_vector 2 3 := by
    show u_f_loop (fun x : Fin 1 → Bool => x 0) (fun _ : Fin 1 => (0 : ℕ)) 1
      (basis_vector 2 1) = _
    rw [u_f_loop_basis (fun x : Fin 1 → Bool => x 0) (fun _ : Fin 1 => (0 : ℕ))
      1 2 1 (by norm_num) (by norm_num) (by decide), if_pos (by decide)]
    norm_num
  refine ⟨sim2, ?_, ?_, by decide⟩
  · simp only [apply_u_f, if_pos hcond]
  · have hguard : ∀ q ∈ [1], q < sim2.qubit_count := by
      intro q hq
      rw [List.mem_singleton] at hq
      subst hq
      show (1 : ℕ) < 2
      norm_num
    have hprobs : sim2.amplitudes.map Complex.normSq =
        [(0 : ℝ), 0, 0, 1] := by
      rw [hloop, probs_basis]
      norm_num [List.range_succ]
    have hcs : (choose_state sim2).1 = 0 := by
      show choose_index (sim2.amplitudes.map Complex.normSq)
        (sim2.rng sim2.rngPos) = 0
      rw [hprobs]
      show choose_index _ (0 : ℝ) = 0
      norm_num [choose_index, choose_loop]
    rw [measure, if_pos hguard]
    simp only [List.map_cons, List.map_nil, Except.map]
    rw [hcs]
    norm_num

/-- Claim C6 (amended): for a boolean function `f` and an oracle over
disjoint in-range input and answer qubits, if the state is the definite
basis value `k` with input qubits holding `x` (the bits of `k` at the input
positions) and the answer qubit holding `0`, then applying the oracle
succeeds and measuring the answer qubit yields exactly `f(x)` — provided the
random draw consumed by that measurement lies in `(0, 1]`.  (A draw of
exactly `0`, which the documented draw range `[0,1)` allows, can instead
select a zero-probability basis state and report `1 - f(x)`.) -/
theorem oracle_definite_input_spec {N : ℕ} (f : (Fin N → Bool) → Bool)
    (input_qubits : Fin N → ℕ) (answer_qubit n k : ℕ)
    (sim : QuantumSimulation)
    (hn : sim.qubit_count = n)
    (hamps : sim.amplitudes = basis_vector n k)
    (hinp : ∀ j, input_qubits j < n)
    (hans : answer_qubit < n)
    (hdisj : ∀ j, input_qubits j ≠ answer_qubit)
    (hk : k < 2 ^ n)
    (hkb : Nat.testBit k answer_qubit = false)
    (hr0 : 0 < sim.rng sim.rngPos) (hr1 : sim.rng sim.rngPos ≤ 1) :
    ∃ sim2, apply_u_f f input_qubits answer_qubit sim = .ok sim2 ∧
      (measure [answer_qubit] sim2).map Prod.fst =
        .ok [f (fun j => decide (k &&& (1 <<< input_qubits j) ≠ 0))] := by
  classical
  set k' := if f (fun j => decide (k &&& (1 <<< input_qubits j) ≠ 0)) then
    k + 2 ^ answer_qubit else k with hkdef
  have hk'lt : k' < 2 ^ n := by
    rw [hkdef]
    split_ifs
    · exact add_pow_lt hk hans hkb
    · exact hk
  have hAlen : sim.amplitudes.length = 2 ^ n := by
    rw [hamps, basis_vector_length]
  have hcond : ∀ i0 ∈ List.range sim.amplitudes.length,
      i0 &&& (1 <<< answer_qubit) = 0 →
      f (fun j => decide (i0 &&& (1 <<< input_qubits j) ≠ 0)) = true →
      i0 ||| (1 <<< answer_qubit) < sim.amplitudes.length := by
    intro i0 hi0 hclear _
    rw [List.mem_range, hAlen] at hi0
    have hbit : Nat.testBit i0 answer_qubit = false := by
      by_contra hbx
      exact (and_pow_ne_zero_iff i0 answer_qubit).mpr (by simpa using hbx)
        hclear
    rw [Nat.one_shiftLeft, or_pow_of_clear hbit, hAlen]
    exact add_pow_lt hi0 hans hbit
  set sim2 : QuantumSimulation := { sim with
    amplitudes := u_f_loop f input_qubits answer_qubit sim.amplitudes }
    with hsim2
  have hamp2 : sim2.amplitudes = basis_vector n k' := by
    show u_f_loop f input_qubits answer_qubit sim.amplitudes = _
    rw [hamps, u_f_loop_basis f input_qubits answer_qubit n k hans hk hkb,
      ← hkdef]
  refine ⟨sim2, ?_, ?_⟩
  · simp only [apply_u_f, if_pos hcond]
  · have hguard : ∀ q ∈ [answer_qubit], q < sim2.qubit_count := by
      intro q hq
      rw [List.mem_singleton] at hq
      rw [hq]
      show answer_qubit < sim.qubit_count
      rw [hn]
      exact hans
    have hcs : (choose_state sim2).1 = k' := by
      show choose_index (sim2.amplitudes.map Complex.normSq)
        (sim2.rng sim2.rngPos) = k'
      rw [hamp2, probs_basis]
      show choose_index _ (sim.rng sim.rngPos) = k'
      exact choose_index_indicator n k' hk'lt (sim.rng sim.rngPos) hr0 hr1
    have hbit' : Nat.testBit k' answer_qubit =
        f (fun j => decide (k &&& (1 <<< input_qubits j) ≠ 0)) := by
      rw [hkdef]
      cases hfx : f (fun j => decide (k &&& (1 <<< input_qubits j) ≠ 0))
      · rw [if_neg (by simp)]
        exact hkb
      · rw [if_pos rfl]
        exact testBit_add_pow_self hkb
    rw [measure, if_pos hguard]
    simp only [List.map_cons, List.map_nil, Except.map]
    rw [hcs, decide_and_pow, hbit']

/-- Claim C6, witness: one input qubit `0` holding `1`, answer qubit `1`
holding `0`, `f = identity`, and a draw of `1/2`; the measured answer is
exactly `f(x) = true`. -/
theorem oracle_definite_input_spec_witness :
    ∃ sim2, apply_u_f (fun x : Fin 1 → Bool => x 0) (fun _ : Fin 1 => (0 : ℕ)) 1
        { qubit_count := 2, amplitudes := basis_vector 2 1,
          rng := fun _ => (1/2 : ℝ), rngPos := 0 } = .ok sim2 ∧
      (measure [1] sim2).map Prod.fst =
        .ok [(fun x : Fin 1 → Bool => x 0)
          (fun j => decide ((1 : ℕ) &&&
            (1 <<< (fun _ : Fin 1 => (0 : ℕ)) j) ≠ 0))] :=
  oracle_definite_input_spec (fun x : Fin 1 → Bool => x 0)
    (fun _ : Fin 1 => (0 : ℕ)) 1 2 1
    { qubit_count := 2, amplitudes := basis_vector 2 1,
      rng := fun _ => (1/2 : ℝ), rngPos := 0 }
    rfl rfl (fun _ => by show (0 : ℕ) < 2; norm_num) (by norm_num)
    (fun _ => by show (0 : ℕ) ≠ 1; norm_num) (by norm_num) (by decide)
    (by show (0 : ℝ) < 1/2; norm_num) (by show (1/2 : ℝ) ≤ 1; norm_num)

/-! ### Claim C1: normalization of every reachable state.  First, basic
facts: the ground state is the basis vector at index `0` and every basis
vector is normalized, and each fallible public call is dissected into its
guard and its result. -/

theorem norm_total_basis (n k : ℕ) (hk : k < 2 ^ n) :
    norm_total (basis_vector n k) = 1 := by
  rw [norm_total, probs_basis, sum_map_range,
    Finset.sum_ite_eq' (Finset.range (2 ^ n)) k (fun _ => (1 : ℝ)),
    if_pos (Finset.mem_range.mpr hk)]

theorem ground_state_eq_basis (n : ℕ) :
    get_ground_state_amplitudes n = basis_vector n 0 := rfl

theorem apply_one_qubit_gate_ok {g : ℂ → ℂ → ℂ × ℂ} {q : ℕ}
    {sim sim' : QuantumSimulation}
    (hok : apply_one_qubit_gate g q sim = .ok sim') :
    q < sim.qubit_count ∧
    sim' = { sim with amplitudes := one_qubit_loop g q sim.amplitudes } := by
  rw [apply_one_qubit_gate] at hok
  by_cases h : q < sim.qubit_count
  · rw [if_pos h] at hok
    cases hok
    exact ⟨h, rfl⟩
  · rw [if_neg h] at hok
    cases hok

theorem apply_two_qubit_gate_ok {g : ℂ → ℂ → ℂ → ℂ → ℂ × ℂ × ℂ × ℂ}
    {q0 q1 : ℕ} {sim sim' : QuantumSimulation}
    (hok : apply_two_qubit_gate g q0 q1 sim = .ok sim') :
    (q0 < sim.qubit_count ∧ q1 < sim.qubit_count) ∧
    sim' = { sim with
      amplitudes := two_qubit_loop g q0 q1 sim.amplitudes } := by
  rw [apply_two_qubit_gate] at hok
  by_cases h : q0 < sim.qubit_count ∧ q1 < sim.qubit_count
  · rw [if_pos h] at hok
    cases hok
    exact ⟨h, rfl⟩
  · rw [if_neg h] at hok
    cases hok

theorem apply_three_qubit_gate_ok
    {g : ℂ → ℂ → ℂ → ℂ → ℂ → ℂ → ℂ → ℂ → ℂ × ℂ × ℂ × ℂ × ℂ × ℂ × ℂ × ℂ}
    {q0 q1 q2 : ℕ} {sim sim' : QuantumSimulation}
    (hok : apply_three_qubit_gate g q0 q1 q2 sim = .ok sim') :
    (q0 < sim.qubit_count ∧ q1 < sim.qubit_count ∧ q2 < sim.qubit_count) ∧
    sim' = { sim with
      amplitudes := three_qubit_loop g q0 q1 q2 sim.amplitudes } := by
  rw [apply_three_qubit_gate] at hok
  by_cases h : q0 < sim.qubit_count ∧ q1 < sim.qubit_count ∧
      q2 < sim.qubit_count
  · rw [if_pos h] at hok
    cases hok
    exact ⟨h, rfl⟩
  · rw [if_neg h] at hok
    cases hok

theorem apply_u_f_ok {N : ℕ} {f : (Fin N → Bool) → Bool}
    {input_qubits : Fin N → ℕ} {answer_qubit : ℕ}
    {sim sim' : QuantumSimulation}
    (hok : apply_u_f f input_qubits answer_qubit sim = .ok sim') :
    (∀ i0 ∈ List.range sim.amplitudes.length,
      i0 &&& (1 <<< answer_qubit) = 0 →
      f (fun j => decide (i0 &&& (1 <<< input_qubits j) ≠ 0)) = true →
      i0 ||| (1 <<< answer_qubit) < sim.amplitudes.length) ∧
    sim' = { sim with
      amplitudes := u_f_loop f input_qubits answer_qubit sim.amplitudes } := by
  rw [apply_u_f] at hok
  by_cases h : ∀ i0 ∈ List.range sim.amplitudes.length,
      i0 &&& (1 <<< answer_qubit) = 0 →
      f (fun j => decide (i0 &&& (1 <<< input_qubits j) ≠ 0)) = true →
      i0 ||| (1 <<< answer_qubit) < sim.amplitudes.length
  · rw [if_pos h] at hok
    cases hok
    exact ⟨h, rfl⟩
  · rw [if_neg h] at hok
    cases hok

theorem measure_ok {qs : List ℕ} {sim : QuantumSimulation} {out : List Bool}
    {sim' : QuantumSimulation} (hok : measure qs sim = .ok (out, sim')) :
    (∀ q ∈ qs, q < sim.qubit_count) ∧
    out = qs.map
      (fun q => decide ((choose_state sim).1 &&& (1 <<< q) ≠ 0)) ∧
    sim' = { sim with
      amplitudes := measure_bump_loop
        (Real.sqrt ((1 : ℝ) / (measure_zero_loop qs
          (qs.map (fun q => decide ((choose_state sim).1 &&& (1 <<< q) ≠ 0)))
          sim.amplitudes).2.1))
        ((measure_zero_loop qs
          (qs.map (fun q => decide ((choose_state sim).1 &&& (1 <<< q) ≠ 0)))
          sim.amplitudes).2.2)
        ((measure_zero_loop qs
          (qs.map (fun q => decide ((choose_state sim).1 &&& (1 <<< q) ≠ 0)))
          sim.amplitudes).1),
      rngPos := sim.rngPos + 1 } := by
  rw [measure] at hok
  by_cases h : ∀ q ∈ qs, q < sim.qubit_count
  · rw [if_pos h] at hok
    cases hok
    exact ⟨h, rfl, rfl⟩
  · rw [if_neg h] at hok
    cases hok

/-! ### Duplicate-index multi-qubit gate calls collapse to smaller loops.
The asserts do not reject repeated target indices, so these cases arise for
reachable states; in each one the repeated reads and the sequential writes
to coinciding cells collapse the loop body into a lower-arity loop body. -/

theorem two_qubit_loop_diag (g : ℂ → ℂ → ℂ → ℂ → ℂ × ℂ × ℂ × ℂ) (q : ℕ)
    (A : List ℂ) :
    two_qubit_loop g q q A =
      one_qubit_loop (fun a b => ((g a b b b).1, (g a b b b).2.2.2)) q A := by
  rw [two_qubit_loop, one_qubit_loop]
  apply List.foldl_ext
  intro a i _
  simp only [Nat.or_self]
  by_cases h : i &&& (1 <<< q) ≠ 0
  · rw [if_pos h, if_pos h]
  · rw [if_neg h, if_neg h, if_neg h, List.set_set, List.set_set]

theorem three_qubit_loop_diag01
    (g : ℂ → ℂ → ℂ → ℂ → ℂ → ℂ → ℂ → ℂ → ℂ × ℂ × ℂ × ℂ × ℂ × ℂ × ℂ × ℂ)
    (q t : ℕ) (A : List ℂ) :
    three_qubit_loop g q q t A =
      two_qubit_loop (fun a b c d =>
        ((g a b b b c d d d).1, (g a b b b c d d d).2.2.2.1,
         (g a b b b c d d d).2.2.2.2.1, (g a b b b c d d d).2.2.2.2.2.2.2))
        q t A := by
  rw [three_qubit_loop, two_qubit_loop]
  apply List.foldl_ext
  intro a i _
  simp only [Nat.or_self]
  by_cases h0 : i &&& (1 <<< q) ≠ 0
  · rw [if_pos h0, if_pos h0]
  · by_cases h2 : i &&& (1 <<< t) ≠ 0
    · rw [if_neg h0, if_neg h0, if_pos h2, if_neg h0, if_pos h2]
    · rw [if_neg h0, if_neg h0, if_neg h2, if_neg h0, if_neg h2,
        List.set_set, List.set_set, List.set_set, List.set_set]

theorem three_qubit_loop_diag02
    (g : ℂ → ℂ → ℂ → ℂ → ℂ → ℂ → ℂ → ℂ → ℂ × ℂ × ℂ × ℂ × ℂ × ℂ × ℂ × ℂ)
    (q u : ℕ) (hne : q ≠ u) (A : List ℂ) :
    three_qubit_loop g q u q A =
      two_qubit_loop (fun a b c d =>
        ((g a b c d b b d d).1, (g a b c d b b d d).2.2.2.2.2.1,
         (g a b c d b b d d).2.2.1, (g a b c d b b d d).2.2.2.2.2.2.2))
        q u A := by
  have hqu : (1 <<< q) ≠ (1 <<< u) := by
    rw [Nat.one_shiftLeft, Nat.one_shiftLeft]
    intro hc
    exact hne (Nat.pow_right_injective (by norm_num) hc)
  have hqupos : 0 < (1 <<< u) := by
    rw [Nat.one_shiftLeft]
    exact Nat.two_pow_pos u
  have hor : (1 <<< q) ||| (1 <<< u) = (1 <<< q) + (1 <<< u) := by
    rw [Nat.one_shiftLeft, Nat.one_shiftLeft]
    exact pow_or_pow_of_ne (fun hc => hne hc)
  have h110 : (1 <<< u) ||| (1 <<< q) = (1 <<< q) ||| (1 <<< u) :=
    Nat.or_comm _ _
  have h111 : ((1 <<< q) ||| (1 <<< u)) ||| (1 <<< q) =
      (1 <<< q) ||| (1 <<< u) := by
    rw [Nat.or_assoc, Nat.or_comm (1 <<< u) (1 <<< q), ← Nat.or_assoc,
      Nat.or_self]
  rw [three_qubit_loop, two_qubit_loop]
  apply List.foldl_ext
  intro a i _
  simp only [Nat.or_self, h110, h111]
  by_cases h0 : i &&& (1 <<< q) ≠ 0
  · rw [if_pos h0, if_pos h0]
  · by_cases h1 : i &&& (1 <<< u) ≠ 0
    · rw [if_neg h0, if_pos h1, if_neg h0, if_pos h1]
    · have h31 : i + ((1 <<< q) ||| (1 <<< u)) ≠ i + (1 <<< q) := by
        rw [hor]
        omega
      have h21 : i + (1 <<< u) ≠ i + (1 <<< q) := by
        intro hc
        exact hqu (Nat.add_left_cancel hc).symm
      rw [if_neg h0, if_neg h1, if_neg h0, if_neg h0, if_neg h1,
        List.set_set, List.set_set, List.set_comm _ _ _ h31, List.set_set,
        List.set_comm _ _ _ h21, List.set_set]

theorem three_qubit_loop_diag12
    (g : ℂ → ℂ → ℂ → ℂ → ℂ → ℂ → ℂ → ℂ → ℂ × ℂ × ℂ × ℂ × ℂ × ℂ × ℂ × ℂ)
    (q u : ℕ) (hne : q ≠ u) (A : List ℂ) :
    three_qubit_loop g q u u A =
      two_qubit_loop (fun a b c d =>
        ((g a b c d c d c d).1, (g a b c d c d c d).2.1,
         (g a b c d c d c d).2.2.2.2.2.2.1,
         (g a b c d c d c d).2.2.2.2.2.2.2))
        q u A := by
  have hqpos : 0 < (1 <<< q) := by
    rw [Nat.one_shiftLeft]
    exact Nat.two_pow_pos q
  have hor : (1 <<< q) ||| (1 <<< u) = (1 <<< q) + (1 <<< u) := by
    rw [Nat.one_shiftLeft, Nat.one_shiftLeft]
    exact pow_or_pow_of_ne (fun hc => hne hc)
  have h111 : ((1 <<< q) ||| (1 <<< u)) ||| (1 <<< u) =
      (1 <<< q) ||| (1 <<< u) := by
    rw [Nat.or_assoc, Nat.or_self]
  rw [three_qubit_loop, two_qubit_loop]
  apply List.foldl_ext
  intro a i _
  simp only [Nat.or_self, h111]
  by_cases h0 : i &&& (1 <<< q) ≠ 0
  · rw [if_pos h0, if_pos h0]
  · by_cases h1 : i &&& (1 <<< u) ≠ 0
    · rw [if_neg h0, if_pos h1, if_neg h0, if_pos h1]
    · have h32 : i + ((1 <<< q) ||| (1 <<< u)) ≠ i + (1 <<< u) := by
        rw [hor]
        omega
      rw [if_neg h0, if_neg h1, if_neg h1, if_neg h0, if_neg h1,
        List.set_comm _ _ _ h32, List.set_set, List.set_set,
        List.set_comm _ _ _ h32, List.set_set, List.set_set]

/-- Bit signatures of the eight cells addressed by an active three-qubit
loop iteration: adding any subset of the three distinct masks sets exactly
the corresponding bits. -/
theorem sig3 {q0 q1 q2 : ℕ} (h01 : q0 ≠ q1) (h02 : q0 ≠ q2) (h12 : q1 ≠ q2)
    {i : ℕ} (hb0 : Nat.testBit i q0 = false) (hb1 : Nat.testBit i q1 = false)
    (hb2 : Nat.testBit i q2 = false) :
    (Nat.testBit (i + 2 ^ q0) q0 = true ∧
     Nat.testBit (i + 2 ^ q0) q1 = false ∧
     Nat.testBit (i + 2 ^ q0) q2 = false) ∧
    (Nat.testBit (i + 2 ^ q1) q0 = false ∧
     Nat.testBit (i + 2 ^ q1) q1 = true ∧
     Nat.testBit (i + 2 ^ q1) q2 = false) ∧
    (Nat.testBit (i + 2 ^ q0 + 2 ^ q1) q0 = true ∧
     Nat.testBit (i + 2 ^ q0 + 2 ^ q1) q1 = true ∧
     Nat.testBit (i + 2 ^ q0 + 2 ^ q1) q2 = false) ∧
    (Nat.testBit (i + 2 ^ q2) q0 = false ∧
     Nat.testBit (i + 2 ^ q2) q1 = false ∧
     Nat.testBit (i + 2 ^ q2) q2 = true) ∧
    (Nat.testBit (i + 2 ^ q0 + 2 ^ q2) q0 = true ∧
     Nat.testBit (i + 2 ^ q0 + 2 ^ q2) q1 = false ∧
     Nat.testBit (i + 2 ^ q0 + 2 ^ q2) q2 = true) ∧
    (Nat.testBit (i + 2 ^ q1 + 2 ^ q2) q0 = false ∧
     Nat.testBit (i + 2 ^ q1 + 2 ^ q2) q1 = true ∧
     Nat.testBit (i + 2 ^ q1 + 2 ^ q2) q2 = true) ∧
    (Nat.testBit (i + 2 ^ q0 + 2 ^ q1 + 2 ^ q2) q0 = true ∧
     Nat.testBit (i + 2 ^ q0 + 2 ^ q1 + 2 ^ q2) q1 = true ∧
     Nat.testBit (i + 2 ^ q0 + 2 ^ q1 + 2 ^ q2) q2 = true) := by
  have s10 : Nat.testBit (i + 2 ^ q0) q0 = true := testBit_add_pow_self hb0
  have s11 : Nat.testBit (i + 2 ^ q0) q1 = false := by
    rw [testBit_add_pow_ne hb0 (Ne.symm h01)]
    exact hb1
  have s12 : Nat.testBit (i + 2 ^ q0) q2 = false := by
    rw [testBit_add_pow_ne hb0 (Ne.symm h02)]
    exact hb2
  have s20 : Nat.testBit (i + 2 ^ q1) q0 = false := by
    rw [testBit_add_pow_ne hb1 h01]
    exact hb0
  have s21 : Nat.testBit (i + 2 ^ q1) q1 = true := testBit_add_pow_self hb1
  have s22 : Nat.testBit (i + 2 ^ q1) q2 = false := by
    rw [testBit_add_pow_ne hb1 (Ne.symm h12)]
    exact hb2
  have s30 : Nat.testBit (i + 2 ^ q0 + 2 ^ q1) q0 = true := by
    rw [testBit_add_pow_ne s11 h01]
    exact s10
  have s31 : Nat.testBit (i + 2 ^ q0 + 2 ^ q1) q1 = true :=
    testBit_add_pow_self s11
  have s32 : Nat.testBit (i + 2 ^ q0 + 2 ^ q1) q2 = false := by
    rw [testBit_add_pow_ne s11 (Ne.symm h12)]
    exact s12
  have s40 : Nat.testBit (i + 2 ^ q2) q0 = false := by
    rw [testBit_add_pow_ne hb2 h02]
    exact hb0
  have s41 : Nat.testBit (i + 2 ^ q2) q1 = false := by
    rw [testBit_add_pow_ne hb2 h12]
    exact hb1
  have s42 : Nat.testBit (i + 2 ^ q2) q2 = true := testBit_add_pow_self hb2
  have s50 : Nat.testBit (i + 2 ^ q0 + 2 ^ q2) q0 = true := by
    rw [testBit_add_pow_ne s12 h02]
    exact s10
  have s51 : Nat.testBit (i + 2 ^ q0 + 2 ^ q2) q1 = false := by
    rw [testBit_add_pow_ne s12 h12]
    exact s11
  have s52 : Nat.testBit (i + 2 ^ q0 + 2 ^ q2) q2 = true :=
    testBit_add_pow_self s12
  have s60 : Nat.testBit (i + 2 ^ q1 + 2 ^ q2) q0 = false := by
    rw [testBit_add_pow_ne s22 h02]
    exact s20
  have s61 : Nat.testBit (i + 2 ^ q1 + 2 ^ q2) q1 = true := by
    rw [testBit_add_pow_ne s22 h12]
    exact s21
  have s62 : Nat.testBit (i + 2 ^ q1 + 2 ^ q2) q2 = true :=
    testBit_add_pow_self s22
  have s70 : Nat.testBit (i + 2 ^ q0 + 2 ^ q1 + 2 ^ q2) q0 = true := by
    rw [testBit_add_pow_ne s32 h02]
    exact s30
  have s71 : Nat.testBit (i + 2 ^ q0 + 2 ^ q1 + 2 ^ q2) q1 = true := by
    rw [testBit_add_pow_ne s32 h12]
    exact s31
  have s72 : Nat.testBit (i + 2 ^ q0 + 2 ^ q1 + 2 ^ q2) q2 = true :=
    testBit_add_pow_self s32
  exact ⟨⟨s10, s11, s12⟩, ⟨s20, s21, s22⟩, ⟨s30, s31, s32⟩, ⟨s40, s41, s42⟩,
    ⟨s50, s51, s52⟩, ⟨s60, s61, s62⟩, ⟨s70, s71, s72⟩⟩

set_option maxHeartbeats 3000000 in
/-- Norm and length preservation of `apply_three_qubit_gate`'s loop with
pairwise distinct in-range targets, for any gate function whose eight-tuple
preserves the sum of squared magnitudes. -/
theorem three_qubit_loop_norm
    (g : ℂ → ℂ → ℂ → ℂ → ℂ → ℂ → ℂ → ℂ → ℂ × ℂ × ℂ × ℂ × ℂ × ℂ × ℂ × ℂ)
    (hg : ∀ x0 x1 x2 x3 x4 x5 x6 x7,
      Complex.normSq (g x0 x1 x2 x3 x4 x5 x6 x7).1 +
      Complex.normSq (g x0 x1 x2 x3 x4 x5 x6 x7).2.1 +
      Complex.normSq (g x0 x1 x2 x3 x4 x5 x6 x7).2.2.1 +
      Complex.normSq (g x0 x1 x2 x3 x4 x5 x6 x7).2.2.2.1 +
      Complex.normSq (g x0 x1 x2 x3 x4 x5 x6 x7).2.2.2.2.1 +
      Complex.normSq (g x0 x1 x2 x3 x4 x5 x6 x7).2.2.2.2.2.1 +
      Complex.normSq (g x0 x1 x2 x3 x4 x5 x6 x7).2.2.2.2.2.2.1 +
      Complex.normSq (g x0 x1 x2 x3 x4 x5 x6 x7).2.2.2.2.2.2.2 =
      Complex.normSq x0 + Complex.normSq x1 + Complex.normSq x2 +
      Complex.normSq x3 + Complex.normSq x4 + Complex.normSq x5 +
      Complex.normSq x6 + Complex.normSq x7)
    (n q0 q1 q2 : ℕ) (h01 : q0 ≠ q1) (h02 : q0 ≠ q2) (h12 : q1 ≠ q2)
    (hq0 : q0 < n) (hq1 : q1 < n) (hq2 : q2 < n)
    (A : List ℂ) (hlen : A.length = 2 ^ n) :
    (three_qubit_loop g q0 q1 q2 A).length = A.length ∧
    norm_total (three_qubit_loop g q0 q1 q2 A) = norm_total A := by
  classical
  have hp0 : 0 < (2 : ℕ) ^ q0 := Nat.two_pow_pos q0
  have hp1 : 0 < (2 : ℕ) ^ q1 := Nat.two_pow_pos q1
  have hp2 : 0 < (2 : ℕ) ^ q2 := Nat.two_pow_pos q2
  have hmm01 : (2 : ℕ) ^ q0 ≠ 2 ^ q1 := fun hc =>
    h01 (Nat.pow_right_injective (by norm_num) hc)
  have hmm02 : (2 : ℕ) ^ q0 ≠ 2 ^ q2 := fun hc =>
    h02 (Nat.pow_right_injective (by norm_num) hc)
  have hmm12 : (2 : ℕ) ^ q1 ≠ 2 ^ q2 := fun hc =>
    h12 (Nat.pow_right_injective (by norm_num) hc)
  have hc01at2 : Nat.testBit (2 ^ q0 + 2 ^ q1) q2 = false := by
    rw [testBit_add_pow_ne (Nat.testBit_two_pow_of_ne h01) (Ne.symm h12)]
    exact Nat.testBit_two_pow_of_ne h02
  have hd201 : (2 : ℕ) ^ q2 ≠ 2 ^ q0 + 2 ^ q1 := by
    intro hc
    rw [← hc, Nat.testBit_two_pow_self] at hc01at2
    exact Bool.noConfusion hc01at2
  have hd102 : (2 : ℕ) ^ q1 ≠ 2 ^ q0 + 2 ^ q2 := by
    intro hc
    have h1 : Nat.testBit (2 ^ q0 + 2 ^ q2) q1 = false := by
      rw [testBit_add_pow_ne (Nat.testBit_two_pow_of_ne h02) h12]
      exact Nat.testBit_two_pow_of_ne h01
    rw [← hc, Nat.testBit_two_pow_self] at h1
    exact Bool.noConfusion h1
  have hd012 : (2 : ℕ) ^ q0 ≠ 2 ^ q1 + 2 ^ q2 := by
    intro hc
    have h1 : Nat.testBit (2 ^ q1 + 2 ^ q2) q0 = false := by
      rw [testBit_add_pow_ne (Nat.testBit_two_pow_of_ne h12) h02]
      exact Nat.testBit_two_pow_of_ne (Ne.symm h01)
    rw [← hc, Nat.testBit_two_pow_self] at h1
    exact Bool.noConfusion h1
  have hsh0 : (1 <<< q0) = 2 ^ q0 := Nat.one_shiftLeft q0
  have hsh1 : (1 <<< q1) = 2 ^ q1 := Nat.one_shiftLeft q1
  have hsh2 : (1 <<< q2) = 2 ^ q2 := Nat.one_shiftLeft q2
  have hor01 : (1 <<< q0) ||| (1 <<< q1) = 2 ^ q0 + 2 ^ q1 := by
    rw [hsh0, hsh1]
    exact pow_or_pow_of_ne h01
  have hor02 : (1 <<< q0) ||| (1 <<< q2) = 2 ^ q0 + 2 ^ q2 := by
    rw [hsh0, hsh2]
    exact pow_or_pow_of_ne h02
  have hor12 : (1 <<< q1) ||| (1 <<< q2) = 2 ^ q1 + 2 ^ q2 := by
    rw [hsh1, hsh2]
    exact pow_or_pow_of_ne h12
  have hor012 : ((1 <<< q0) ||| (1 <<< q1)) ||| (1 <<< q2) =
      2 ^ q0 + 2 ^ q1 + 2 ^ q2 := by
    rw [hor01, hsh2]
    exact or_pow_of_clear hc01at2
  set step : List ℂ → ℕ → List ℂ := fun a i000 =>
    let mask001 := 1 <<< q0
    let mask010 := 1 <<< q1
    let mask011 := mask001 ||| mask010
    let mask100 := 1 <<< q2
    let mask101 := mask001 ||| mask100
    let mask110 := mask010 ||| mask100
    let mask111 := mask011 ||| mask100
    if i000 &&& mask001 ≠ 0 then a
    else if i000 &&& mask010 ≠ 0 then a
    else if i000 &&& mask100 ≠ 0 then a
    else
      let i001 := i000 + mask001
      let i010 := i000 + mask010
      let i011 := i000 + mask011
      let i100 := i000 + mask100
      let i101 := i000 + mask101
      let i110 := i000 + mask110
      let i111 := i000 + mask111
      let p := g (a.getD i000 0) (a.getD i001 0) (a.getD i010 0) (a.getD i011 0)
                 (a.getD i100 0) (a.getD i101 0) (a.getD i110 0) (a.getD i111 0)
      ((((((((a.set i000 p.1).set i001 p.2.1).set i010 p.2.2.1).set
          i011 p.2.2.2.1).set i100 p.2.2.2.2.1).set i101 p.2.2.2.2.2.1).set
          i110 p.2.2.2.2.2.2.1).set i111 p.2.2.2.2.2.2.2)
    with hstep
  have heq : three_qubit_loop g q0 q1 q2 A = (List.range A.length).foldl step A :=
    rfl
  set stepA : List ℂ → ℕ → List ℂ := fun a i =>
    let t := g (a.getD i 0) (a.getD (i + 2 ^ q0) 0) (a.getD (i + 2 ^ q1) 0)
      (a.getD (i + 2 ^ q0 + 2 ^ q1) 0) (a.getD (i + 2 ^ q2) 0)
      (a.getD (i + 2 ^ q0 + 2 ^ q2) 0) (a.getD (i + 2 ^ q1 + 2 ^ q2) 0)
      (a.getD (i + 2 ^ q0 + 2 ^ q1 + 2 ^ q2) 0)
    ((((((((a.set i t.1).set (i + 2 ^ q0) t.2.1).set (i + 2 ^ q1) t.2.2.1).set
        (i + 2 ^ q0 + 2 ^ q1) t.2.2.2.1).set (i + 2 ^ q2) t.2.2.2.2.1).set
        (i + 2 ^ q0 + 2 ^ q2) t.2.2.2.2.2.1).set
        (i + 2 ^ q1 + 2 ^ q2) t.2.2.2.2.2.2.1).set
        (i + 2 ^ q0 + 2 ^ q1 + 2 ^ q2) t.2.2.2.2.2.2.2)
    with hstepA
  have hstep_act : ∀ (a : List ℂ) (i : ℕ), Nat.testBit i q0 = false →
      Nat.testBit i q1 = false → Nat.testBit i q2 = false →
      step a i = stepA a i := by
    intro a i hb0 hb1 hb2
    rw [hstep, hstepA]
    dsimp only
    rw [if_neg (fun hc => hc ((and_pow_eq_zero_iff i q0).mpr hb0)),
      if_neg (fun hc => hc ((and_pow_eq_zero_iff i q1).mpr hb1)),
      if_neg (fun hc => hc ((and_pow_eq_zero_iff i q2).mpr hb2)),
      hor012, hor01, hor02, hor12, hsh0, hsh1, hsh2]
    simp only [← Nat.add_assoc]
  have hstep_skip : ∀ (a : List ℂ) (i : ℕ),
      ¬ (Nat.testBit i q0 = false ∧ Nat.testBit i q1 = false ∧
        Nat.testBit i q2 = false) →
      step a i = a := by
    intro a i hni
    rw [hstep]
    dsimp only
    by_cases b0 : i &&& (1 <<< q0) ≠ 0
    · rw [if_pos b0]
    · by_cases b1 : i &&& (1 <<< q1) ≠ 0
      · rw [if_neg b0, if_pos b1]
      · by_cases b2 : i &&& (1 <<< q2) ≠ 0
        · rw [if_neg b0, if_neg b1, if_pos b2]
        · exfalso
          apply hni
          refine ⟨?_, ?_, ?_⟩
          · exact (and_pow_eq_zero_iff i q0).mp (not_not.mp b0)
          · exact (and_pow_eq_zero_iff i q1).mp (not_not.mp b1)
          · exact (and_pow_eq_zero_iff i q2).mp (not_not.mp b2)
  set cells : ℕ → Finset ℕ := fun i =>
    if Nat.testBit i q0 = false ∧ Nat.testBit i q1 = false ∧
        Nat.testBit i q2 = false then
      {i, i + 2 ^ q0, i + 2 ^ q1, i + 2 ^ q0 + 2 ^ q1, i + 2 ^ q2,
       i + 2 ^ q0 + 2 ^ q2, i + 2 ^ q1 + 2 ^ q2, i + 2 ^ q0 + 2 ^ q1 + 2 ^ q2}
    else ∅
    with hcells
  have howner : ∀ i p, Nat.testBit i q0 = false → Nat.testBit i q1 = false →
      Nat.testBit i q2 = false →
      p ∈ ({i, i + 2 ^ q0, i + 2 ^ q1, i + 2 ^ q0 + 2 ^ q1, i + 2 ^ q2,
        i + 2 ^ q0 + 2 ^ q2, i + 2 ^ q1 + 2 ^ q2,
        i + 2 ^ q0 + 2 ^ q1 + 2 ^ q2} : Finset ℕ) →
      i = p - (if Nat.testBit p q0 then 2 ^ q0 else 0)
          - (if Nat.testBit p q1 then 2 ^ q1 else 0)
          - (if Nat.testBit p q2 then 2 ^ q2 else 0) := by
    intro i p hb0 hb1 hb2 hp
    obtain ⟨s1, s2, s3, s4, s5, s6, s7⟩ := sig3 h01 h02 h12 hb0 hb1 hb2
    simp only [Finset.mem_insert, Finset.mem_singleton] at hp
    rcases hp with rfl | rfl | rfl | rfl | rfl | rfl | rfl | rfl
    · rw [hb0, hb1, hb2]
      simp
    · rw [s1.1, s1.2.1, s1.2.2, if_pos rfl, if_neg (by simp),
        if_neg (by simp)]
      omega
    · rw [s2.1, s2.2.1, s2.2.2, if_neg (by simp), if_pos rfl,
        if_neg (by simp)]
      omega
    · rw [s3.1, s3.2.1, s3.2.2, if_pos rfl, if_pos rfl, if_neg (by simp)]
      omega
    · rw [s4.1, s4.2.1, s4.2.2, if_neg (by simp), if_neg (by simp),
        if_pos rfl]
      omega
    · rw [s5.1, s5.2.1, s5.2.2, if_pos rfl, if_neg (by simp), if_pos rfl]
      omega
    · rw [s6.1, s6.2.1, s6.2.2, if_neg (by simp), if_pos rfl, if_pos rfl]
      omega
    · rw [s7.1, s7.2.1, s7.2.2, if_pos rfl, if_pos rfl, if_pos rfl]
      omega
  have Hlen : ∀ (a : List ℂ) (i : ℕ), (step a i).length = a.length := by
    intro a i
    rw [hstep]
    dsimp only
    split_ifs <;> simp
  have Hframe : ∀ (a : List ℂ) (i p : ℕ), p ∉ cells i →
      (step a i).getD p 0 = a.getD p 0 := by
    intro a i p hp
    by_cases hact : Nat.testBit i q0 = false ∧ Nat.testBit i q1 = false ∧
        Nat.testBit i q2 = false
    · rw [hcells] at hp
      dsimp only at hp
      rw [if_pos hact] at hp
      simp only [Finset.mem_insert, Finset.mem_singleton] at hp
      push_neg at hp
      obtain ⟨hn0, hn1, hn2, hn3, hn4, hn5, hn6, hn7⟩ := hp
      rw [hstep_act a i hact.1 hact.2.1 hact.2.2, hstepA]
      dsimp only
      rw [getD_set_cases, if_neg (fun hc => hn7 hc.1),
        getD_set_cases, if_neg (fun hc => hn6 hc.1),
        getD_set_cases, if_neg (fun hc => hn5 hc.1),
        getD_set_cases, if_neg (fun hc => hn4 hc.1),
        getD_set_cases, if_neg (fun hc => hn3 hc.1),
        getD_set_cases, if_neg (fun hc => hn2 hc.1),
        getD_set_cases, if_neg (fun hc => hn1 hc.1),
        getD_set_cases, if_neg (fun hc => hn0 hc.1)]
    · rw [hstep_skip a i hact]
  have Hdisj : ∀ i j p, i ≠ j → p ∈ cells i → p ∉ cells j := by
    intro i j p hij hpi hpj
    rw [hcells] at hpi hpj
    dsimp only at hpi hpj
    by_cases hci : Nat.testBit i q0 = false ∧ Nat.testBit i q1 = false ∧
        Nat.testBit i q2 = false
    swap
    · rw [if_neg hci] at hpi
      exact absurd hpi (Finset.not_mem_empty p)
    by_cases hcj : Nat.testBit j q0 = false ∧ Nat.testBit j q1 = false ∧
        Nat.testBit j q2 = false
    swap
    · rw [if_neg hcj] at hpj
      exact absurd hpj (Finset.not_mem_empty p)
    rw [if_pos hci] at hpi
    rw [if_pos hcj] at hpj
    have e1 := howner i p hci.1 hci.2.1 hci.2.2 hpi
    have e2 := howner j p hcj.1 hcj.2.1 hcj.2.2 hpj
    exact hij (e1.trans e2.symm)
  have Hdet : ∀ (a b : List ℂ) (i : ℕ), a.length = b.length →
      (∀ p ∈ cells i, a.getD p 0 = b.getD p 0) →
      ∀ p ∈ cells i, (step a i).getD p 0 = (step b i).getD p 0 := by
    intro a b i hab hag p hp
    by_cases hci : Nat.testBit i q0 = false ∧ Nat.testBit i q1 = false ∧
        Nat.testBit i q2 = false
    swap
    · rw [hcells] at hp
      dsimp only at hp
      rw [if_neg hci] at hp
      exact absurd hp (Finset.not_mem_empty p)
    have hmem8 : ∀ c ∈ ({i, i + 2 ^ q0, i + 2 ^ q1, i + 2 ^ q0 + 2 ^ q1,
        i + 2 ^ q2, i + 2 ^ q0 + 2 ^ q2, i + 2 ^ q1 + 2 ^ q2,
        i + 2 ^ q0 + 2 ^ q1 + 2 ^ q2} : Finset ℕ),
        a.getD c 0 = b.getD c 0 := by
      intro c hc
      apply hag
      rw [hcells]
      dsimp only
      rw [if_pos hci]
      exact hc
    have h1 := hmem8 i (by simp)
    have h2 := hmem8 (i + 2 ^ q0) (by simp)
    have h3 := hmem8 (i + 2 ^ q1) (by simp)
    have h4 := hmem8 (i + 2 ^ q0 + 2 ^ q1) (by simp)
    have h5 := hmem8 (i + 2 ^ q2) (by simp)
    have h6 := hmem8 (i + 2 ^ q0 + 2 ^ q2) (by simp)
    have h7 := hmem8 (i + 2 ^ q1 + 2 ^ q2) (by simp)
    have h8 := hmem8 (i + 2 ^ q0 + 2 ^ q1 + 2 ^ q2) (by simp)
    have hT : g (a.getD i 0) (a.getD (i + 2 ^ q0) 0) (a.getD (i + 2 ^ q1) 0)
        (a.getD (i + 2 ^ q0 + 2 ^ q1) 0) (a.getD (i + 2 ^ q2) 0)
        (a.getD (i + 2 ^ q0 + 2 ^ q2) 0) (a.getD (i + 2 ^ q1 + 2 ^ q2) 0)
        (a.getD (i + 2 ^ q0 + 2 ^ q1 + 2 ^ q2) 0) =
        g (b.getD i 0) (b.getD (i + 2 ^ q0) 0) (b.getD (i + 2 ^ q1) 0)
        (b.getD (i + 2 ^ q0 + 2 ^ q1) 0) (b.getD (i + 2 ^ q2) 0)
        (b.getD (i + 2 ^ q0 + 2 ^ q2) 0) (b.getD (i + 2 ^ q1 + 2 ^ q2) 0)
        (b.getD (i + 2 ^ q0 + 2 ^ q1 + 2 ^ q2) 0) := by
      rw [h1, h2, h3, h4, h5, h6, h7, h8]
    rw [hstep_act a i hci.1 hci.2.1 hci.2.2,
      hstep_act b i hci.1 hci.2.1 hci.2.2, hstepA]
    dsimp only
    rw [hT]
    conv_lhs => rw [getD_set_cases]
    conv_rhs => rw [getD_set_cases]
    simp only [List.length_set, hab]
    by_cases k7 : p = i + 2 ^ q0 + 2 ^ q1 + 2 ^ q2 ∧ p < b.length
    · rw [if_pos k7, if_pos k7]
    rw [if_neg k7, if_neg k7]
    conv_lhs => rw [getD_set_cases]
    conv_rhs => rw [getD_set_cases]
    simp only [List.length_set, hab]
    by_cases k6 : p = i + 2 ^ q1 + 2 ^ q2 ∧ p < b.length
    · rw [if_pos k6, if_pos k6]
    rw [if_neg k6, if_neg k6]
    conv_lhs => rw [getD_set_cases]
    conv_rhs => rw [getD_set_cases]
    simp only [List.length_set, hab]
    by_cases k5 : p = i + 2 ^ q0 + 2 ^ q2 ∧ p < b.length
    · rw [if_pos k5, if_pos k5]
    rw [if_neg k5, if_neg k5]
    conv_lhs => rw [getD_set_cases]
    conv_rhs => rw [getD_set_cases]
    simp only [List.length_set, hab]
    by_cases k4 : p = i + 2 ^ q2 ∧ p < b.length
    · rw [if_pos k4, if_pos k4]
    rw [if_neg k4, if_neg k4]
    conv_lhs => rw [getD_set_cases]
    conv_rhs => rw [getD_set_cases]
    simp only [List.length_set, hab]
    by_cases k3 : p = i + 2 ^ q0 + 2 ^ q1 ∧ p < b.length
    · rw [if_pos k3, if_pos k3]
    rw [if_neg k3, if_neg k3]
    conv_lhs => rw [getD_set_cases]
    conv_rhs => rw [getD_set_cases]
    simp only [List.length_set, hab]
    by_cases k2 : p = i + 2 ^ q1 ∧ p < b.length
    · rw [if_pos k2, if_pos k2]
    rw [if_neg k2, if_neg k2]
    conv_lhs => rw [getD_set_cases]
    conv_rhs => rw [getD_set_cases]
    simp only [List.length_set, hab]
    by_cases k1 : p = i + 2 ^ q0 ∧ p < b.length
    · rw [if_pos k1, if_pos k1]
    rw [if_neg k1, if_neg k1]
    conv_lhs => rw [getD_set_cases]
    conv_rhs => rw [getD_set_cases]
    simp only [List.length_set, hab]
    by_cases k0 : p = i ∧ p < b.length
    · rw [if_pos k0, if_pos k0]
    rw [if_neg k0, if_neg k0]
    exact hag p hp
  obtain ⟨hFlen, hout, hin⟩ :=
    owner_foldl step cells Hlen Hframe Hdisj Hdet A A.length
  refine ⟨by rw [heq]; exact hFlen, ?_⟩
  rw [heq]
  apply owner_foldl_norm step cells Hlen Hframe Hdisj Hdet A
  · intro i hi
    rw [hcells]
    dsimp only
    split_ifs with hci
    · obtain ⟨s1, s2, s3, s4, s5, s6, s7⟩ := sig3 h01 h02 h12 hci.1 hci.2.1
        hci.2.2
      have hi2 : i < 2 ^ n := by rw [← hlen]; exact hi
      have hr1 : i + 2 ^ q0 < 2 ^ n := add_pow_lt hi2 hq0 hci.1
      have hr2 : i + 2 ^ q1 < 2 ^ n := add_pow_lt hi2 hq1 hci.2.1
      have hr3 : i + 2 ^ q0 + 2 ^ q1 < 2 ^ n := add_pow_lt hr1 hq1 s1.2.1
      have hr4 : i + 2 ^ q2 < 2 ^ n := add_pow_lt hi2 hq2 hci.2.2
      have hr5 : i + 2 ^ q0 + 2 ^ q2 < 2 ^ n := add_pow_lt hr1 hq2 s1.2.2
      have hr6 : i + 2 ^ q1 + 2 ^ q2 < 2 ^ n := add_pow_lt hr2 hq2 s2.2.2
      have hr7 : i + 2 ^ q0 + 2 ^ q1 + 2 ^ q2 < 2 ^ n :=
        add_pow_lt hr3 hq2 s3.2.2
      intro p hp
      simp only [Finset.mem_insert, Finset.mem_singleton] at hp
      rw [Finset.mem_range, hlen]
      rcases hp with rfl | rfl | rfl | rfl | rfl | rfl | rfl | rfl
      · exact hi2
      · exact hr1
      · exact hr2
      · exact hr3
      · exact hr4
      · exact hr5
      · exact hr6
      · exact hr7
    · simp
  · intro i hi
    rw [hcells]
    dsimp only
    split_ifs with hci
    swap
    · simp
    obtain ⟨s1, s2, s3, s4, s5, s6, s7⟩ := sig3 h01 h02 h12 hci.1 hci.2.1
      hci.2.2
    have hi2 : i < 2 ^ n := by rw [← hlen]; exact hi
    have hr1 : i + 2 ^ q0 < 2 ^ n := add_pow_lt hi2 hq0 hci.1
    have hr2 : i + 2 ^ q1 < 2 ^ n := add_pow_lt hi2 hq1 hci.2.1
    have hr3 : i + 2 ^ q0 + 2 ^ q1 < 2 ^ n := add_pow_lt hr1 hq1 s1.2.1
    have hr4 : i + 2 ^ q2 < 2 ^ n := add_pow_lt hi2 hq2 hci.2.2
    have hr5 : i + 2 ^ q0 + 2 ^ q2 < 2 ^ n := add_pow_lt hr1 hq2 s1.2.2
    have hr6 : i + 2 ^ q1 + 2 ^ q2 < 2 ^ n := add_pow_lt hr2 hq2 s2.2.2
    have hr7 : i + 2 ^ q0 + 2 ^ q1 + 2 ^ q2 < 2 ^ n :=
      add_pow_lt hr3 hq2 s3.2.2
    have hb0 : i < A.length := hi
    have hb1 : i + 2 ^ q0 < A.length := by rw [hlen]; exact hr1
    have hb2 : i + 2 ^ q1 < A.length := by rw [hlen]; exact hr2
    have hb3 : i + 2 ^ q0 + 2 ^ q1 < A.length := by rw [hlen]; exact hr3
    have hb4 : i + 2 ^ q2 < A.length := by rw [hlen]; exact hr4
    have hb5 : i + 2 ^ q0 + 2 ^ q2 < A.length := by rw [hlen]; exact hr5
    have hb6 : i + 2 ^ q1 + 2 ^ q2 < A.length := by rw [hlen]; exact hr6
    have hb7 : i + 2 ^ q0 + 2 ^ q1 + 2 ^ q2 < A.length := by
      rw [hlen]; exact hr7
    have hv0 : (step A i).getD i 0 =
        (g (A.getD i 0) (A.getD (i + 2 ^ q0) 0) (A.getD (i + 2 ^ q1) 0)
          (A.getD (i + 2 ^ q0 + 2 ^ q1) 0) (A.getD (i + 2 ^ q2) 0)
          (A.getD (i + 2 ^ q0 + 2 ^ q2) 0) (A.getD (i + 2 ^ q1 + 2 ^ q2) 0)
          (A.getD (i + 2 ^ q0 + 2 ^ q1 + 2 ^ q2) 0)).1 := by
      rw [hstep_act A i hci.1 hci.2.1 hci.2.2, hstepA]
      dsimp only
      rw [getD_set_cases, if_neg (by omega),
        getD_set_cases, if_neg (by omega),
        getD_set_cases, if_neg (by omega),
        getD_set_cases, if_neg (by omega),
        getD_set_cases, if_neg (by omega),
        getD_set_cases, if_neg (by omega),
        getD_set_cases, if_neg (by omega),
        getD_set_cases, if_pos ⟨rfl, hb0⟩]
    have hv1 : (step A i).getD (i + 2 ^ q0) 0 =
        (g (A.getD i 0) (A.getD (i + 2 ^ q0) 0) (A.getD (i + 2 ^ q1) 0)
          (A.getD (i + 2 ^ q0 + 2 ^ q1) 0) (A.getD (i + 2 ^ q2) 0)
          (A.getD (i + 2 ^ q0 + 2 ^ q2) 0) (A.getD (i + 2 ^ q1 + 2 ^ q2) 0)
          (A.getD (i + 2 ^ q0 + 2 ^ q1 + 2 ^ q2) 0)).2.1 := by
      rw [hstep_act A i hci.1 hci.2.1 hci.2.2, hstepA]
      dsimp only
      rw [getD_set_cases, if_neg (by omega),
        getD_set_cases, if_neg (by omega),
        getD_set_cases, if_neg (by omega),
        getD_set_cases, if_neg (by omega),
        getD_set_cases, if_neg (by omega),
        getD_set_cases, if_neg (by omega),
        getD_set_cases,
        if_pos ⟨rfl, by simp only [List.length_set]; exact hb1⟩]
    have hv2 : (step A i).getD (i + 2 ^ q1) 0 =
        (g (A.getD i 0) (A.getD (i + 2 ^ q0) 0) (A.getD (i + 2 ^ q1) 0)
          (A.getD (i + 2 ^ q0 + 2 ^ q1) 0) (A.getD (i + 2 ^ q2) 0)
          (A.getD (i + 2 ^ q0 + 2 ^ q2) 0) (A.getD (i + 2 ^ q1 + 2 ^ q2) 0)
          (A.getD (i + 2 ^ q0 + 2 ^ q1 + 2 ^ q2) 0)).2.2.1 := by
      rw [hstep_act A i hci.1 hci.2.1 hci.2.2, hstepA]
      dsimp only
      rw [getD_set_cases, if_neg (by omega),
        getD_set_cases, if_neg (by omega),
        getD_set_cases, if_neg (by omega),
        getD_set_cases, if_neg (by omega),
        getD_set_cases, if_neg (by omega),
        getD_set_cases,
        if_pos ⟨rfl, by simp only [List.length_set]; exact hb2⟩]
    have hv3 : (step A i).getD (i + 2 ^ q0 + 2 ^ q1) 0 =
        (g (A.getD i 0) (A.getD (i + 2 ^ q0) 0) (A.getD (i + 2 ^ q1) 0)
          (A.getD (i + 2 ^ q0 + 2 ^ q1) 0) (A.getD (i + 2 ^ q2) 0)
          (A.getD (i + 2 ^ q0 + 2 ^ q2) 0) (A.getD (i + 2 ^ q1 + 2 ^ q2) 0)
          (A.getD (i + 2 ^ q0 + 2 ^ q1 + 2 ^ q2) 0)).2.2.2.1 := by
      rw [hstep_act A i hci.1 hci.2.1 hci.2.2, hstepA]
      dsimp only
      rw [getD_set_cases, if_neg (by omega),
        getD_set_cases, if_neg (by omega),
        getD_set_cases, if_neg (by omega),
        getD_set_cases, if_neg (by omega),
        getD_set_cases,
        if_pos ⟨rfl, by simp only [List.length_set]; exact hb3⟩]
    have hv4 : (step A i).getD (i + 2 ^ q2) 0 =
        (g (A.getD i 0) (A.getD (i + 2 ^ q0) 0) (A.getD (i + 2 ^ q1) 0)
          (A.getD (i + 2 ^ q0 + 2 ^ q1) 0) (A.getD (i + 2 ^ q2) 0)
          (A.getD (i + 2 ^ q0 + 2 ^ q2) 0) (A.getD (i + 2 ^ q1 + 2 ^ q2) 0)
          (A.getD (i + 2 ^ q0 + 2 ^ q1 + 2 ^ q2) 0)).2.2.2.2.1 := by
      rw [hstep_act A i hci.1 hci.2.1 hci.2.2, hstepA]
      dsimp only
      rw [getD_set_cases, if_neg (by omega),
        getD_set_cases, if_neg (by omega),
        getD_set_cases, if_neg (by omega),
        getD_set_cases,
        if_pos ⟨rfl, by simp only [List.length_set]; exact hb4⟩]
    have hv5 : (step A i).getD (i + 2 ^ q0 + 2 ^ q2) 0 =
        (g (A.getD i 0) (A.getD (i + 2 ^ q0) 0) (A.getD (i + 2 ^ q1) 0)
          (A.getD (i + 2 ^ q0 + 2 ^ q1) 0) (A.getD (i + 2 ^ q2) 0)
          (A.getD (i + 2 ^ q0 + 2 ^ q2) 0) (A.getD (i + 2 ^ q1 + 2 ^ q2) 0)
          (A.getD (i + 2 ^ q0 + 2 ^ q1 + 2 ^ q2) 0)).2.2.2.2.2.1 := by
      rw [hstep_act A i hci.1 hci.2.1 hci.2.2, hstepA]
      dsimp only
      rw [getD_set_cases, if_neg (by omega),
        getD_set_cases, if_neg (by omega),
        getD_set_cases,
        if_pos ⟨rfl, by simp only [List.length_set]; exact hb5⟩]
    have hv6 : (step A i).getD (i + 2 ^ q1 + 2 ^ q2) 0 =
        (g (A.getD i 0) (A.getD (i + 2 ^ q0) 0) (A.getD (i + 2 ^ q1) 0)
          (A.getD (i + 2 ^ q0 + 2 ^ q1) 0) (A.getD (i + 2 ^ q2) 0)
          (A.getD (i + 2 ^ q0 + 2 ^ q2) 0) (A.getD (i + 2 ^ q1 + 2 ^ q2) 0)
          (A.getD (i + 2 ^ q0 + 2 ^ q1 + 2 ^ q2) 0)).2.2.2.2.2.2.1 := by
      rw [hstep_act A i hci.1 hci.2.1 hci.2.2, hstepA]
      dsimp only
      rw [getD_set_cases, if_neg (by omega),
        getD_set_cases,
        if_pos ⟨rfl, by simp only [List.length_set]; exact hb6⟩]
    have hv7 : (step A i).getD (i + 2 ^ q0 + 2 ^ q1 + 2 ^ q2) 0 =
        (g (A.getD i 0) (A.getD (i + 2 ^ q0) 0) (A.getD (i + 2 ^ q1) 0)
          (A.getD (i + 2 ^ q0 + 2 ^ q1) 0) (A.getD (i + 2 ^ q2) 0)
          (A.getD (i + 2 ^ q0 + 2 ^ q2) 0) (A.getD (i + 2 ^ q1 + 2 ^ q2) 0)
          (A.getD (i + 2 ^ q0 + 2 ^ q1 + 2 ^ q2) 0)).2.2.2.2.2.2.2 := by
      rw [hstep_act A i hci.1 hci.2.1 hci.2.2, hstepA]
      dsimp only
      rw [getD_set_cases,
        if_pos ⟨rfl, by simp only [List.length_set]; exact hb7⟩]
    rw [Finset.sum_insert (by intro hmem; simp only [Finset.mem_insert, Finset.mem_singleton] at hmem; omega), Finset.sum_insert (by intro hmem; simp only [Finset.mem_insert, Finset.mem_singleton] at hmem; omega),
      Finset.sum_insert (by intro hmem; simp only [Finset.mem_insert, Finset.mem_singleton] at hmem; omega), Finset.sum_insert (by intro hmem; simp only [Finset.mem_insert, Finset.mem_singleton] at hmem; omega),
      Finset.sum_insert (by intro hmem; simp only [Finset.mem_insert, Finset.mem_singleton] at hmem; omega), Finset.sum_insert (by intro hmem; simp only [Finset.mem_insert, Finset.mem_singleton] at hmem; omega),
      Finset.sum_insert (by intro hmem; simp only [Finset.mem_insert, Finset.mem_singleton] at hmem; omega), Finset.sum_singleton,
      Finset.sum_insert (by intro hmem; simp only [Finset.mem_insert, Finset.mem_singleton] at hmem; omega), Finset.sum_insert (by intro hmem; simp only [Finset.mem_insert, Finset.mem_singleton] at hmem; omega),
      Finset.sum_insert (by intro hmem; simp only [Finset.mem_insert, Finset.mem_singleton] at hmem; omega), Finset.sum_insert (by intro hmem; simp only [Finset.mem_insert, Finset.mem_singleton] at hmem; omega),
      Finset.sum_insert (by intro hmem; simp only [Finset.mem_insert, Finset.mem_singleton] at hmem; omega), Finset.sum_insert (by intro hmem; simp only [Finset.mem_insert, Finset.mem_singleton] at hmem; omega),
      Finset.sum_insert (by intro hmem; simp only [Finset.mem_insert, Finset.mem_singleton] at hmem; omega), Finset.sum_singleton,
      hv0, hv1, hv2, hv3, hv4, hv5, hv6, hv7]
    have := hg (A.getD i 0) (A.getD (i + 2 ^ q0) 0) (A.getD (i + 2 ^ q1) 0)
      (A.getD (i + 2 ^ q0 + 2 ^ q1) 0) (A.getD (i + 2 ^ q2) 0)
      (A.getD (i + 2 ^ q0 + 2 ^ q2) 0) (A.getD (i + 2 ^ q1 + 2 ^ q2) 0)
      (A.getD (i + 2 ^ q0 + 2 ^ q1 + 2 ^ q2) 0)
    linarith

/-- Norm and length preservation of the oracle loop: for an in-range answer
qubit the loop pairs up basis indices across the answer bit; for an
out-of-range answer qubit the success guard forces `f` to be false on every
occurring input, so the loop is the identity. -/
theorem u_f_loop_norm_len {N : ℕ} (f : (Fin N → Bool) → Bool)
    (inp : Fin N → ℕ) (ans : ℕ) (n : ℕ) (A : List ℂ)
    (hlen : A.length = 2 ^ n)
    (hguard : ∀ i0 ∈ List.range A.length,
      i0 &&& (1 <<< ans) = 0 →
      f (fun j => decide (i0 &&& (1 <<< inp j) ≠ 0)) = true →
      i0 ||| (1 <<< ans) < A.length) :
    (u_f_loop f inp ans A).length = A.length ∧
    norm_total (u_f_loop f inp ans A) = norm_total A := by
  obtain ⟨hflen, hval⟩ := u_f_loop_getD f inp ans A
  refine ⟨hflen, ?_⟩
  by_cases hans : ans < n
  · rw [norm_total_eq_sum_range, norm_total_eq_sum_range, hflen, hlen,
      sum_range_bit_split n ans hans, sum_range_bit_split n ans hans]
    apply Finset.sum_congr rfl
    intro p hp
    rw [Finset.mem_filter, Finset.mem_range] at hp
    obtain ⟨hplt, hpbit⟩ := hp
    have h1 : p < A.length := by rw [hlen]; exact hplt
    have h2 : p + 2 ^ ans < A.length := by
      rw [hlen]
      exact add_pow_lt hplt hans hpbit
    rw [hval p h1, hval (p + 2 ^ ans) h2, if_pos hpbit,
      if_neg (show ¬ (Nat.testBit (p + 2 ^ ans) ans = false) by
        simp [testBit_add_pow_self hpbit]),
      Nat.add_sub_cancel]
    by_cases hf : f (fun j => decide (p &&& (1 <<< inp j) ≠ 0)) = true
    · rw [if_pos hf, if_pos hf]
      ring
    · rw [if_neg hf, if_neg hf]
  · have hid : ∀ p < A.length,
        (u_f_loop f inp ans A).getD p 0 = A.getD p 0 := by
      intro p hpA
      have hplt : p < 2 ^ n := by rw [← hlen]; exact hpA
      have hpbit : Nat.testBit p ans = false :=
        Nat.testBit_lt_two_pow (lt_of_lt_of_le hplt
          (Nat.pow_le_pow_right (by norm_num) (Nat.le_of_not_lt hans)))
      rw [hval p hpA, if_pos hpbit]
      by_cases hf : f (fun j => decide (p &&& (1 <<< inp j) ≠ 0)) = true
      · exfalso
        have hbnd := hguard p (List.mem_range.mpr hpA)
          ((and_pow_eq_zero_iff p ans).mpr hpbit) hf
        rw [Nat.one_shiftLeft, or_pow_of_clear hpbit, hlen] at hbnd
        have hle : (2 : ℕ) ^ n ≤ 2 ^ ans :=
          Nat.pow_le_pow_right (by norm_num) (Nat.le_of_not_lt hans)
        omega
      · rw [if_neg hf]
    rw [norm_total_eq_sum_range, norm_total_eq_sum_range, hflen]
    apply Finset.sum_congr rfl
    intro p hp
    rw [hid p (Finset.mem_range.mp hp)]

theorem take_succ_sum (l : List ℝ) (m : ℕ) (hm : m < l.length) :
    (l.take (m + 1)).sum = (l.take m).sum + l.getD m 0 := by
  rw [List.take_succ, List.sum_append]
  congr 1
  rw [List.getElem?_eq_getElem hm]
  simp [List.getD_eq_getElem?_getD, List.getElem?_eq_getElem hm]

/-- When the break of `_choose_state` fires with a positive draw, the index
it selects carries strictly positive probability. -/
theorem choose_index_pos (probs : List ℝ) (r : ℝ) (hr : 0 < r)
    (hex : ∃ j < probs.length, r ≤ ((probs.take (j + 1)).sum)) :
    0 < probs.getD (choose_index probs r) 0 := by
  obtain ⟨hlt, hge, hmin⟩ := choose_index_break probs r hex
  set m := choose_index probs r with hm
  have hts := take_succ_sum probs m hlt
  have hlow : (probs.take m).sum < r := by
    cases hmval : m with
    | zero => simpa using hr
    | succ m' => exact hmin m' (by omega)
  rw [hts] at hge
  linarith

theorem zip_map_any_self (qs : List ℕ) (f : ℕ → Bool) :
    ((qs.zip (qs.map f)).any (fun qb => f qb.1 != qb.2)) = false := by
  induction qs with
  | nil => rfl
  | cons q qs ih => simp [List.zip_cons_cons, List.any_cons, ih]

theorem getD_map_normSq (A : List ℂ) (p : ℕ) (hp : p < A.length) :
    (A.map Complex.normSq).getD p 0 = Complex.normSq (A.getD p 0) := by
  rw [List.getD_eq_getElem?_getD, List.getElem?_map,
    List.getElem?_eq_getElem hp]
  simp [List.getD_eq_getElem?_getD, List.getElem?_eq_getElem hp]

/-- A successful `measure` call on a normalized state leaves a normalized
state of the same length, provided the consumed draw lies in `(0, 1)`: the
sampled index matches its own outcome bits, so its positive probability
survives the zeroing loop, making the accumulated probability positive, and
the bump factor `sqrt(1/acc)` rescales the surviving total back to `1`. -/
theorem measure_preserves_norm (qs : List ℕ) (sim : QuantumSimulation)
    (out : List Bool) (sim' : QuantumSimulation)
    (hok : measure qs sim = .ok (out, sim'))
    (hlen : sim.amplitudes.length = 2 ^ sim.qubit_count)
    (hnorm : norm_total sim.amplitudes = 1)
    (hr0 : 0 < sim.rng sim.rngPos) (hr1 : sim.rng sim.rngPos < 1) :
    sim'.qubit_count = sim.qubit_count ∧
    sim'.amplitudes.length = sim.amplitudes.length ∧
    norm_total sim'.amplitudes = 1 := by
  classical
  obtain ⟨hguard, hout, hsim'⟩ := measure_ok hok
  set istar := (choose_state sim).1 with histar
  set ms := qs.map (fun q => decide (istar &&& (1 <<< q) ≠ 0)) with hms
  set A := sim.amplitudes with hA
  obtain ⟨hz1, hz2, hz3, hz4⟩ := measure_zero_loop_spec qs ms A
  set z := measure_zero_loop qs ms A with hz
  set r := sim.rng sim.rngPos with hr
  set probs := A.map Complex.normSq with hprobs
  have hA0 : 0 < A.length := by
    rw [hA, hlen]
    exact Nat.two_pow_pos _
  have hpl : probs.length = A.length := by
    rw [hprobs, List.length_map]
  have histc : istar = choose_index probs r := rfl
  have hislt : istar < A.length := by
    rw [histc, ← hpl]
    exact choose_index_lt probs r (by rw [hpl]; exact hA0)
  have hsum1 : probs.sum = 1 := hnorm
  have hex : ∃ j < probs.length, r ≤ ((probs.take (j + 1)).sum) := by
    refine ⟨probs.length - 1, by rw [hpl]; omega, ?_⟩
    rw [show probs.length - 1 + 1 = probs.length by rw [hpl]; omega,
      List.take_length, hsum1]
    exact le_of_lt hr1
  have hppos : 0 < Complex.normSq (A.getD istar 0) := by
    have := choose_index_pos probs r hr0 hex
    rw [← histc] at this
    rw [hprobs, getD_map_normSq A istar hislt] at this
    exact this
  have hMistar : ((qs.zip ms).any
      (fun qb => (decide (istar &&& (1 <<< qb.1) ≠ 0)) != qb.2)) = false :=
    zip_map_any_self qs (fun q => decide (istar &&& (1 <<< q) ≠ 0))
  have hacc : 0 < z.2.1 := by
    rw [hz, hz3]
    have hmem : istar ∈ (Finset.range A.length).filter
        (fun p => ((qs.zip ms).any
          (fun qb => (decide (p &&& (1 <<< qb.1) ≠ 0)) != qb.2)) = false) := by
      rw [Finset.mem_filter, Finset.mem_range]
      exact ⟨hislt, hMistar⟩
    calc (0 : ℝ) < Complex.normSq (A.getD istar 0) := hppos
      _ ≤ _ := Finset.single_le_sum
        (fun p _ => Complex.normSq_nonneg (A.getD p 0)) hmem
  set bump := Real.sqrt ((1 : ℝ) / z.2.1) with hbump
  have hbump2 : bump * bump = 1 / z.2.1 := by
    rw [hbump]
    exact Real.mul_self_sqrt (le_of_lt (by positivity))
  have hnd : z.2.2.Nodup := by
    rw [hz, hz4]
    exact List.Nodup.filter _ (List.nodup_range _)
  obtain ⟨hbl, hbv⟩ := measure_bump_loop_spec bump z.2.2 z.1 hnd
  have hmemposs : ∀ p, p ∈ z.2.2 ↔ p < A.length ∧ ((qs.zip ms).any
      (fun qb => (decide (p &&& (1 <<< qb.1) ≠ 0)) != qb.2)) = false := by
    intro p
    rw [hz, hz4, List.mem_filter, List.mem_range]
    simp
  refine ⟨by rw [hsim'], by rw [hsim']; rw [hbl, hz1], ?_⟩
  rw [hsim']
  show norm_total (measure_bump_loop bump z.2.2 z.1) = 1
  rw [norm_total_eq_sum_range, hbl, hz1]
  rw [← Finset.sum_filter_add_sum_filter_not (Finset.range A.length)
    (fun p => ((qs.zip ms).any
      (fun qb => (decide (p &&& (1 <<< qb.1) ≠ 0)) != qb.2)) = false)]
  have hmatch : ∀ p ∈ (Finset.range A.length).filter
      (fun p => ((qs.zip ms).any
        (fun qb => (decide (p &&& (1 <<< qb.1) ≠ 0)) != qb.2)) = false),
      Complex.normSq ((measure_bump_loop bump z.2.2 z.1).getD p 0) =
        (bump * bump) * Complex.normSq (A.getD p 0) := by
    intro p hp
    rw [Finset.mem_filter, Finset.mem_range] at hp
    obtain ⟨hpA, hpM⟩ := hp
    have hpz : p < z.1.length := by rw [hz1]; exact hpA
    rw [hbv p hpz, if_pos ((hmemposs p).mpr ⟨hpA, hpM⟩), hz2 p,
      if_neg (fun hc => Bool.false_ne_true (hpM ▸ hc.2)),
      Complex.normSq_mul, Complex.normSq_ofReal]
  have hmiss : ∀ p ∈ (Finset.range A.length).filter
      (fun p => ¬ ((qs.zip ms).any
        (fun qb => (decide (p &&& (1 <<< qb.1) ≠ 0)) != qb.2)) = false),
      Complex.normSq ((measure_bump_loop bump z.2.2 z.1).getD p 0) = 0 := by
    intro p hp
    rw [Finset.mem_filter, Finset.mem_range] at hp
    obtain ⟨hpA, hpM⟩ := hp
    have hpM' : ((qs.zip ms).any
        (fun qb => (decide (p &&& (1 <<< qb.1) ≠ 0)) != qb.2)) = true :=
      bool_eq_true_of_not_false hpM
    have hpz : p < z.1.length := by rw [hz1]; exact hpA
    rw [hbv p hpz, if_neg (fun hc => by
        rw [hmemposs p] at hc
        exact hpM hc.2),
      hz2 p, if_pos ⟨hpA, hpM'⟩]
    simp
  rw [Finset.sum_congr rfl hmatch, Finset.sum_congr rfl hmiss]
  rw [Finset.sum_const_zero, add_zero, ← Finset.mul_sum]
  have haccval : z.2.1 = ∑ p ∈ (Finset.range A.length).filter
      (fun p => ((qs.zip ms).any
        (fun qb => (decide (p &&& (1 <<< qb.1) ≠ 0)) != qb.2)) = false),
      Complex.normSq (A.getD p 0) := by
    rw [hz, hz3]
  rw [← haccval, hbump2]
  field_simp

/-- `measure_all` always leaves a normalized basis state. -/
theorem measure_all_preserves_norm (sim : QuantumSimulation)
    (hlen : sim.amplitudes.length = 2 ^ sim.qubit_count) :
    (measure_all sim).2.qubit_count = sim.qubit_count ∧
    (measure_all sim).2.amplitudes.length = 2 ^ sim.qubit_count ∧
    norm_total (measure_all sim).2.amplitudes = 1 := by
  have hidx : (choose_state sim).1 < 2 ^ sim.qubit_count := by
    have hpos : 0 < (sim.amplitudes.map Complex.normSq).length := by
      rw [List.length_map, hlen]
      exact Nat.two_pow_pos _
    have := choose_index_lt (sim.amplitudes.map Complex.normSq)
      (sim.rng sim.rngPos) hpos
    rw [List.length_map, hlen] at this
    exact this
  have hamp : (measure_all sim).2.amplitudes =
      basis_vector sim.qubit_count (choose_state sim).1 := by
    show get_amplitudes _ = _
    rw [List.map_map]
    exact get_amplitudes_basis sim.qubit_count (choose_state sim).1 hidx
  refine ⟨rfl, ?_, ?_⟩
  · rw [hamp, basis_vector_length]
  · rw [hamp]
    exact norm_total_basis _ _ hidx

/-- Norm and length preservation of the two-qubit applicator loop for any
target pair, duplicate targets included, given the tuple-norm property and
the norm property of the diagonal collapse. -/
theorem two_qubit_norm_cases (g : ℂ → ℂ → ℂ → ℂ → ℂ × ℂ × ℂ × ℂ)
    (hg : ∀ a b c d,
      Complex.normSq (g a b c d).1 + Complex.normSq (g a b c d).2.1 +
      Complex.normSq (g a b c d).2.2.1 + Complex.normSq (g a b c d).2.2.2 =
      Complex.normSq a + Complex.normSq b + Complex.normSq c +
      Complex.normSq d)
    (hgd : ∀ a b,
      Complex.normSq (g a b b b).1 + Complex.normSq (g a b b b).2.2.2 =
      Complex.normSq a + Complex.normSq b)
    (n q0 q1 : ℕ) (hq0 : q0 < n) (hq1 : q1 < n)
    (A : List ℂ) (hlen : A.length = 2 ^ n) :
    (two_qubit_loop g q0 q1 A).length = A.length ∧
    norm_total (two_qubit_loop g q0 q1 A) = norm_total A := by
  by_cases hne : q0 = q1
  · subst hne
    rw [two_qubit_loop_diag]
    exact ⟨(one_qubit_loop_getD _ _ _).1,
      one_qubit_loop_norm _ (fun a b => hgd a b) n q0 hq0 A hlen⟩
  · exact ⟨(two_qubit_loop_getD g q0 q1 hne A).1,
      two_qubit_loop_norm g hg n q0 q1 hq0 hq1 hne A hlen⟩

/-- Norm and length preservation of the Toffoli applicator loop for every
combination of in-range target indices, duplicates included. -/
theorem toffoli_loop_norm (n q0 q1 q2 : ℕ) (hq0 : q0 < n) (hq1 : q1 < n)
    (hq2 : q2 < n) (A : List ℂ) (hlen : A.length = 2 ^ n) :
    (three_qubit_loop gate.toffoli q0 q1 q2 A).length = A.length ∧
    norm_total (three_qubit_loop gate.toffoli q0 q1 q2 A) = norm_total A := by
  by_cases h01 : q0 = q1
  · subst h01
    rw [three_qubit_loop_diag01]
    apply two_qubit_norm_cases
    · intro a b c d
      simp [gate.toffoli]
      try ring
    · intro a b
      simp [gate.toffoli]
      try ring
    · exact hq0
    · exact hq2
    · exact hlen
  · by_cases h02 : q0 = q2
    · subst h02
      rw [three_qubit_loop_diag02 gate.toffoli q0 q1 h01 A]
      apply two_qubit_norm_cases
      · intro a b c d
        simp [gate.toffoli]
        try ring
      · intro a b
        simp [gate.toffoli]
        try ring
      · exact hq0
      · exact hq1
      · exact hlen
    · by_cases h12 : q1 = q2
      · subst h12
        rw [three_qubit_loop_diag12 gate.toffoli q0 q1 h01 A]
        apply two_qubit_norm_cases
        · intro a b c d
          simp [gate.toffoli]
          try ring
        · intro a b
          simp [gate.toffoli]
          try ring
        · exact hq0
        · exact hq1
        · exact hlen
      · exact three_qubit_loop_norm gate.toffoli
          (by intro x0 x1 x2 x3 x4 x5 x6 x7
              simp [gate.toffoli]
              try ring)
          n q0 q1 q2 h01 h02 h12 hq0 hq1 hq2 A hlen

/-- Claim C1 (amended): for every reachable state of a `QuantumSimulation`
whose random stream draws all lie strictly inside `(0, 1)`, the amplitude
vector keeps length `2^n` and the sum of `|amplitude|²` over the vector
equals `1` exactly (the real-number idealization of "within a small
epsilon") after every public operation — construction, every gate, the
oracle, `reset`, `measure` and `measure_all`.  A draw of exactly `0`, which
the documented draw range `[0, 1)` allows, can break the invariant: the
measurement then selects a zero-probability basis state and renormalizes by
`sqrt(1/0)`; see the counterexample. -/
theorem normalization_invariant_spec (sim : QuantumSimulation)
    (hre : Reachable sim)
    (hdraw : ∀ k, 0 < sim.rng k ∧ sim.rng k < 1) :
    sim.amplitudes.length = 2 ^ sim.qubit_count ∧
    norm_total sim.amplitudes = 1 := by
  revert hdraw
  induction hre with
  | base n stream sim0 hok =>
    intro _
    rw [new] at hok
    by_cases h : n ≤ MAX_QUBIT_COUNT
    · rw [if_pos h] at hok
      cases hok
      refine ⟨?_, ?_⟩
      · show (get_ground_state_amplitudes n).length = 2 ^ n
        rw [ground_state_eq_basis, basis_vector_length]
      · show norm_total (get_ground_state_amplitudes n) = 1
        rw [ground_state_eq_basis]
        exact norm_total_basis n 0 (Nat.two_pow_pos n)
    · rw [if_neg h] at hok
      cases hok
  | reset_step sim hre ih =>
    intro _
    refine ⟨?_, ?_⟩
    · show (get_ground_state_amplitudes sim.qubit_count).length =
        2 ^ sim.qubit_count
      rw [ground_state_eq_basis, basis_vector_length]
    · show norm_total (get_ground_state_amplitudes sim.qubit_count) = 1
      rw [ground_state_eq_basis]
      exact norm_total_basis _ 0 (Nat.two_pow_pos _)
  | pauli_x_step q sim sim' hre hok ih =>
    intro hdraw
    rw [pauli_x] at hok
    obtain ⟨hq, hs⟩ := apply_one_qubit_gate_ok hok
    subst hs
    obtain ⟨hl, hn⟩ := ih hdraw
    refine ⟨?_, ?_⟩
    · show (one_qubit_loop gate.pauli_x q sim.amplitudes).length =
        2 ^ sim.qubit_count
      rw [(one_qubit_loop_getD gate.pauli_x q sim.amplitudes).1, hl]
    · show norm_total (one_qubit_loop gate.pauli_x q sim.amplitudes) = 1
      rw [one_qubit_loop_norm gate.pauli_x pauli_x_pair_norm sim.qubit_count q hq
        sim.amplitudes hl, hn]
  | pauli_y_step q sim sim' hre hok ih =>
    intro hdraw
    rw [pauli_y] at hok
    obtain ⟨hq, hs⟩ := apply_one_qubit_gate_ok hok
    subst hs
    obtain ⟨hl, hn⟩ := ih hdraw
    refine ⟨?_, ?_⟩
    · show (one_qubit_loop gate.pauli_y q sim.amplitudes).length =
        2 ^ sim.qubit_count
      rw [(one_qubit_loop_getD gate.pauli_y q sim.amplitudes).1, hl]
    · show norm_total (one_qubit_loop gate.pauli_y q sim.amplitudes) = 1
      rw [one_qubit_loop_norm gate.pauli_y pauli_y_pair_norm sim.qubit_count q hq
        sim.amplitudes hl, hn]
  | pauli_z_step q sim sim' hre hok ih =>
    intro hdraw
    rw [pauli_z] at hok
    obtain ⟨hq, hs⟩ := apply_one_qubit_gate_ok hok
    subst hs
    obtain ⟨hl, hn⟩ := ih hdraw
    refine ⟨?_, ?_⟩
    · show (one_qubit_loop gate.pauli_z q sim.amplitudes).length =
        2 ^ sim.qubit_count
      rw [(one_qubit_loop_getD gate.pauli_z q sim.amplitudes).1, hl]
    · show norm_total (one_qubit_loop gate.pauli_z q sim.amplitudes) = 1
      rw [one_qubit_loop_norm gate.pauli_z pauli_z_pair_norm sim.qubit_count q hq
        sim.amplitudes hl, hn]
  | hadamard_step q sim sim' hre hok ih =>
    intro hdraw
    rw [hadamard] at hok
    obtain ⟨hq, hs⟩ := apply_one_qubit_gate_ok hok
    subst hs
    obtain ⟨hl, hn⟩ := ih hdraw
    refine ⟨?_, ?_⟩
    · show (one_qubit_loop gate.hadamard q sim.amplitudes).length =
        2 ^ sim.qubit_count
      rw [(one_qubit_loop_getD gate.hadamard q sim.amplitudes).1, hl]
    · show norm_total (one_qubit_loop gate.hadamard q sim.amplitudes) = 1
      rw [one_qubit_loop_norm gate.hadamard hadamard_pair_norm sim.qubit_count q hq
        sim.amplitudes hl, hn]
  | s_step q sim sim' hre hok ih =>
    intro hdraw
    rw [s_gate] at hok
    obtain ⟨hq, hs⟩ := apply_one_qubit_gate_ok hok
    subst hs
    obtain ⟨hl, hn⟩ := ih hdraw
    refine ⟨?_, ?_⟩
    · show (one_qubit_loop gate.s q sim.amplitudes).length =
        2 ^ sim.qubit_count
      rw [(one_qubit_loop_getD gate.s q sim.amplitudes).1, hl]
    · show norm_total (one_qubit_loop gate.s q sim.amplitudes) = 1
      rw [one_qubit_loop_norm gate.s s_pair_norm sim.qubit_count q hq
        sim.amplitudes hl, hn]
  | t_step q sim sim' hre hok ih =>
    intro hdraw
    rw [t_gate] at hok
    obtain ⟨hq, hs⟩ := apply_one_qubit_gate_ok hok
    subst hs
    obtain ⟨hl, hn⟩ := ih hdraw
    refine ⟨?_, ?_⟩
    · show (one_qubit_loop gate.t q sim.amplitudes).length =
        2 ^ sim.qubit_count
      rw [(one_qubit_loop_getD gate.t q sim.amplitudes).1, hl]
    · show norm_total (one_qubit_loop gate.t q sim.amplitudes) = 1
      rw [one_qubit_loop_norm gate.t t_pair_norm sim.qubit_count q hq
        sim.amplitudes hl, hn]
  | cnot_step a b sim sim' hre hok ih =>
    intro hdraw
    rw [cnot] at hok
    obtain ⟨⟨ha, hb⟩, hs⟩ := apply_two_qubit_gate_ok hok
    subst hs
    obtain ⟨hl, hn⟩ := ih hdraw
    obtain ⟨hL, hN⟩ := two_qubit_norm_cases gate.cnot cnot_tuple_norm
      (fun x y => by simp [gate.cnot]) sim.qubit_count a b ha hb
      sim.amplitudes hl
    refine ⟨?_, ?_⟩
    · show (two_qubit_loop gate.cnot a b sim.amplitudes).length =
        2 ^ sim.qubit_count
      rw [hL, hl]
    · show norm_total (two_qubit_loop gate.cnot a b sim.amplitudes) = 1
      rw [hN, hn]
  | cz_step a b sim sim' hre hok ih =>
    intro hdraw
    rw [cz] at hok
    obtain ⟨⟨ha, hb⟩, hs⟩ := apply_two_qubit_gate_ok hok
    subst hs
    obtain ⟨hl, hn⟩ := ih hdraw
    obtain ⟨hL, hN⟩ := two_qubit_norm_cases gate.cz cz_tuple_norm
      (fun x y => by simp [gate.cz]) sim.qubit_count a b ha hb
      sim.amplitudes hl
    refine ⟨?_, ?_⟩
    · show (two_qubit_loop gate.cz a b sim.amplitudes).length =
        2 ^ sim.qubit_count
      rw [hL, hl]
    · show norm_total (two_qubit_loop gate.cz a b sim.amplitudes) = 1
      rw [hN, hn]
  | swap_step a b sim sim' hre hok ih =>
    intro hdraw
    rw [swap] at hok
    obtain ⟨⟨ha, hb⟩, hs⟩ := apply_two_qubit_gate_ok hok
    subst hs
    obtain ⟨hl, hn⟩ := ih hdraw
    obtain ⟨hL, hN⟩ := two_qubit_norm_cases gate.swap swap_tuple_norm
      (fun x y => by simp [gate.swap]) sim.qubit_count a b ha hb
      sim.amplitudes hl
    refine ⟨?_, ?_⟩
    · show (two_qubit_loop gate.swap a b sim.amplitudes).length =
        2 ^ sim.qubit_count
      rw [hL, hl]
    · show norm_total (two_qubit_loop gate.swap a b sim.amplitudes) = 1
      rw [hN, hn]
  | toffoli_step a b c sim sim' hre hok ih =>
    intro hdraw
    rw [toffoli] at hok
    obtain ⟨⟨ha, hb, hc⟩, hs⟩ := apply_three_qubit_gate_ok hok
    subst hs
    obtain ⟨hl, hn⟩ := ih hdraw
    obtain ⟨hL, hN⟩ := toffoli_loop_norm sim.qubit_count a b c ha hb hc
      sim.amplitudes hl
    refine ⟨?_, ?_⟩
    · show (three_qubit_loop gate.toffoli a b c sim.amplitudes).length =
        2 ^ sim.qubit_count
      rw [hL, hl]
    · show norm_total (three_qubit_loop gate.toffoli a b c sim.amplitudes) = 1
      rw [hN, hn]
  | u_f_step f input_qubits answer_qubit sim sim' hre hok ih =>
    intro hdraw
    obtain ⟨hguard, hs⟩ := apply_u_f_ok hok
    subst hs
    obtain ⟨hl, hn⟩ := ih hdraw
    obtain ⟨hL, hN⟩ := u_f_loop_norm_len f input_qubits answer_qubit
      sim.qubit_count sim.amplitudes hl hguard
    refine ⟨?_, ?_⟩
    · show (u_f_loop f input_qubits answer_qubit sim.amplitudes).length =
        2 ^ sim.qubit_count
      rw [hL, hl]
    · show norm_total (u_f_loop f input_qubits answer_qubit sim.amplitudes) = 1
      rw [hN, hn]
  | measure_step qs out sim sim' hre hok ih =>
    intro hdraw
    have hrng : sim'.rng = sim.rng := by
      obtain ⟨_, _, hsim'⟩ := measure_ok hok
      rw [hsim']
    have hdraw2 : ∀ k, 0 < sim.rng k ∧ sim.rng k < 1 := by
      intro k
      rw [← hrng]
      exact hdraw k
    obtain ⟨hl, hn⟩ := ih hdraw2
    obtain ⟨hQ, hL, hN⟩ := measure_preserves_norm qs sim out sim' hok hl hn
      (hdraw2 sim.rngPos).1 (hdraw2 sim.rngPos).2
    refine ⟨?_, hN⟩
    rw [hL, hl, hQ]
  | measure_all_step sim hre ih =>
    intro hdraw
    have hdraw2 : ∀ k, 0 < sim.rng k ∧ sim.rng k < 1 := fun k => hdraw k
    obtain ⟨hl, hn⟩ := ih hdraw2
    obtain ⟨hQ, hL, hN⟩ := measure_all_preserves_norm sim hl
    refine ⟨?_, hN⟩
    rw [hL, hQ]

/-- Claim C1, witness: the freshly constructed one-qubit simulation with a
constant draw stream `1/2` is reachable and normalized. -/
theorem normalization_invariant_spec_witness :
    ({ qubit_count := 1, amplitudes := get_ground_state_amplitudes 1,
       rng := fun _ => (1/2 : ℝ), rngPos := 0 } :
      QuantumSimulation).amplitudes.length = 2 ^ 1 ∧
    norm_total
      ({ qubit_count := 1, amplitudes := get_ground_state_amplitudes 1,
         rng := fun _ => (1/2 : ℝ), rngPos := 0 } :
        QuantumSimulation).amplitudes = 1 :=
  normalization_invariant_spec _
    (Reachable.base 1 (fun _ => (1/2 : ℝ)) _
      (by rw [new, if_pos (by norm_num [MAX_QUBIT_COUNT])]
          rfl))
    (fun _ => ⟨by norm_num, by norm_num⟩)

/-- Claim C1, counterexample: with the random stream constantly `0` (a value
inside the documented draw range `[0, 1)`), the reachable state obtained by
`new(1)`, `pauli_x(0)`, `measure([0])` is not normalized: the zero draw
selects basis index `0`, whose probability is `0`, the zeroing loop then
erases the whole vector, and the renormalization factor is `sqrt(1/0)` (NaN
in the Rust floating-point semantics; `0` in this real-number model), so the
sum of squared magnitudes of the resulting reachable state is `0`, not `1`. -/
theorem normalization_zero_draw_counterexample :
    ∃ s1 s2 out s3,
      new 1 (fun _ => (0 : ℝ)) = .ok s1 ∧
      pauli_x 0 s1 = .ok s2 ∧
      measure [0] s2 = .ok (out, s3) ∧
      Reachable s3 ∧
      norm_total s3.amplitudes ≠ 1 := by
  set s1 : QuantumSimulation :=
    { qubit_count := 1, amplitudes := get_ground_state_amplitudes 1,
      rng := fun _ => (0 : ℝ), rngPos := 0 } with hs1
  set s2 : QuantumSimulation :=
    { qubit_count := 1, amplitudes := [(0 : ℂ), 1],
      rng := fun _ => (0 : ℝ), rngPos := 0 } with hs2
  set s3 : QuantumSimulation :=
    { qubit_count := 1, amplitudes := [(0 : ℂ), 0],
      rng := fun _ => (0 : ℝ), rngPos := 1 } with hs3
  have h1 : new 1 (fun _ => (0 : ℝ)) = .ok s1 := by
    rw [new, if_pos (by norm_num [MAX_QUBIT_COUNT])]
    rfl
  have hg : get_ground_state_amplitudes 1 = [(1 : ℂ), 0] := by
    rw [ground_state_eq_basis, basis_vector]
    norm_num [List.range_succ]
  have h2 : pauli_x 0 s1 = .ok s2 := by
    rw [pauli_x, apply_one_qubit_gate,
      if_pos (show (0 : ℕ) < s1.qubit_count by norm_num)]
    have hloop : one_qubit_loop gate.pauli_x 0 s1.amplitudes = [(0 : ℂ), 1] := by
      show one_qubit_loop gate.pauli_x 0 (get_ground_state_amplitudes 1) = _
      rw [hg]
      norm_num [one_qubit_loop, List.range_succ, gate.pauli_x]
    rw [hs2, hloop]
  have h3 : measure [0] s2 = .ok ([false], s3) := by
    rw [measure, if_pos (show ∀ q ∈ [0], q < s2.qubit_count by
      intro q hq
      rw [List.mem_singleton] at hq
      subst hq
      norm_num)]
    have hci : choose_index (s2.amplitudes.map Complex.normSq)
        (s2.rng s2.rngPos) = 0 := by
      show choose_index ([(0 : ℂ), 1].map Complex.normSq) (0 : ℝ) = 0
      norm_num [choose_index, choose_loop]
    have hzl : measure_zero_loop [0]
        ([0].map (fun q => decide ((0 : ℕ) &&& (1 <<< q) ≠ 0)))
        s2.amplitudes = ([(0 : ℂ), 0], 0, [0]) := by
      show measure_zero_loop [0] _ [(0 : ℂ), 1] = _
      norm_num [measure_zero_loop, List.range_succ]
    simp only [choose_state, hci]
    rw [hzl]
    have hsqrt : Real.sqrt (1 / (0 : ℝ)) = 0 := by
      rw [div_zero, Real.sqrt_zero]
    rw [hsqrt]
    have hbump : measure_bump_loop 0 [0] [(0 : ℂ), 0] = [(0 : ℂ), 0] := by
      norm_num [measure_bump_loop]
    rw [hbump, hs3]
    norm_num
  refine ⟨s1, s2, [false], s3, h1, h2, h3, ?_, ?_⟩
  · exact Reachable.measure_step [0] [false] s2 s3
      (Reachable.pauli_x_step 0 s1 s2
        (Reachable.base 1 (fun _ => (0 : ℝ)) s1 h1) h2) h3
  · rw [hs3]
    norm_num [norm_total]


/-! ### Claim C2: same-seed cross-consistency of the three measurement views -/

/-- Two simulation records with equal fields are equal. -/
theorem sim_ext {s1 s2 : QuantumSimulation}
    (h1 : s1.qubit_count = s2.qubit_count) (h2 : s1.amplitudes = s2.amplitudes)
    (h3 : s1.rng = s2.rng) (h4 : s1.rngPos = s2.rngPos) : s1 = s2 := by
  cases s1
  cases s2
  simp only [QuantumSimulation.mk.injEq]
  exact ⟨h1, h2, h3, h4⟩

/-- A successful gate-sequence element leaves the qubit count and the random
generator (stream and cursor) unchanged. -/
theorem apply_gop_frame (op : GOp) (s1 s2 : QuantumSimulation)
    (hok : apply_gop op s1 = .ok s2) :
    s2.qubit_count = s1.qubit_count ∧ s2.rng = s1.rng ∧ s2.rngPos = s1.rngPos := by
  cases op with
  | reset =>
    cases hok
    exact ⟨rfl, rfl, rfl⟩
  | pauli_x q =>
    have hok' : apply_one_qubit_gate gate.pauli_x q s1 = .ok s2 := hok
    obtain ⟨-, hs⟩ := apply_one_qubit_gate_ok hok'
    subst hs
    exact ⟨rfl, rfl, rfl⟩
  | pauli_y q =>
    have hok' : apply_one_qubit_gate gate.pauli_y q s1 = .ok s2 := hok
    obtain ⟨-, hs⟩ := apply_one_qubit_gate_ok hok'
    subst hs
    exact ⟨rfl, rfl, rfl⟩
  | pauli_z q =>
    have hok' : apply_one_qubit_gate gate.pauli_z q s1 = .ok s2 := hok
    obtain ⟨-, hs⟩ := apply_one_qubit_gate_ok hok'
    subst hs
    exact ⟨rfl, rfl, rfl⟩
  | hadamard q =>
    have hok' : apply_one_qubit_gate gate.hadamard q s1 = .ok s2 := hok
    obtain ⟨-, hs⟩ := apply_one_qubit_gate_ok hok'
    subst hs
    exact ⟨rfl, rfl, rfl⟩
  | s_gate q =>
    have hok' : apply_one_qubit_gate gate.s q s1 = .ok s2 := hok
    obtain ⟨-, hs⟩ := apply_one_qubit_gate_ok hok'
    subst hs
    exact ⟨rfl, rfl, rfl⟩
  | t_gate q =>
    have hok' : apply_one_qubit_gate gate.t q s1 = .ok s2 := hok
    obtain ⟨-, hs⟩ := apply_one_qubit_gate_ok hok'
    subst hs
    exact ⟨rfl, rfl, rfl⟩
  | cnot a b =>
    have hok' : apply_two_qubit_gate gate.cnot a b s1 = .ok s2 := hok
    obtain ⟨-, hs⟩ := apply_two_qubit_gate_ok hok'
    subst hs
    exact ⟨rfl, rfl, rfl⟩
  | cz a b =>
    have hok' : apply_two_qubit_gate gate.cz a b s1 = .ok s2 := hok
    obtain ⟨-, hs⟩ := apply_two_qubit_gate_ok hok'
    subst hs
    exact ⟨rfl, rfl, rfl⟩
  | swap a b =>
    have hok' : apply_two_qubit_gate gate.swap a b s1 = .ok s2 := hok
    obtain ⟨-, hs⟩ := apply_two_qubit_gate_ok hok'
    subst hs
    exact ⟨rfl, rfl, rfl⟩
  | toffoli a b c =>
    have hok' : apply_three_qubit_gate gate.toffoli a b c s1 = .ok s2 := hok
    obtain ⟨-, hs⟩ := apply_three_qubit_gate_ok hok'
    subst hs
    exact ⟨rfl, rfl, rfl⟩

/-- A successful gate sequence leaves the qubit count and the random
generator (stream and cursor) unchanged. -/
theorem run_gops_frame (ops : List GOp) :
    ∀ s1 s2 : QuantumSimulation, run_gops ops s1 = .ok s2 →
      s2.qubit_count = s1.qubit_count ∧ s2.rng = s1.rng ∧
      s2.rngPos = s1.rngPos := by
  induction ops with
  | nil =>
    intro s1 s2 h
    cases h
    exact ⟨rfl, rfl, rfl⟩
  | cons op rest ih =>
    intro s1 s2 h
    have h' : (apply_gop op s1).bind (run_gops rest) = .ok s2 := h
    cases hop : apply_gop op s1 with
    | error e =>
      rw [hop] at h'
      cases h'
    | ok sm =>
      rw [hop] at h'
      have h'' : run_gops rest sm = .ok s2 := h'
      obtain ⟨q1, r1, p1⟩ := apply_gop_frame op s1 sm hop
      obtain ⟨q2, r2, p2⟩ := ih sm s2 h''
      exact ⟨q2.trans q1, r2.trans r1, p2.trans p1⟩

/-- Resetting two simulations that agree on everything but their amplitude
vectors produces equal simulations: `reset` overwrites the only field on
which they may differ. -/
theorem reset_sync {n : ℕ} {s1 s2 : QuantumSimulation}
    (h1 : s1.qubit_count = n) (h2 : s2.qubit_count = n)
    (hr : s2.rng = s1.rng) (hp : s2.rngPos = s1.rngPos) :
    reset s2 = reset s1 := by
  apply sim_ext
  · show s2.qubit_count = s1.qubit_count
    rw [h1, h2]
  · show get_ground_state_amplitudes s2.qubit_count =
      get_ground_state_amplitudes s1.qubit_count
    rw [h1, h2]
  · exact hr
  · exact hp

/-- One trial of the cross-consistency experiment, on three simulations with
equal qubit counts and lockstep random generators, running a gate sequence
that begins with `reset`: the three measurement views sample the same basis
index, so the selective outcomes are the corresponding entries of the full
outcome, and the three post-trial simulations are again in lockstep. -/
theorem run_trial_sync (n : ℕ) (h1n : 1 < n) (h2n : 2 < n)
    (rest : List GOp) (sa sb sc : QuantumSimulation)
    (hqa : sa.qubit_count = n) (hqb : sb.qubit_count = n)
    (hqc : sc.qubit_count = n)
    (hrb : sb.rng = sa.rng) (hrc : sc.rng = sa.rng)
    (hpb : sb.rngPos = sa.rngPos) (hpc : sc.rngPos = sa.rngPos)
    (oa ob oc : List Bool) (sa' sb' sc' : QuantumSimulation)
    (ha : run_trial (GOp.reset :: rest) MKind.all sa = .ok (oa, sa'))
    (hb : run_trial (GOp.reset :: rest) (MKind.sel [1]) sb = .ok (ob, sb'))
    (hc : run_trial (GOp.reset :: rest) (MKind.sel [0, 2]) sc = .ok (oc, sc')) :
    (ob = [oa.getD 1 false] ∧
     oc = [oa.getD 0 false, oa.getD 2 false]) ∧
    sa'.qubit_count = n ∧ sb'.qubit_count = n ∧ sc'.qubit_count = n ∧
    sb'.rng = sa'.rng ∧ sc'.rng = sa'.rng ∧
    sb'.rngPos = sa'.rngPos ∧ sc'.rngPos = sa'.rngPos := by
  have h0n : 0 < n := by omega
  have hresb : reset sb = reset sa := reset_sync hqa hqb hrb hpb
  have hresc : reset sc = reset sa := reset_sync hqa hqc hrc hpc
  have ha' : (run_gops rest (reset sa)).bind (do_meas MKind.all) =
      .ok (oa, sa') := ha
  have hb0 : (run_gops rest (reset sb)).bind (do_meas (MKind.sel [1])) =
      .ok (ob, sb') := hb
  have hc0 : (run_gops rest (reset sc)).bind (do_meas (MKind.sel [0, 2])) =
      .ok (oc, sc') := hc
  rw [hresb] at hb0
  rw [hresc] at hc0
  cases hg : run_gops rest (reset sa) with
  | error e =>
    rw [hg] at ha'
    cases ha'
  | ok ma =>
    rw [hg] at ha' hb0 hc0
    have hma0 : Except.ok (measure_all ma) = Except.ok (oa, sa') := ha'
    have hma : measure_all ma = (oa, sa') := by injection hma0
    have hmb : measure [1] ma = .ok (ob, sb') := hb0
    have hmc : measure [0, 2] ma = .ok (oc, sc') := hc0
    obtain ⟨hfq, hfr, hfp⟩ := run_gops_frame rest (reset sa) ma hg
    have hmq : ma.qubit_count = n := by
      rw [hfq]
      exact hqa
    obtain ⟨hgb, houtb, hsimb⟩ := measure_ok hmb
    obtain ⟨hgc, houtc, hsimc⟩ := measure_ok hmc
    have hfst : (measure_all ma).1 = oa := by rw [hma]
    have hoa : oa = (List.range n).map
        (fun q => decide ((choose_state ma).1 &&& (1 <<< q) ≠ 0)) := by
      rw [← hfst]
      show (List.range ma.qubit_count).map _ = _
      rw [hmq]
    have hob : ob = [oa.getD 1 false] := by
      rw [houtb, hoa]
      simp only [List.map_cons, List.map_nil]
      rw [getD_map_range, if_pos h1n]
    have hoc : oc = [oa.getD 0 false, oa.getD 2 false] := by
      rw [houtc, hoa]
      simp only [List.map_cons, List.map_nil]
      rw [getD_map_range, getD_map_range, if_pos h0n, if_pos h2n]
    have hsa : (measure_all ma).2 = sa' := by rw [hma]
    have hsaq : sa'.qubit_count = ma.qubit_count := by
      rw [← hsa]
      rfl
    have hsar : sa'.rng = ma.rng := by
      rw [← hsa]
      rfl
    have hsap : sa'.rngPos = ma.rngPos + 1 := by
      rw [← hsa]
      rfl
    have hsbq : sb'.qubit_count = ma.qubit_count := by
      rw [hsimb]
    have hsbr : sb'.rng = ma.rng := by
      rw [hsimb]
    have hsbp : sb'.rngPos = ma.rngPos + 1 := by
      rw [hsimb]
    have hscq : sc'.qubit_count = ma.qubit_count := by
      rw [hsimc]
    have hscr : sc'.rng = ma.rng := by
      rw [hsimc]
    have hscp : sc'.rngPos = ma.rngPos + 1 := by
      rw [hsimc]
    exact ⟨⟨hob, hoc⟩, hsaq.trans hmq, hsbq.trans hmq, hscq.trans hmq,
      hsbr.trans hsar.symm, hscr.trans hsar.symm,
      hsbp.trans hsap.symm, hscp.trans hsap.symm⟩

/-- Splitting one trial off a successful `k + 1`-trial run. -/
theorem run_trials_succ_ok {prog : List GOp} {mk : MKind} {k : ℕ}
    {sim : QuantumSimulation} {res : List (List Bool) × QuantumSimulation}
    (h : run_trials prog mk (k + 1) sim = .ok res) :
    ∃ oc tl, run_trial prog mk sim = .ok oc ∧
      run_trials prog mk k oc.2 = .ok tl ∧
      res = (oc.1 :: tl.1, tl.2) := by
  have h' : (run_trial prog mk sim).bind
      (fun oc => (run_trials prog mk k oc.2).map
        (fun r => (oc.1 :: r.1, r.2))) = .ok res := h
  cases ht : run_trial prog mk sim with
  | error e =>
    rw [ht] at h'
    cases h'
  | ok oc =>
    rw [ht] at h'
    have h2 : (run_trials prog mk k oc.2).map
        (fun r => (oc.1 :: r.1, r.2)) = .ok res := h'
    cases hr : run_trials prog mk k oc.2 with
    | error e =>
      rw [hr] at h2
      cases h2
    | ok tl =>
      rw [hr] at h2
      have h3 : Except.ok (oc.1 :: tl.1, tl.2) = Except.ok res := h2
      refine ⟨oc, tl, rfl, hr, ?_⟩
      injection h3 with h4
      exact h4.symm

/-- Multi-trial version of `run_trial_sync`: over any number of trials of a
gate sequence that begins with `reset`, three lockstep simulations produce
trial-by-trial consistent outcomes under the three measurement views. -/
theorem run_trials_sync (n : ℕ) (h1n : 1 < n) (h2n : 2 < n)
    (rest : List GOp) :
    ∀ (k : ℕ) (sa sb sc : QuantumSimulation),
      sa.qubit_count = n → sb.qubit_count = n → sc.qubit_count = n →
      sb.rng = sa.rng → sc.rng = sa.rng →
      sb.rngPos = sa.rngPos → sc.rngPos = sa.rngPos →
      ∀ ra rb rc : List (List Bool) × QuantumSimulation,
        run_trials (GOp.reset :: rest) MKind.all k sa = .ok ra →
        run_trials (GOp.reset :: rest) (MKind.sel [1]) k sb = .ok rb →
        run_trials (GOp.reset :: rest) (MKind.sel [0, 2]) k sc = .ok rc →
        ∀ t, t < k →
          rb.1.getD t [] = [(ra.1.getD t []).getD 1 false] ∧
          rc.1.getD t [] = [(ra.1.getD t []).getD 0 false,
            (ra.1.getD t []).getD 2 false] := by
  intro k
  induction k with
  | zero =>
    intro sa sb sc _ _ _ _ _ _ _ ra rb rc _ _ _ t ht
    exact absurd ht (by omega)
  | succ k ih =>
    intro sa sb sc hqa hqb hqc hrb hrc hpb hpc ra rb rc ha hb hc t ht
    obtain ⟨pa, qa, hta, hka, hre1⟩ := run_trials_succ_ok ha
    obtain ⟨pb, qb, htb, hkb, hre2⟩ := run_trials_succ_ok hb
    obtain ⟨pc, qc, htc, hkc, hre3⟩ := run_trials_succ_ok hc
    obtain ⟨⟨hob, hoc⟩, hq1, hq2, hq3, hr1, hr2, hp1, hp2⟩ :=
      run_trial_sync n h1n h2n rest sa sb sc hqa hqb hqc hrb hrc hpb hpc
        pa.1 pb.1 pc.1 pa.2 pb.2 pc.2 hta htb htc
    subst hre1
    subst hre2
    subst hre3
    cases t with
    | zero =>
      constructor
      · show (pb.1 :: qb.1).getD 0 [] = [((pa.1 :: qa.1).getD 0 []).getD 1 false]
        simp only [List.getD_cons_zero]
        exact hob
      · show (pc.1 :: qc.1).getD 0 [] =
          [((pa.1 :: qa.1).getD 0 []).getD 0 false,
           ((pa.1 :: qa.1).getD 0 []).getD 2 false]
        simp only [List.getD_cons_zero]
        exact hoc
    | succ t' =>
      have ht' : t' < k := by omega
      obtain ⟨ih1, ih2⟩ := ih pa.2 pb.2 pc.2 hq1 hq2 hq3 hr1 hr2 hp1 hp2
        qa qb qc hka hkb hkc t' ht'
      constructor
      · show (pb.1 :: qb.1).getD (t' + 1) [] =
          [((pa.1 :: qa.1).getD (t' + 1) []).getD 1 false]
        simp only [List.getD_cons_succ]
        exact ih1
      · show (pc.1 :: qc.1).getD (t' + 1) [] =
          [((pa.1 :: qa.1).getD (t' + 1) []).getD 0 false,
           ((pa.1 :: qa.1).getD (t' + 1) []).getD 2 false]
        simp only [List.getD_cons_succ]
        exact ih2

/-- Claim C2 (amended): for every seed, three `QuantumSimulation` instances
constructed with that seed and repeatedly subjected to the same per-trial
gate sequence beginning with `reset` — one then measured via `measure_all()`,
one via `measure(vec![1])`, one via `measure(vec![0, 2])` — return outcomes
that agree on the overlapping qubits in every trial: the identical random
draw selects the identical sampled basis index in all three. -/
theorem cross_consistency_spec (n : ℕ) (h1n : 1 < n) (h2n : 2 < n)
    (stream : ℕ → ℝ) (rest : List GOp) (k : ℕ)
    (sa sb sc : QuantumSimulation)
    (hna : new n stream = .ok sa) (hnb : new n stream = .ok sb)
    (hnc : new n stream = .ok sc)
    (ra rb rc : List (List Bool) × QuantumSimulation)
    (ha : run_trials (GOp.reset :: rest) MKind.all k sa = .ok ra)
    (hb : run_trials (GOp.reset :: rest) (MKind.sel [1]) k sb = .ok rb)
    (hc : run_trials (GOp.reset :: rest) (MKind.sel [0, 2]) k sc = .ok rc) :
    ∀ t, t < k →
      rb.1.getD t [] = [(ra.1.getD t []).getD 1 false] ∧
      rc.1.getD t [] = [(ra.1.getD t []).getD 0 false,
        (ra.1.getD t []).getD 2 false] := by
  have hab : sb = sa := by
    rw [hna] at hnb
    injection hnb with h
    exact h.symm
  have hac : sc = sa := by
    rw [hna] at hnc
    injection hnc with h
    exact h.symm
  have hq : sa.qubit_count = n := by
    rw [new] at hna
    by_cases hle : n ≤ MAX_QUBIT_COUNT
    · rw [if_pos hle] at hna
      injection hna with h
      rw [← h]
      rfl
    · rw [if_neg hle] at hna
      cases hna
  rw [hab] at hb
  rw [hac] at hc
  exact run_trials_sync n h1n h2n rest k sa sa sa hq hq hq rfl rfl rfl rfl
    ra rb rc ha hb hc

/-- Witness for claim C2: three instances with 3 qubits and the constant
draw stream `1/2`, one trial of the program `[reset]`, checked at trial 0. -/
theorem cross_consistency_spec_witness :
    ∃ (sim0 : QuantumSimulation)
      (ra rb rc : List (List Bool) × QuantumSimulation),
      new 3 (fun _ => (1 : ℝ) / 2) = .ok sim0 ∧
      run_trials [GOp.reset] MKind.all 1 sim0 = .ok ra ∧
      run_trials [GOp.reset] (MKind.sel [1]) 1 sim0 = .ok rb ∧
      run_trials [GOp.reset] (MKind.sel [0, 2]) 1 sim0 = .ok rc ∧
      (rb.1.getD 0 [] = [(ra.1.getD 0 []).getD 1 false] ∧
       rc.1.getD 0 [] = [(ra.1.getD 0 []).getD 0 false,
         (ra.1.getD 0 []).getD 2 false]) := by
  have hnew : new 3 (fun _ => (1 : ℝ) / 2) = .ok
      { qubit_count := 3, amplitudes := get_ground_state_amplitudes 3,
        rng := fun _ => (1 : ℝ) / 2, rngPos := 0 } := by
    rw [new, if_pos (by norm_num [MAX_QUBIT_COUNT])]
    rfl
  refine ⟨_, _, _, _, hnew, rfl, rfl, rfl, ?_⟩
  exact cross_consistency_spec 3 (by norm_num) (by norm_num)
    (fun _ => (1 : ℝ) / 2) [] 1 _ _ _ hnew hnew hnew _ _ _ rfl rfl rfl 0
    (by norm_num)


/-! ### Concrete trial-by-trial evaluation helpers -/

/-- A two-element gate sequence evaluated from its two successful steps. -/
theorem run_gops_two {op1 op2 : GOp} {sim s1 s2 : QuantumSimulation}
    (h1 : apply_gop op1 sim = .ok s1) (h2 : apply_gop op2 s1 = .ok s2) :
    run_gops [op1, op2] sim = .ok s2 :=
  calc run_gops [op1, op2] sim
      = (apply_gop op1 sim).bind (run_gops [op2]) := rfl
    _ = (Except.ok s1).bind (run_gops [op2]) := by rw [h1]
    _ = (apply_gop op2 s1).bind (run_gops []) := rfl
    _ = (Except.ok s2).bind (run_gops []) := by rw [h2]
    _ = .ok s2 := rfl

/-- One trial evaluated from its gate phase and its measurement phase. -/
theorem run_trial_eq {prog : List GOp} {mk : MKind}
    {sim simg : QuantumSimulation} {oc : List Bool × QuantumSimulation}
    (hg : run_gops prog sim = .ok simg) (hm : do_meas mk simg = .ok oc) :
    run_trial prog mk sim = .ok oc := by
  rw [run_trial, hg]
  exact hm

/-- Two trials evaluated from two successful single trials. -/
theorem run_trials_two {prog : List GOp} {mk : MKind}
    {sim : QuantumSimulation} {oc1 oc2 : List Bool × QuantumSimulation}
    (h1 : run_trial prog mk sim = .ok oc1)
    (h2 : run_trial prog mk oc1.2 = .ok oc2) :
    run_trials prog mk 2 sim = .ok ([oc1.1, oc2.1], oc2.2) :=
  calc run_trials prog mk 2 sim
      = (run_trial prog mk sim).bind (fun oc =>
          (run_trials prog mk 1 oc.2).map (fun r => (oc.1 :: r.1, r.2))) := rfl
    _ = (Except.ok oc1).bind (fun oc =>
          (run_trials prog mk 1 oc.2).map (fun r => (oc.1 :: r.1, r.2))) := by
        rw [h1]
    _ = (run_trials prog mk 1 oc1.2).map (fun r => (oc1.1 :: r.1, r.2)) := rfl
    _ = ((run_trial prog mk oc1.2).bind (fun oc =>
          (run_trials prog mk 0 oc.2).map (fun r => (oc.1 :: r.1, r.2)))).map
          (fun r => (oc1.1 :: r.1, r.2)) := rfl
    _ = ((Except.ok oc2).bind (fun oc =>
          (run_trials prog mk 0 oc.2).map (fun r => (oc.1 :: r.1, r.2)))).map
          (fun r => (oc1.1 :: r.1, r.2)) := by rw [h2]
    _ = .ok ([oc1.1, oc2.1], oc2.2) := rfl

/-- An in-range Hadamard gate call on an explicit simulation record, with the
mutated amplitude vector supplied by a loop evaluation. -/
theorem apply_hadamard_eval {q n p : ℕ} {A A' : List ℂ} {st : ℕ → ℝ}
    (hq : q < n) (hL : one_qubit_loop gate.hadamard q A = A') :
    apply_gop (GOp.hadamard q)
      { qubit_count := n, amplitudes := A, rng := st, rngPos := p } =
      .ok { qubit_count := n, amplitudes := A', rng := st, rngPos := p } := by
  show apply_one_qubit_gate gate.hadamard q
    { qubit_count := n, amplitudes := A, rng := st, rngPos := p } = _
  rw [apply_one_qubit_gate, if_pos (show q < n from hq), hL]

/-- `measure_all` on an explicit simulation record, evaluated from its
sampled index, its outcome bits and its rebuilt amplitude vector. -/
theorem measure_all_eval {n p : ℕ} {A A' : List ℂ} {st : ℕ → ℝ} {istar : ℕ}
    {out : List Bool}
    (hi : choose_index (A.map Complex.normSq) (st p) = istar)
    (hout : (List.range n).map (fun q => decide (istar &&& (1 <<< q) ≠ 0)) = out)
    (hamp : get_amplitudes
      (out.map (fun b => if b then ONE_QUBIT else ZERO_QUBIT)) = A') :
    measure_all { qubit_count := n, amplitudes := A, rng := st, rngPos := p } =
      (out, { qubit_count := n, amplitudes := A', rng := st, rngPos := p + 1 }) := by
  have h0 : measure_all
      { qubit_count := n, amplitudes := A, rng := st, rngPos := p } =
      ((List.range n).map (fun q =>
        decide (choose_index (A.map Complex.normSq) (st p) &&& (1 <<< q) ≠ 0)),
       { qubit_count := n,
         amplitudes := get_amplitudes
           (((List.range n).map (fun q =>
             decide (choose_index (A.map Complex.normSq) (st p) &&&
               (1 <<< q) ≠ 0))).map
             (fun b => if b then ONE_QUBIT else ZERO_QUBIT)),
         rng := st, rngPos := p + 1 }) := rfl
  rw [h0, hi, hout, hamp]

/-- The outcome half of `measure_all` on an explicit simulation record. -/
theorem measure_all_fst {n p : ℕ} {A : List ℂ} {st : ℕ → ℝ} {istar : ℕ}
    {out : List Bool}
    (hi : choose_index (A.map Complex.normSq) (st p) = istar)
    (hout : (List.range n).map (fun q => decide (istar &&& (1 <<< q) ≠ 0)) = out) :
    (measure_all { qubit_count := n, amplitudes := A, rng := st, rngPos := p }).1 =
      out := by
  have h0 : (measure_all
      { qubit_count := n, amplitudes := A, rng := st, rngPos := p }).1 =
      (List.range n).map (fun q =>
        decide (choose_index (A.map Complex.normSq) (st p) &&& (1 <<< q) ≠ 0)) := rfl
  rw [h0, hi, hout]

/-- `measure` on an explicit simulation record, evaluated from its sampled
index, outcome bits, zeroing loop, bump factor and renormalization loop. -/
theorem measure_sel_eval {n p : ℕ} {A A1 A' : List ℂ} {st : ℕ → ℝ} {istar : ℕ}
    {qs : List ℕ} {out : List Bool} {acc bump : ℝ} {poss : List ℕ}
    (hq : ∀ q ∈ qs, q < n)
    (hi : choose_index (A.map Complex.normSq) (st p) = istar)
    (hout : qs.map (fun q => decide (istar &&& (1 <<< q) ≠ 0)) = out)
    (hz : measure_zero_loop qs out A = (A1, acc, poss))
    (hb : Real.sqrt ((1 : ℝ) / acc) = bump)
    (hbl : measure_bump_loop bump poss A1 = A') :
    measure qs { qubit_count := n, amplitudes := A, rng := st, rngPos := p } =
      .ok (out,
        { qubit_count := n, amplitudes := A', rng := st, rngPos := p + 1 }) := by
  have h0 : measure qs
      { qubit_count := n, amplitudes := A, rng := st, rngPos := p } =
      (if ∀ q ∈ qs, q < n then
        Except.ok
          (qs.map (fun q =>
            decide (choose_index (A.map Complex.normSq) (st p) &&& (1 <<< q) ≠ 0)),
           { qubit_count := n,
             amplitudes := measure_bump_loop
               (Real.sqrt ((1 : ℝ) / (measure_zero_loop qs (qs.map (fun q =>
                 decide (choose_index (A.map Complex.normSq) (st p) &&&
                   (1 <<< q) ≠ 0))) A).2.1))
               ((measure_zero_loop qs (qs.map (fun q =>
                 decide (choose_index (A.map Complex.normSq) (st p) &&&
                   (1 <<< q) ≠ 0))) A).2.2)
               ((measure_zero_loop qs (qs.map (fun q =>
                 decide (choose_index (A.map Complex.normSq) (st p) &&&
                   (1 <<< q) ≠ 0))) A).1),
             rng := st, rngPos := p + 1 })
      else .error "The qubit number has to be less than the number of qubits.") :=
    rfl
  rw [h0, if_pos hq, hi, hout]
  have hz1 : (measure_zero_loop qs out A).1 = A1 := by rw [hz]
  have hz2 : (measure_zero_loop qs out A).2.1 = acc := by rw [hz]
  have hz3 : (measure_zero_loop qs out A).2.2 = poss := by rw [hz]
  rw [hz1, hz2, hz3, hb, hbl]

/-- The success and outcome halves of `measure` on an explicit simulation
record, leaving the collapsed state existential. -/
theorem measure_sel_eval_fst {n p : ℕ} {A : List ℂ} {st : ℕ → ℝ} {istar : ℕ}
    {qs : List ℕ} {out : List Bool}
    (hq : ∀ q ∈ qs, q < n)
    (hi : choose_index (A.map Complex.normSq) (st p) = istar)
    (hout : qs.map (fun q => decide (istar &&& (1 <<< q) ≠ 0)) = out) :
    ∃ sim', measure qs
      { qubit_count := n, amplitudes := A, rng := st, rngPos := p } =
      .ok (out, sim') := by
  have h0 : measure qs
      { qubit_count := n, amplitudes := A, rng := st, rngPos := p } =
      (if ∀ q ∈ qs, q < n then
        Except.ok
          (qs.map (fun q =>
            decide (choose_index (A.map Complex.normSq) (st p) &&& (1 <<< q) ≠ 0)),
           { qubit_count := n,
             amplitudes := measure_bump_loop
               (Real.sqrt ((1 : ℝ) / (measure_zero_loop qs (qs.map (fun q =>
                 decide (choose_index (A.map Complex.normSq) (st p) &&&
                   (1 <<< q) ≠ 0))) A).2.1))
               ((measure_zero_loop qs (qs.map (fun q =>
                 decide (choose_index (A.map Complex.normSq) (st p) &&&
                   (1 <<< q) ≠ 0))) A).2.2)
               ((measure_zero_loop qs (qs.map (fun q =>
                 decide (choose_index (A.map Complex.normSq) (st p) &&&
                   (1 <<< q) ≠ 0))) A).1),
             rng := st, rngPos := p + 1 })
      else .error "The qubit number has to be less than the number of qubits.") :=
    rfl
  rw [h0, if_pos hq, hi, hout]
  exact ⟨_, rfl⟩

/-- The one-qubit-gate loop on an eight-entry vector targeting qubit `0`:
the pairs `(0,1)`, `(2,3)`, `(4,5)`, `(6,7)` are rewritten. -/
theorem one_qubit_loop_zero_eight (g : ℂ → ℂ → ℂ × ℂ)
    (a0 a1 a2 a3 a4 a5 a6 a7 : ℂ) :
    one_qubit_loop g 0 [a0, a1, a2, a3, a4, a5, a6, a7] =
      [(g a0 a1).1, (g a0 a1).2, (g a2 a3).1, (g a2 a3).2,
       (g a4 a5).1, (g a4 a5).2, (g a6 a7).1, (g a6 a7).2] := by
  show (List.range 8).foldl _ _ = _
  rfl

/-- The one-qubit-gate loop on an eight-entry vector targeting qubit `1`:
the pairs `(0,2)`, `(1,3)`, `(4,6)`, `(5,7)` are rewritten. -/
theorem one_qubit_loop_one_eight (g : ℂ → ℂ → ℂ × ℂ)
    (a0 a1 a2 a3 a4 a5 a6 a7 : ℂ) :
    one_qubit_loop g 1 [a0, a1, a2, a3, a4, a5, a6, a7] =
      [(g a0 a2).1, (g a1 a3).1, (g a0 a2).2, (g a1 a3).2,
       (g a4 a6).1, (g a5 a7).1, (g a4 a6).2, (g a5 a7).2] := by
  show (List.range 8).foldl _ _ = _
  rfl

/-- The zeroing loop of `measure` for qubits `[0, 2]` with outcome
`[false, false]` on an eight-entry vector: indices `0` and `2` survive. -/
theorem measure_zero_loop_sel02_eight (a0 a1 a2 a3 a4 a5 a6 a7 : ℂ) :
    measure_zero_loop [0, 2] [false, false] [a0, a1, a2, a3, a4, a5, a6, a7] =
      ([a0, 0, a2, 0, 0, 0, 0, 0],
       0 + Complex.normSq a0 + Complex.normSq a2, [0, 2]) := by
  show (List.range 8).foldl _ _ = _
  rfl

/-- The renormalization loop of `measure` over surviving indices `[0, 2]`
on an eight-entry vector. -/
theorem measure_bump_loop_sel02_eight (b : ℝ) (a0 a1 a2 a3 a4 a5 a6 a7 : ℂ) :
    measure_bump_loop b [0, 2] [a0, a1, a2, a3, a4, a5, a6, a7] =
      [(b : ℂ) * a0, a1, (b : ℂ) * a2, a3, a4, a5, a6, a7] := by
  show List.foldl _ _ _ = _
  rfl

/-- Claim C2, counterexample to the unrestricted claim: when the repeated
gate sequence does not begin with `reset`, earlier measurements collapse the
three instances differently, and a later trial can disagree on the
overlapping qubits.  With 3 qubits, the gate sequence `[hadamard 0,
hadamard 1]` repeated for two trials, and draws `3/5` then `2/5`, the
full-measurement instance reports qubit 0 as `true` in the second trial,
while the `measure([0, 2])` instance reports qubit 0 as `false` there. -/
theorem cross_consistency_no_reset_counterexample :
    ∃ (sim0 : QuantumSimulation)
      (ra rc : List (List Bool) × QuantumSimulation),
      new 3 (fun j => if j = 0 then (3 : ℝ) / 5 else (2 : ℝ) / 5) = .ok sim0 ∧
      run_trials [GOp.hadamard 0, GOp.hadamard 1] MKind.all 2 sim0 = .ok ra ∧
      run_trials [GOp.hadamard 0, GOp.hadamard 1] (MKind.sel [0, 2]) 2 sim0 =
        .ok rc ∧
      ra.1 = [[false, true, false], [true, false, false]] ∧
      rc.1 = [[false, false], [false, false]] ∧
      ¬ ((rc.1.getD 1 []).getD 0 false = (ra.1.getD 1 []).getD 0 false) := by
  -- numeric facts about 1/sqrt 2
  have hS2C : (INV_SQRT_2 : ℂ) * (INV_SQRT_2 : ℂ) = (((1 : ℝ)/2 : ℝ) : ℂ) := by
    rw [← Complex.ofReal_mul, inv_sqrt_two_sq]
  have hsqrt2 : Real.sqrt 2 * Real.sqrt 2 = 2 :=
    Real.mul_self_sqrt (by norm_num)
  have hs12 : Real.sqrt 2 * ((1 : ℝ)/2) = INV_SQRT_2 := by
    have hpos : (0 : ℝ) < Real.sqrt 2 := Real.sqrt_pos.mpr (by norm_num)
    rw [INV_SQRT_2, inv_eq_one_div, eq_div_iff (ne_of_gt hpos)]
    linear_combination hsqrt2 / 2
  have hs12C : (Real.sqrt 2 : ℂ) * (((1 : ℝ)/2 : ℝ) : ℂ) = (INV_SQRT_2 : ℂ) := by
    rw [← Complex.ofReal_mul, hs12]
  -- the ground state of 3 qubits
  have hg3 : get_ground_state_amplitudes 3 =
      [(1 : ℂ), 0, 0, 0, 0, 0, 0, 0] := rfl
  -- Hadamard loop evaluations
  have hL1 : one_qubit_loop gate.hadamard 0 [(1 : ℂ), 0, 0, 0, 0, 0, 0, 0] =
      [(INV_SQRT_2 : ℂ), (INV_SQRT_2 : ℂ), 0, 0, 0, 0, 0, 0] := by
    rw [one_qubit_loop_zero_eight]
    norm_num [gate.hadamard]
  have hL1g : one_qubit_loop gate.hadamard 0 (get_ground_state_amplitudes 3) =
      [(INV_SQRT_2 : ℂ), (INV_SQRT_2 : ℂ), 0, 0, 0, 0, 0, 0] := by
    rw [hg3]
    exact hL1
  have hL2 : one_qubit_loop gate.hadamard 1
      [(INV_SQRT_2 : ℂ), (INV_SQRT_2 : ℂ), 0, 0, 0, 0, 0, 0] =
      [(((1 : ℝ)/2 : ℝ) : ℂ), (((1 : ℝ)/2 : ℝ) : ℂ), (((1 : ℝ)/2 : ℝ) : ℂ),
       (((1 : ℝ)/2 : ℝ) : ℂ), 0, 0, 0, 0] := by
    rw [one_qubit_loop_one_eight]
    norm_num [gate.hadamard, hS2C, inv_sqrt_two_sq]
  have hL3 : one_qubit_loop gate.hadamard 0 [0, 0, (1 : ℂ), 0, 0, 0, 0, 0] =
      [0, 0, (INV_SQRT_2 : ℂ), (INV_SQRT_2 : ℂ), 0, 0, 0, 0] := by
    rw [one_qubit_loop_zero_eight]
    norm_num [gate.hadamard]
  have hL4 : one_qubit_loop gate.hadamard 1
      [0, 0, (INV_SQRT_2 : ℂ), (INV_SQRT_2 : ℂ), 0, 0, 0, 0] =
      [(((1 : ℝ)/2 : ℝ) : ℂ), (((1 : ℝ)/2 : ℝ) : ℂ), ((-((1 : ℝ)/2) : ℝ) : ℂ),
       ((-((1 : ℝ)/2) : ℝ) : ℂ), 0, 0, 0, 0] := by
    rw [one_qubit_loop_one_eight]
    norm_num [gate.hadamard, hS2C, inv_sqrt_two_sq]
  have hL5 : one_qubit_loop gate.hadamard 0
      [(INV_SQRT_2 : ℂ), 0, (INV_SQRT_2 : ℂ), 0, 0, 0, 0, 0] =
      [(((1 : ℝ)/2 : ℝ) : ℂ), (((1 : ℝ)/2 : ℝ) : ℂ), (((1 : ℝ)/2 : ℝ) : ℂ),
       (((1 : ℝ)/2 : ℝ) : ℂ), 0, 0, 0, 0] := by
    rw [one_qubit_loop_zero_eight]
    norm_num [gate.hadamard, hS2C, inv_sqrt_two_sq]
  have hL6 : one_qubit_loop gate.hadamard 1
      [(((1 : ℝ)/2 : ℝ) : ℂ), (((1 : ℝ)/2 : ℝ) : ℂ), (((1 : ℝ)/2 : ℝ) : ℂ),
       (((1 : ℝ)/2 : ℝ) : ℂ), 0, 0, 0, 0] =
      [(INV_SQRT_2 : ℂ), (INV_SQRT_2 : ℂ), 0, 0, 0, 0, 0, 0] := by
    rw [one_qubit_loop_one_eight]
    norm_num [gate.hadamard]
  -- trial 1: the shared gate phase
  have hga1 : apply_gop (GOp.hadamard 0)
      { qubit_count := 3, amplitudes := get_ground_state_amplitudes 3,
        rng := fun j => if j = 0 then (3 : ℝ) / 5 else (2 : ℝ) / 5,
        rngPos := 0 } = .ok
      { qubit_count := 3,
        amplitudes := [(INV_SQRT_2 : ℂ), (INV_SQRT_2 : ℂ), 0, 0, 0, 0, 0, 0],
        rng := fun j => if j = 0 then (3 : ℝ) / 5 else (2 : ℝ) / 5,
        rngPos := 0 } :=
    apply_hadamard_eval (by norm_num) hL1g
  have hga2 : apply_gop (GOp.hadamard 1)
      { qubit_count := 3,
        amplitudes := [(INV_SQRT_2 : ℂ), (INV_SQRT_2 : ℂ), 0, 0, 0, 0, 0, 0],
        rng := fun j => if j = 0 then (3 : ℝ) / 5 else (2 : ℝ) / 5,
        rngPos := 0 } = .ok
      { qubit_count := 3,
        amplitudes := [(((1 : ℝ)/2 : ℝ) : ℂ), (((1 : ℝ)/2 : ℝ) : ℂ),
          (((1 : ℝ)/2 : ℝ) : ℂ), (((1 : ℝ)/2 : ℝ) : ℂ), 0, 0, 0, 0],
        rng := fun j => if j = 0 then (3 : ℝ) / 5 else (2 : ℝ) / 5,
        rngPos := 0 } :=
    apply_hadamard_eval (by norm_num) hL2
  have hgops1 : run_gops [GOp.hadamard 0, GOp.hadamard 1]
      { qubit_count := 3, amplitudes := get_ground_state_amplitudes 3,
        rng := fun j => if j = 0 then (3 : ℝ) / 5 else (2 : ℝ) / 5,
        rngPos := 0 } = .ok
      { qubit_count := 3,
        amplitudes := [(((1 : ℝ)/2 : ℝ) : ℂ), (((1 : ℝ)/2 : ℝ) : ℂ),
          (((1 : ℝ)/2 : ℝ) : ℂ), (((1 : ℝ)/2 : ℝ) : ℂ), 0, 0, 0, 0],
        rng := fun j => if j = 0 then (3 : ℝ) / 5 else (2 : ℝ) / 5,
        rngPos := 0 } :=
    run_gops_two hga1 hga2
  -- trial 1 sampling: draw 3/5 selects basis index 2
  have hi1 : choose_index
      (([(((1 : ℝ)/2 : ℝ) : ℂ), (((1 : ℝ)/2 : ℝ) : ℂ), (((1 : ℝ)/2 : ℝ) : ℂ),
        (((1 : ℝ)/2 : ℝ) : ℂ), 0, 0, 0, 0]).map Complex.normSq)
      ((fun j => if j = 0 then (3 : ℝ) / 5 else (2 : ℝ) / 5) 0) = 2 := by
    norm_num [choose_index, choose_loop, Complex.normSq_ofReal]
  have hout1a : (List.range 3).map
      (fun q => decide (2 &&& (1 <<< q) ≠ 0)) = [false, true, false] := rfl
  have hamp1 : get_amplitudes
      ([false, true, false].map (fun b => if b then ONE_QUBIT else ZERO_QUBIT)) =
      [0, 0, (1 : ℂ), 0, 0, 0, 0, 0] := by
    rw [← hout1a, List.map_map, get_amplitudes_basis 3 2 (by norm_num)]
    rfl
  have hM1a : measure_all
      { qubit_count := 3,
        amplitudes := [(((1 : ℝ)/2 : ℝ) : ℂ), (((1 : ℝ)/2 : ℝ) : ℂ),
          (((1 : ℝ)/2 : ℝ) : ℂ), (((1 : ℝ)/2 : ℝ) : ℂ), 0, 0, 0, 0],
        rng := fun j => if j = 0 then (3 : ℝ) / 5 else (2 : ℝ) / 5,
        rngPos := 0 } =
      ([false, true, false],
       { qubit_count := 3, amplitudes := [0, 0, (1 : ℂ), 0, 0, 0, 0, 0],
         rng := fun j => if j = 0 then (3 : ℝ) / 5 else (2 : ℝ) / 5,
         rngPos := 1 }) :=
    measure_all_eval hi1 hout1a hamp1
  have ht1a : run_trial [GOp.hadamard 0, GOp.hadamard 1] MKind.all
      { qubit_count := 3, amplitudes := get_ground_state_amplitudes 3,
        rng := fun j => if j = 0 then (3 : ℝ) / 5 else (2 : ℝ) / 5,
        rngPos := 0 } = .ok
      ([false, true, false],
       { qubit_count := 3, amplitudes := [0, 0, (1 : ℂ), 0, 0, 0, 0, 0],
         rng := fun j => if j = 0 then (3 : ℝ) / 5 else (2 : ℝ) / 5,
         rngPos := 1 }) :=
    run_trial_eq hgops1 (by
      show Except.ok (measure_all _) = _
      rw [hM1a])
  -- full-measurement run, trial 2: gate phase from the collapsed basis state
  have hgb1 : apply_gop (GOp.hadamard 0)
      { qubit_count := 3, amplitudes := [0, 0, (1 : ℂ), 0, 0, 0, 0, 0],
        rng := fun j => if j = 0 then (3 : ℝ) / 5 else (2 : ℝ) / 5,
        rngPos := 1 } = .ok
      { qubit_count := 3,
        amplitudes := [0, 0, (INV_SQRT_2 : ℂ), (INV_SQRT_2 : ℂ), 0, 0, 0, 0],
        rng := fun j => if j = 0 then (3 : ℝ) / 5 else (2 : ℝ) / 5,
        rngPos := 1 } :=
    apply_hadamard_eval (by norm_num) hL3
  have hgb2 : apply_gop (GOp.hadamard 1)
      { qubit_count := 3,
        amplitudes := [0, 0, (INV_SQRT_2 : ℂ), (INV_SQRT_2 : ℂ), 0, 0, 0, 0],
        rng := fun j => if j = 0 then (3 : ℝ) / 5 else (2 : ℝ) / 5,
        rngPos := 1 } = .ok
      { qubit_count := 3,
        amplitudes := [(((1 : ℝ)/2 : ℝ) : ℂ), (((1 : ℝ)/2 : ℝ) : ℂ),
          ((-((1 : ℝ)/2) : ℝ) : ℂ), ((-((1 : ℝ)/2) : ℝ) : ℂ), 0, 0, 0, 0],
        rng := fun j => if j = 0 then (3 : ℝ) / 5 else (2 : ℝ) / 5,
        rngPos := 1 } :=
    apply_hadamard_eval (by norm_num) hL4
  have hgops2a : run_gops [GOp.hadamard 0, GOp.hadamard 1]
      { qubit_count := 3, amplitudes := [0, 0, (1 : ℂ), 0, 0, 0, 0, 0],
        rng := fun j => if j = 0 then (3 : ℝ) / 5 else (2 : ℝ) / 5,
        rngPos := 1 } = .ok
      { qubit_count := 3,
        amplitudes := [(((1 : ℝ)/2 : ℝ) : ℂ), (((1 : ℝ)/2 : ℝ) : ℂ),
          ((-((1 : ℝ)/2) : ℝ) : ℂ), ((-((1 : ℝ)/2) : ℝ) : ℂ), 0, 0, 0, 0],
        rng := fun j => if j = 0 then (3 : ℝ) / 5 else (2 : ℝ) / 5,
        rngPos := 1 } :=
    run_gops_two hgb1 hgb2
  -- full-measurement run, trial 2: draw 2/5 selects basis index 1
  have hi2a : choose_index
      (([(((1 : ℝ)/2 : ℝ) : ℂ), (((1 : ℝ)/2 : ℝ) : ℂ),
        ((-((1 : ℝ)/2) : ℝ) : ℂ), ((-((1 : ℝ)/2) : ℝ) : ℂ), 0, 0, 0, 0]).map
        Complex.normSq)
      ((fun j => if j = 0 then (3 : ℝ) / 5 else (2 : ℝ) / 5) 1) = 1 := by
    norm_num [choose_index, choose_loop, Complex.normSq_ofReal]
  have hout2a : (List.range 3).map
      (fun q => decide (1 &&& (1 <<< q) ≠ 0)) = [true, false, false] := rfl
  have hfst2a : (measure_all
      { qubit_count := 3,
        amplitudes := [(((1 : ℝ)/2 : ℝ) : ℂ), (((1 : ℝ)/2 : ℝ) : ℂ),
          ((-((1 : ℝ)/2) : ℝ) : ℂ), ((-((1 : ℝ)/2) : ℝ) : ℂ), 0, 0, 0, 0],
        rng := fun j => if j = 0 then (3 : ℝ) / 5 else (2 : ℝ) / 5,
        rngPos := 1 }).1 = [true, false, false] :=
    measure_all_fst hi2a hout2a
  have ht2a : run_trial [GOp.hadamard 0, GOp.hadamard 1] MKind.all
      { qubit_count := 3, amplitudes := [0, 0, (1 : ℂ), 0, 0, 0, 0, 0],
        rng := fun j => if j = 0 then (3 : ℝ) / 5 else (2 : ℝ) / 5,
        rngPos := 1 } = .ok (measure_all
      { qubit_count := 3,
        amplitudes := [(((1 : ℝ)/2 : ℝ) : ℂ), (((1 : ℝ)/2 : ℝ) : ℂ),
          ((-((1 : ℝ)/2) : ℝ) : ℂ), ((-((1 : ℝ)/2) : ℝ) : ℂ), 0, 0, 0, 0],
        rng := fun j => if j = 0 then (3 : ℝ) / 5 else (2 : ℝ) / 5,
        rngPos := 1 }) :=
    run_trial_eq hgops2a rfl
  -- selective run, trial 1: measuring qubits 0 and 2 at sampled index 2
  have hout1c : [0, 2].map
      (fun q => decide (2 &&& (1 <<< q) ≠ 0)) = [false, false] := rfl
  have hz1 : measure_zero_loop [0, 2] [false, false]
      [(((1 : ℝ)/2 : ℝ) : ℂ), (((1 : ℝ)/2 : ℝ) : ℂ), (((1 : ℝ)/2 : ℝ) : ℂ),
       (((1 : ℝ)/2 : ℝ) : ℂ), 0, 0, 0, 0] =
      ([(((1 : ℝ)/2 : ℝ) : ℂ), 0, (((1 : ℝ)/2 : ℝ) : ℂ), 0, 0, 0, 0, 0],
       (1 : ℝ)/2, [0, 2]) := by
    rw [measure_zero_loop_sel02_eight]
    norm_num [Complex.normSq_ofReal]
  have hb1 : Real.sqrt ((1 : ℝ) / ((1 : ℝ)/2)) = Real.sqrt 2 := by
    norm_num
  have hbl1 : measure_bump_loop (Real.sqrt 2) [0, 2]
      [(((1 : ℝ)/2 : ℝ) : ℂ), 0, (((1 : ℝ)/2 : ℝ) : ℂ), 0, 0, 0, 0, 0] =
      [(INV_SQRT_2 : ℂ), 0, (INV_SQRT_2 : ℂ), 0, 0, 0, 0, 0] := by
    rw [measure_bump_loop_sel02_eight]
    simp only [hs12C]
  have hM1c : measure [0, 2]
      { qubit_count := 3,
        amplitudes := [(((1 : ℝ)/2 : ℝ) : ℂ), (((1 : ℝ)/2 : ℝ) : ℂ),
          (((1 : ℝ)/2 : ℝ) : ℂ), (((1 : ℝ)/2 : ℝ) : ℂ), 0, 0, 0, 0],
        rng := fun j => if j = 0 then (3 : ℝ) / 5 else (2 : ℝ) / 5,
        rngPos := 0 } = .ok
      ([false, false],
       { qubit_count := 3,
         amplitudes := [(INV_SQRT_2 : ℂ), 0, (INV_SQRT_2 : ℂ), 0, 0, 0, 0, 0],
         rng := fun j => if j = 0 then (3 : ℝ) / 5 else (2 : ℝ) / 5,
         rngPos := 1 }) :=
    measure_sel_eval (by decide) hi1 hout1c hz1 hb1 hbl1
  have ht1c : run_trial [GOp.hadamard 0, GOp.hadamard 1] (MKind.sel [0, 2])
      { qubit_count := 3, amplitudes := get_ground_state_amplitudes 3,
        rng := fun j => if j = 0 then (3 : ℝ) / 5 else (2 : ℝ) / 5,
        rngPos := 0 } = .ok
      ([false, false],
       { qubit_count := 3,
         amplitudes := [(INV_SQRT_2 : ℂ), 0, (INV_SQRT_2 : ℂ), 0, 0, 0, 0, 0],
         rng := fun j => if j = 0 then (3 : ℝ) / 5 else (2 : ℝ) / 5,
         rngPos := 1 }) :=
    run_trial_eq hgops1 hM1c
  -- selective run, trial 2: gate phase from the partially collapsed state
  have hgc1 : apply_gop (GOp.hadamard 0)
      { qubit_count := 3,
        amplitudes := [(INV_SQRT_2 : ℂ), 0, (INV_SQRT_2 : ℂ), 0, 0, 0, 0, 0],
        rng := fun j => if j = 0 then (3 : ℝ) / 5 else (2 : ℝ) / 5,
        rngPos := 1 } = .ok
      { qubit_count := 3,
        amplitudes := [(((1 : ℝ)/2 : ℝ) : ℂ), (((1 : ℝ)/2 : ℝ) : ℂ),
          (((1 : ℝ)/2 : ℝ) : ℂ), (((1 : ℝ)/2 : ℝ) : ℂ), 0, 0, 0, 0],
        rng := fun j => if j = 0 then (3 : ℝ) / 5 else (2 : ℝ) / 5,
        rngPos := 1 } :=
    apply_hadamard_eval (by norm_num) hL5
  have hgc2 : apply_gop (GOp.hadamard 1)
      { qubit_count := 3,
        amplitudes := [(((1 : ℝ)/2 : ℝ) : ℂ), (((1 : ℝ)/2 : ℝ) : ℂ),
          (((1 : ℝ)/2 : ℝ) : ℂ), (((1 : ℝ)/2 : ℝ) : ℂ), 0, 0, 0, 0],
        rng := fun j => if j = 0 then (3 : ℝ) / 5 else (2 : ℝ) / 5,
        rngPos := 1 } = .ok
      { qubit_count := 3,
        amplitudes := [(INV_SQRT_2 : ℂ), (INV_SQRT_2 : ℂ), 0, 0, 0, 0, 0, 0],
        rng := fun j => if j = 0 then (3 : ℝ) / 5 else (2 : ℝ) / 5,
        rngPos := 1 } :=
    apply_hadamard_eval (by norm_num) hL6
  have hgops2c : run_gops [GOp.hadamard 0, GOp.hadamard 1]
      { qubit_count := 3,
        amplitudes := [(INV_SQRT_2 : ℂ), 0, (INV_SQRT_2 : ℂ), 0, 0, 0, 0, 0],
        rng := fun j => if j = 0 then (3 : ℝ) / 5 else (2 : ℝ) / 5,
        rngPos := 1 } = .ok
      { qubit_count := 3,
        amplitudes := [(INV_SQRT_2 : ℂ), (INV_SQRT_2 : ℂ), 0, 0, 0, 0, 0, 0],
        rng := fun j => if j = 0 then (3 : ℝ) / 5 else (2 : ℝ) / 5,
        rngPos := 1 } :=
    run_gops_two hgc1 hgc2
  -- selective run, trial 2: draw 2/5 now selects basis index 0
  have hi2c : choose_index
      (([(INV_SQRT_2 : ℂ), (INV_SQRT_2 : ℂ), 0, 0, 0, 0, 0, 0]).map
        Complex.normSq)
      ((fun j => if j = 0 then (3 : ℝ) / 5 else (2 : ℝ) / 5) 1) = 0 := by
    norm_num [choose_index, choose_loop, Complex.normSq_ofReal, inv_sqrt_two_sq]
  have hout2c : [0, 2].map
      (fun q => decide (0 &&& (1 <<< q) ≠ 0)) = [false, false] := rfl
  obtain ⟨simC4, hM2c⟩ := @measure_sel_eval_fst 3 1
    [(INV_SQRT_2 : ℂ), (INV_SQRT_2 : ℂ), 0, 0, 0, 0, 0, 0]
    (fun j => if j = 0 then (3 : ℝ) / 5 else (2 : ℝ) / 5) 0 [0, 2]
    [false, false] (by decide) hi2c hout2c
  have ht2c : run_trial [GOp.hadamard 0, GOp.hadamard 1] (MKind.sel [0, 2])
      { qubit_count := 3,
        amplitudes := [(INV_SQRT_2 : ℂ), 0, (INV_SQRT_2 : ℂ), 0, 0, 0, 0, 0],
        rng := fun j => if j = 0 then (3 : ℝ) / 5 else (2 : ℝ) / 5,
        rngPos := 1 } = .ok ([false, false], simC4) :=
    run_trial_eq hgops2c hM2c
  -- assemble the two runs
  refine ⟨{ qubit_count := 3, amplitudes := get_ground_state_amplitudes 3,
            rng := fun j => if j = 0 then (3 : ℝ) / 5 else (2 : ℝ) / 5,
            rngPos := 0 },
          ([[false, true, false], [true, false, false]],
           (measure_all
             { qubit_count := 3,
               amplitudes := [(((1 : ℝ)/2 : ℝ) : ℂ), (((1 : ℝ)/2 : ℝ) : ℂ),
                 ((-((1 : ℝ)/2) : ℝ) : ℂ), ((-((1 : ℝ)/2) : ℝ) : ℂ), 0, 0, 0, 0],
               rng := fun j => if j = 0 then (3 : ℝ) / 5 else (2 : ℝ) / 5,
               rngPos := 1 }).2),
          ([[false, false], [false, false]], simC4), ?_, ?_, ?_, rfl, rfl, ?_⟩
  · rw [new, if_pos (by norm_num [MAX_QUBIT_COUNT])]
    rfl
  · rw [run_trials_two ht1a ht2a, hfst2a]
  · exact run_trials_two ht1c ht2c
  · show ¬ ((([[false, false], [false, false]] : List (List Bool)).getD 1
        []).getD 0 false =
      (([[false, true, false], [true, false, false]] : List (List Bool)).getD 1
        []).getD 0 false)
    decide

end QSim
